import Mathlib

/-!
# Shallow embedding of `update.c` (SysToolsLib), Unix build

The C program copies files from source locations into a destination when the
destination is missing or older.  This development embeds the functions of
`C/SRC/update.c` as Lean functions over an explicit model of the filesystem
and proves (or refutes at concrete inputs) properties of them.

Conventions of the embedding

* the build modelled is the `__unix__` one: the separator is `/`, symbolic
  links are supported (`S_ISLNK(S_IFLNK)` holds), pattern matching is case
  sensitive by default, `fullpath` is `realpath`;
* a C string is the list of its characters, without the terminating NUL;
* C `int` results are `Int`; system calls return `0` or `-1` together with an
  `Errno`;
* the global option flags are the fields of `Env`;
* output on `stdout` and `stderr` is not modelled;
* the filesystem is a finite map from canonical paths to entities; a path
  string is resolved lexically (`.`, `..` and repeated separators are resolved
  on the string) and a symbolic link is followed only as the last component;
* access times and the buffering of `stdio` are not modelled: `fread` and
  `fwrite` act on the file directly;
* a system call fails when the state of the disk makes it fail (missing
  entry, wrong type, missing owner permission on a file to open) or when a
  failure is injected for it (`Fault`);
* recursive functions take a `fuel` argument bounding the recursion depth and
  return `none` as result when it is exhausted; the world reached so far is
  still returned.
-/

namespace Update

/-! ## C strings and constants -/

/-- C string: the characters before the terminating NUL. -/
abbrev CStr := List Char

/-- Directory separator of the Unix build. -/
def DIRSEPARATOR_CHAR : Char := '/'

/-- Directory separator of the Unix build, as a string. -/
def DIRSEPARATOR_STRING : CStr := ['/']

/-- Pattern matching all files in the Unix build. -/
def PATTERN_ALL : CStr := ['*']

/-- Size of a pathname buffer (`PATHNAME_SIZE`), Linux value of `PATH_MAX`. -/
def PATH_MAX : Nat := 4096

/-- Size of the copy buffer outside MS-DOS. -/
def BUFFERSIZE : Nat := 1024 * 1024

/-- Index of the last occurrence of `c` in `s` (C `strrchr`), if there is one. -/
def strrchr (s : CStr) (c : Char) : Option Nat :=
  match s with
  | [] => none
  | x :: xs =>
    match strrchr xs c with
    | some i => some (i + 1)
    | none => if x = c then some 0 else none

/-- Truth value of C `strchr (s, c)`: does `c` occur in `s`. -/
def strchr (s : CStr) (c : Char) : Bool := decide (c ∈ s)

/-- Truth value of C `strpbrk (s, "*?")`. -/
def hasWildcard (s : CStr) : Bool := strchr s '*' || strchr s '?'

/-! ## Filesystem model -/

/-- Canonical absolute path: the list of components below the root. -/
abbrev Key := List CStr

/-- File types, as reported in `st_mode` and in `d_type`. -/
inductive Kind where
  | fifo
  | chr
  | dir
  | blk
  | reg
  | lnk
  | sock
  deriving DecidableEq, Repr

/-- The `S_IFMT` field of `st_mode` shifted right by 12 bits:
`S_IFIFO = 0o010000`, `S_IFCHR = 0o020000`, `S_IFDIR = 0o040000`,
`S_IFBLK = 0o060000`, `S_IFREG = 0o100000`, `S_IFLNK = 0o120000`,
`S_IFSOCK = 0o140000`. -/
def Kind.fmt : Kind → Nat
  | .fifo => 1
  | .chr => 2
  | .dir => 4
  | .blk => 6
  | .reg => 8
  | .lnk => 10
  | .sock => 12

/-- One filesystem entity. `data` is the content of a regular file, `target`
the target string of a symbolic link. -/
structure Node where
  kind : Kind
  perm : Nat
  mtime : Int
  data : List Nat
  target : CStr
  deriving DecidableEq, Repr

/-- Error numbers that the model distinguishes. -/
inductive Errno where
  | ENOENT
  | EACCES
  | ENOTDIR
  | EISDIR
  | EEXIST
  | ENOTEMPTY
  | ELOOP
  | ENAMETOOLONG
  | EINVAL
  | ENOSYS
  | EIO
  deriving DecidableEq, Repr

/-- Result of a system call. -/
inductive Res (α : Type) where
  | ok (a : α)
  | err (e : Errno)
  deriving DecidableEq, Repr

/-- The C return code of a system call: `0` or `-1`. -/
def Res.rc {α : Type} : Res α → Int
  | .ok _ => 0
  | .err _ => -1

/-- Injected failures: the named operation fails on the entity at that key
(for `read` and `write`, at that file offset). -/
inductive Fault where
  | read (k : Key) (off : Nat)
  | write (k : Key) (off : Nat)
  | unlink (k : Key)
  | rmdir (k : Key)
  | mkdir (k : Key)
  | chmod (k : Key)
  | utimes (k : Key)
  | symlink (k : Key)
  deriving DecidableEq, Repr

/-- The state that system calls read: the entities by canonical path, the
current directory, the clock value given to written files, and the injected
failures. -/
structure Disk where
  nodes : List (Key × Node)
  cwd : Key
  now : Int
  faults : List Fault
  deriving DecidableEq, Repr

/-- Mutating system calls, as issued (whether or not they succeed), with the
path strings they were given. -/
inductive Call where
  | fopen_w (p : CStr)
  | fwrite (k : Key) (off : Nat) (n : Nat)
  | unlink (p : CStr)
  | rmdir (p : CStr)
  | mkdir (p : CStr) (mode : Nat)
  | chmod (p : CStr) (mode : Nat)
  | lchmod (p : CStr) (mode : Nat)
  | lutimes (p : CStr) (mtime : Int)
  | symlink (target : CStr) (p : CStr)
  deriving DecidableEq, Repr

/-- The world: the disk and the log of mutating calls issued so far, most
recent first. -/
structure World where
  disk : Disk
  calls : List Call
  deriving DecidableEq, Repr

/-- First entity stored under key `k`. -/
def lookup (k : Key) : List (Key × Node) → Option Node
  | [] => none
  | (k1, n) :: rest => if k1 = k then some n else lookup k rest

/-- Replace the entity under `k`, or append it when there is none. -/
def store (k : Key) (n : Node) : List (Key × Node) → List (Key × Node)
  | [] => [(k, n)]
  | (k1, n1) :: rest => if k1 = k then (k, n) :: rest else (k1, n1) :: store k n rest

/-- Remove every entity stored under `k`. -/
def remove (k : Key) : List (Key × Node) → List (Key × Node)
  | [] => []
  | (k1, n1) :: rest => if k1 = k then remove k rest else (k1, n1) :: remove k rest

/-- Split a string at every occurrence of `c`. -/
def splitOn (c : Char) : CStr → List CStr
  | [] => [[]]
  | x :: xs =>
    if x = c then [] :: splitOn c xs
    else
      match splitOn c xs with
      | [] => [[x]]
      | h :: t => (x :: h) :: t

/-- One step of lexical path resolution: empty and `.` components are
skipped, `..` goes to the parent, any other component is entered. -/
def normStep (acc : Key) (comp : CStr) : Key :=
  if comp = [] ∨ comp = ['.'] then acc
  else if comp = ['.', '.'] then acc.dropLast
  else acc ++ [comp]

/-- Canonical key of a path string, resolved lexically from the root for an
absolute path and from `cwd` for a relative one. -/
def canon (cwd : Key) (p : CStr) : Key :=
  (splitOn '/' p).foldl normStep (if p.head? = some '/' then [] else cwd)

/-- Follow symbolic links in final position, at most `fuel` times. -/
def chase (nodes : List (Key × Node)) : Nat → Key → Res Key
  | 0, _ => .err .ELOOP
  | fuel + 1, k =>
    match lookup k nodes with
    | none => .ok k
    | some n =>
      if n.kind = .lnk then
        (if n.target = [] then .err .ENOENT
         else chase nodes fuel (canon k.dropLast n.target))
      else .ok k

/-- Does the path string end in a separator. -/
def trailingSlash (p : CStr) : Bool := decide (p.getLast? = some '/')

/-- Resolve a path string to a key. The empty path and a path that does not
fit in `PATH_MAX` fail. A final symbolic link is followed when `follow` is
set or when the path ends in a separator. -/
def namei (d : Disk) (p : CStr) (follow : Bool) : Res Key :=
  if p = [] then .err .ENOENT
  else if PATH_MAX ≤ p.length then .err .ENAMETOOLONG
  else if follow || trailingSlash p then chase d.nodes 40 (canon d.cwd p)
  else .ok (canon d.cwd p)

/-- Resolve a path string to an existing entity. A path ending in a
separator must name a directory. -/
def entry (d : Disk) (p : CStr) (follow : Bool) : Res (Key × Node) :=
  match namei d p follow with
  | .err e => .err e
  | .ok k =>
    match lookup k d.nodes with
    | none => .err .ENOENT
    | some n =>
      if trailingSlash p && decide (n.kind ≠ .dir) then .err .ENOTDIR else .ok (k, n)

/-- The fields of `struct stat` that the program reads. -/
structure Stat where
  st_mode : Nat
  st_mtime : Int
  st_size : Nat
  deriving DecidableEq, Repr

/-- The `st_mode` of an entity: file type bits and permission bits. -/
def Node.st_mode (n : Node) : Nat := n.kind.fmt * 4096 + n.perm % 4096

/-- The `struct stat` of an entity. -/
def Node.stat (n : Node) : Stat := ⟨n.st_mode, n.mtime, n.data.length⟩

/-- The file type field `(m & S_IFMT) >> 12` of a mode. -/
def fmtOf (m : Nat) : Nat := m / 4096 % 16

/-- POSIX `S_ISDIR`: `(m & S_IFMT) == S_IFDIR`. -/
def S_ISDIR (m : Nat) : Bool := decide (fmtOf m = 4)

/-- POSIX `S_ISLNK`: `(m & S_IFMT) == S_IFLNK`. -/
def S_ISLNK (m : Nat) : Bool := decide (fmtOf m = 10)

/-- POSIX `S_ISREG`: `(m & S_IFMT) == S_IFREG`. -/
def S_ISREG (m : Nat) : Bool := decide (fmtOf m = 8)

/-- Truth value of `m & S_IFDIR`, a test of bit 14 (`S_IFDIR = 0o040000`). -/
def hasDirBit (m : Nat) : Bool := m.testBit 14

/-- Truth value of `m & S_IWRITE`, a test of bit 7 (`S_IWRITE = 0o200`). -/
def hasWriteBit (m : Nat) : Bool := m.testBit 7

/-- Truth value of `m & S_IREAD`, a test of bit 8 (`S_IREAD = 0o400`). -/
def hasReadBit (m : Nat) : Bool := m.testBit 8

/-- The mode `m | S_IWRITE`. -/
def orWrite (m : Nat) : Nat := m ||| 128

/-! ### Read-only system calls -/

/-- System call `lstat`: the final symbolic link is not followed. -/
def lstat (d : Disk) (p : CStr) : Res Stat :=
  match entry d p false with
  | .ok (_, n) => .ok n.stat
  | .err e => .err e

/-- System call `stat`: the final symbolic link is followed. -/
def stat (d : Disk) (p : CStr) : Res Stat :=
  match entry d p true with
  | .ok (_, n) => .ok n.stat
  | .err e => .err e

/-- System call `access (p, F_OK)`: `0` when the path resolves, following
links, and `-1` otherwise. -/
def access (d : Disk) (p : CStr) : Int := (stat d p).rc

/-- Library call `fopen (p, "r")`: the key of the opened file. Opening needs
the owner read permission. -/
def fopen_r (d : Disk) (p : CStr) : Res Key :=
  match entry d p true with
  | .err e => .err e
  | .ok (k, n) => if hasReadBit n.perm then .ok k else .err .EACCES

/-- Length of an open file (`_filelength`). -/
def filelength (d : Disk) (k : Key) : Nat :=
  match lookup k d.nodes with
  | some n => n.data.length
  | none => 0

/-- Library call `fread (buffer, n, 1, f)` at offset `off`: the `n` bytes
read, or `none` when fewer than `n` bytes could be read. -/
def fread (d : Disk) (k : Key) (off n : Nat) : Option (List Nat) :=
  if Fault.read k off ∈ d.faults then none
  else
    match lookup k d.nodes with
    | none => none
    | some nd =>
      if ((nd.data.drop off).take n).length = n then some ((nd.data.drop off).take n)
      else none

/-- System call `readlink`: the target string of a symbolic link. -/
def readlink (d : Disk) (p : CStr) : Res CStr :=
  match entry d p false with
  | .err e => .err e
  | .ok (_, n) => if n.kind = .lnk then .ok n.target else .err .EINVAL

/-- Path string of a key. -/
def render : Key → CStr
  | [] => ['/']
  | [c] => '/' :: c
  | c :: rest => '/' :: c ++ render rest

/-- Library call `realpath`: the absolute path of an existing entity, links
followed. -/
def realpath (d : Disk) (p : CStr) : Option CStr :=
  match entry d p true with
  | .ok (k, _) => some (render k)
  | .err _ => none

/-- Directory entry returned by `readdir`. -/
structure Dirent where
  d_name : CStr
  d_type : Kind
  deriving DecidableEq, Repr

/-- Entries of the directory at key `k`, in disk order. -/
def children (k : Key) : List (Key × Node) → List Dirent
  | [] => []
  | (k1, n) :: rest =>
    match k1.getLast? with
    | none => children k rest
    | some name =>
      if k1.dropLast = k ∧ name ≠ [] then ⟨name, n.kind⟩ :: children k rest
      else children k rest

/-- Calls `opendir` and then `readdir` until the end: the entries `.` and
`..` followed by the entries of the directory. Reading needs the owner read
permission. -/
def opendir (d : Disk) (p : CStr) : Res (List Dirent) :=
  match entry d p true with
  | .err e => .err e
  | .ok (k, n) =>
    if n.kind ≠ .dir then .err .ENOTDIR
    else if hasReadBit n.perm then
      .ok (⟨['.'], .dir⟩ :: ⟨['.', '.'], .dir⟩ :: children k d.nodes)
    else .err .EACCES

/-! ### Mutating system calls -/

/-- Record a mutating call in the log. -/
def World.log (w : World) (c : Call) : World := ⟨w.disk, c :: w.calls⟩

/-- Store an entity on the disk. -/
def World.put (w : World) (k : Key) (n : Node) : World :=
  ⟨{ w.disk with nodes := store k n w.disk.nodes }, w.calls⟩

/-- Remove an entity from the disk. -/
def World.del (w : World) (k : Key) : World :=
  ⟨{ w.disk with nodes := remove k w.disk.nodes }, w.calls⟩

/-- A new entity can be created under key `k` when the parent of `k` is a
directory. -/
def parentIsDir (d : Disk) (k : Key) : Res Unit :=
  if k = [] then .err .EEXIST
  else
    match lookup k.dropLast d.nodes with
    | none => .err .ENOENT
    | some n => if n.kind = .dir then .ok () else .err .ENOTDIR

/-- Library call `fopen (p, "wb")`: creates the file, or truncates an
existing one, which needs the owner write permission. -/
def fopen_w (w : World) (p : CStr) : World × Res Key :=
  match namei w.disk p true with
  | .err e => (w.log (.fopen_w p), .err e)
  | .ok k =>
    if trailingSlash p then (w.log (.fopen_w p), .err .EISDIR)
    else
      match lookup k w.disk.nodes with
      | some n =>
        if n.kind = .dir then (w.log (.fopen_w p), .err .EISDIR)
        else if hasWriteBit n.perm then
          ((w.log (.fopen_w p)).put k { n with data := [], mtime := w.disk.now }, .ok k)
        else (w.log (.fopen_w p), .err .EACCES)
      | none =>
        match parentIsDir w.disk k with
        | .err e => (w.log (.fopen_w p), .err e)
        | .ok _ => ((w.log (.fopen_w p)).put k ⟨.reg, 0o644, w.disk.now, [], []⟩, .ok k)

/-- Library call `fwrite (buffer, n, 1, f)` at offset `off` of the open file
`k`: `true` when the `n` bytes were written. -/
def fwrite (w : World) (k : Key) (off : Nat) (bytes : List Nat) : World × Bool :=
  if Fault.write k off ∈ w.disk.faults then (w.log (.fwrite k off bytes.length), false)
  else
    match lookup k w.disk.nodes with
    | none => (w.log (.fwrite k off bytes.length), false)
    | some n =>
      ((w.log (.fwrite k off bytes.length)).put k
        { n with data := n.data.take off ++ bytes, mtime := w.disk.now }, true)

/-- System call `unlink`. -/
def unlink (w : World) (p : CStr) : World × Res Unit :=
  match entry w.disk p false with
  | .err e => (w.log (.unlink p), .err e)
  | .ok (k, n) =>
    if n.kind = .dir then (w.log (.unlink p), .err .EISDIR)
    else if Fault.unlink k ∈ w.disk.faults then (w.log (.unlink p), .err .EACCES)
    else ((w.log (.unlink p)).del k, .ok ())

/-- System call `rmdir`: removes an empty directory. -/
def rmdir (w : World) (p : CStr) : World × Res Unit :=
  if p = [] then (w.log (.rmdir p), .err .ENOENT)
  else if PATH_MAX ≤ p.length then (w.log (.rmdir p), .err .ENAMETOOLONG)
  else
    match lookup (canon w.disk.cwd p) w.disk.nodes with
    | none => (w.log (.rmdir p), .err .ENOENT)
    | some n =>
      if n.kind ≠ .dir then (w.log (.rmdir p), .err .ENOTDIR)
      else if children (canon w.disk.cwd p) w.disk.nodes ≠ [] then
        (w.log (.rmdir p), .err .ENOTEMPTY)
      else if canon w.disk.cwd p = [] ∨ Fault.rmdir (canon w.disk.cwd p) ∈ w.disk.faults then
        (w.log (.rmdir p), .err .EACCES)
      else ((w.log (.rmdir p)).del (canon w.disk.cwd p), .ok ())

/-- System call `mkdir`. -/
def mkdir (w : World) (p : CStr) (mode : Nat) : World × Res Unit :=
  if p = [] then (w.log (.mkdir p mode), .err .ENOENT)
  else if PATH_MAX ≤ p.length then (w.log (.mkdir p mode), .err .ENAMETOOLONG)
  else
    match lookup (canon w.disk.cwd p) w.disk.nodes with
    | some _ => (w.log (.mkdir p mode), .err .EEXIST)
    | none =>
      match parentIsDir w.disk (canon w.disk.cwd p) with
      | .err e => (w.log (.mkdir p mode), .err e)
      | .ok _ =>
        if Fault.mkdir (canon w.disk.cwd p) ∈ w.disk.faults then
          (w.log (.mkdir p mode), .err .EACCES)
        else
          ((w.log (.mkdir p mode)).put (canon w.disk.cwd p)
            ⟨.dir, mode % 4096, w.disk.now, [], []⟩, .ok ())

/-- System call `chmod`: the final symbolic link is followed. -/
def chmod (w : World) (p : CStr) (mode : Nat) : World × Res Unit :=
  match entry w.disk p true with
  | .err e => (w.log (.chmod p mode), .err e)
  | .ok (k, n) =>
    if Fault.chmod k ∈ w.disk.faults then (w.log (.chmod p mode), .err .EACCES)
    else ((w.log (.chmod p mode)).put k { n with perm := mode % 4096 }, .ok ())

/-- Library call `lchmod`: the final symbolic link is not followed, and the
permissions of a symbolic link cannot be changed. -/
def lchmod (w : World) (p : CStr) (mode : Nat) : World × Res Unit :=
  match entry w.disk p false with
  | .err e => (w.log (.lchmod p mode), .err e)
  | .ok (k, n) =>
    if n.kind = .lnk then (w.log (.lchmod p mode), .err .ENOSYS)
    else if Fault.chmod k ∈ w.disk.faults then (w.log (.lchmod p mode), .err .EACCES)
    else ((w.log (.lchmod p mode)).put k { n with perm := mode % 4096 }, .ok ())

/-- Library call `lutimes`: sets the modification time of the entity itself. -/
def lutimes (w : World) (p : CStr) (mtime : Int) : World × Res Unit :=
  match entry w.disk p false with
  | .err e => (w.log (.lutimes p mtime), .err e)
  | .ok (k, n) =>
    if Fault.utimes k ∈ w.disk.faults then (w.log (.lutimes p mtime), .err .EACCES)
    else ((w.log (.lutimes p mtime)).put k { n with mtime := mtime }, .ok ())

/-- System call `symlink`. -/
def symlink (w : World) (target p : CStr) : World × Res Unit :=
  if p = [] ∨ target = [] then (w.log (.symlink target p), .err .ENOENT)
  else if PATH_MAX ≤ p.length then (w.log (.symlink target p), .err .ENAMETOOLONG)
  else
    match lookup (canon w.disk.cwd p) w.disk.nodes with
    | some _ => (w.log (.symlink target p), .err .EEXIST)
    | none =>
      match parentIsDir w.disk (canon w.disk.cwd p) with
      | .err e => (w.log (.symlink target p), .err e)
      | .ok _ =>
        if Fault.symlink (canon w.disk.cwd p) ∈ w.disk.faults then
          (w.log (.symlink target p), .err .EACCES)
        else
          ((w.log (.symlink target p)).put (canon w.disk.cwd p)
            ⟨.lnk, 0o777, w.disk.now, [], target⟩, .ok ())

/-! ## The program

### Options -/

/-- The global option flags of `update.c`, with the two external inputs of
the run: the `fnmatch` function of the C library, taken as given (`false`
when it returns `FNM_NOMATCH`), and `junk`, the bytes that the uninitialised
stack buffer `target1` of `update_link` holds on entry (NUL bytes included;
the bytes beyond the end of the list are NUL). -/
structure Env where
  test : Bool
  showDest : Bool
  fresh : Bool
  force : Bool
  iVerbose : Bool
  copyempty : Bool
  iProgress : Bool
  iRecur : Bool
  iErase : Bool
  iFnmFlag : Nat
  fnmatch : CStr → CStr → Nat → Bool
  junk : CStr

/-- Options of the zap functions: one field per bit of `zapOpts.iFlags`
(`FLAG_VERBOSE`, `FLAG_NOEXEC`, `FLAG_RECURSE`, `FLAG_NOCASE`, `FLAG_FORCE`).
The display string `pszPrefix` is not modelled. -/
structure zapOpts where
  verbose : Bool
  noexec : Bool
  recurse : Bool
  nocase : Bool
  force : Bool
  deriving DecidableEq, Repr

/-! ### File information -/

/-- Source `exists`: does this pathname exist, by `lstat`. -/
def exists_ (d : Disk) (name : CStr) : Bool :=
  match lstat d name with
  | .ok _ => true
  | .err _ => false

/-- Source `is_link`. -/
def is_link (d : Disk) (name : CStr) : Bool :=
  match lstat d name with
  | .ok st => S_ISLNK st.st_mode
  | .err _ => false

/-- Source `exist_file`: can the file be opened for reading. -/
def exist_file (d : Disk) (name : CStr) : Bool :=
  match fopen_r d name with
  | .ok _ => true
  | .err _ => false

/-- Source `file_empty`: the file can be opened and its length is zero. -/
def file_empty (d : Disk) (name : CStr) : Bool :=
  match fopen_r d name with
  | .ok k => decide (filelength d k = 0)
  | .err _ => false

/-- Source `is_directory`: wildcards are refused, then `lstat` and the test
`st_mode & S_IFDIR`. -/
def is_directory (d : Disk) (name : CStr) : Bool :=
  if strchr name '?' || strchr name '*' then false
  else
    match lstat d name with
    | .ok st => hasDirBit st.st_mode
    | .err _ => false

/-- Source `getmodified`: the modification time, `0` for an empty name or a
failed `lstat`. -/
def getmodified (d : Disk) (name : CStr) : Int :=
  if name = [] then 0
  else
    match lstat d name with
    | .ok st => st.st_mtime
    | .err _ => 0

/-- Source `older`: is file `p1` older than file `p2`. -/
def older (d : Disk) (p1 p2 : CStr) : Bool :=
  if getmodified d p2 = 0 then false
  else decide (getmodified d p1 ≤ getmodified d p2)

/-! ### Path utilities -/

/-- Source `strsfp`: split a pathname into the path and the name. -/
def strsfp (pathname : CStr) : CStr × CStr :=
  match (match strrchr pathname '/' with
         | some i => some i
         | none => strrchr pathname ':') with
  | some n =>
    if pathname.take n = [] then (DIRSEPARATOR_STRING, pathname.drop (n + 1))
    else if (pathname.drop (n + 1)).head? = some ':' ∧ (pathname.take n).length = 1 then
      (pathname.take n ++ [':'], pathname.drop (n + 1))
    else if (pathname.take n)[1]? = some ':' ∧ (pathname.take n).length = 2 then
      (pathname.take n ++ DIRSEPARATOR_STRING, pathname.drop (n + 1))
    else (pathname.take n, pathname.drop (n + 1))
  | none => ([], pathname)

/-- Source `strmfp`: make a pathname from a path and a name. -/
def strmfp (path name : CStr) : CStr :=
  if 0 < path.length ∧ path.getLast? ≠ some DIRSEPARATOR_CHAR ∧ path.getLast? ≠ some ':' then
    path ++ DIRSEPARATOR_STRING ++ name
  else path ++ name

/-- Source `NewPathName`: join a directory name and a file name. -/
def NewPathName (path name : CStr) : CStr :=
  if 0 < path.length ∧ path.getLast? ≠ some DIRSEPARATOR_CHAR then
    path ++ [DIRSEPARATOR_CHAR] ++ name
  else path ++ name

/-! ### Creating directories -/

/-- Source `isdir`, with the depth of its recursion through `realpath`
bounded by `fuel`. -/
def isdirAux : Nat → Disk → CStr → Bool
  | 0, _, _ => false
  | fuel + 1, d, pszPath =>
    match lstat d pszPath with
    | .err _ => false
    | .ok st =>
      if S_ISLNK st.st_mode then
        match realpath d pszPath with
        | none => false
        | some pszReal => isdirAux fuel d pszReal
      else S_ISDIR st.st_mode

/-- Source `isdir`. The result of `realpath` is not a link, so the recursion
has depth two at most. -/
def isdir (d : Disk) (pszPath : CStr) : Bool := isdirAux 2 d pszPath

/-- Source `mkdir1`: create one directory. -/
def mkdir1 (w : World) (pszPath : CStr) (pszMode : Nat) : World × Int :=
  ((mkdir w pszPath pszMode).1, (mkdir w pszPath pszMode).2.rc)

/-- The `for` loop of source `mkdirp`, entered with `c` non-NUL: `pc` is the
index of the scanning pointer into `pszPath` and `iSkipTest` the flag of the
same name. Each round moves `pc` forward, so `pszPath.length + 1` rounds of
fuel are enough. -/
def mkdirpLoop : Nat → World → CStr → Nat → Nat → Bool → World × Int
  | 0, w, _, _, _, _ => (w, 0)
  | fuel + 1, w, pszPath, pszMode, pc, iSkipTest =>
    let pc1 := pc + ((pszPath.drop pc).takeWhile (fun x => decide (x = DIRSEPARATOR_CHAR))).length
    let pc2 := pc1 + ((pszPath.drop pc1).takeWhile (fun x => decide (x ≠ DIRSEPARATOR_CHAR))).length
    if iSkipTest || !(isdir w.disk (pszPath.take pc2)) then
      (if (mkdir1 w (pszPath.take pc2) pszMode).2 ≠ 0 then mkdir1 w (pszPath.take pc2) pszMode
       else if pszPath[pc2]? = none then ((mkdir1 w (pszPath.take pc2) pszMode).1, 0)
       else if pszPath[pc2 + 1]? = none then ((mkdir1 w (pszPath.take pc2) pszMode).1, 0)
       else mkdirpLoop fuel (mkdir1 w (pszPath.take pc2) pszMode).1 pszPath pszMode pc2 true)
    else if pszPath[pc2]? = none then (w, 0)
    else if pszPath[pc2 + 1]? = none then (w, 0)
    else mkdirpLoop fuel w pszPath pszMode pc2 false

/-- Source `mkdirp`: create a directory and all its parents. -/
def mkdirp (w : World) (pszPath0 : CStr) (pszMode : Nat) : World × Int :=
  let pc : Nat :=
    if pszPath0 ≠ [] ∧ pszPath0[1]? = some ':' ∧ pszPath0[2]? = some DIRSEPARATOR_CHAR
    then 2 else 0
  if pszPath0[pc]? = none then (w, 0)
  else mkdirpLoop (pszPath0.length + 1) w pszPath0 pszMode pc false

/-- The mode given to created directories:
`S_IRWXU | S_IRWXG | S_IROTH | S_IXOTH`. -/
def DIRMODE : Nat := 0o775

/-! ### Copying -/

/-- Source `copydate`: copy the permissions and the times of `pszFromFile`
onto `pszToFile`. The result of `lstat` is not checked: when it fails the
zero-initialised `stFrom` is used. The result is that of `lutimes`. -/
def copydate (w : World) (pszToFile pszFromFile : CStr) : World × Int :=
  let stFrom : Stat :=
    match lstat w.disk pszFromFile with
    | .ok st => st
    | .err _ => ⟨0, 0, 0⟩
  let w1 := (lchmod w pszToFile stFrom.st_mode).1
  ((lutimes w1 pszToFile stFrom.st_mtime).1, (lutimes w1 pszToFile stFrom.st_mtime).2.rc)

/-- The transfer loop of source `copyf`: `ks` and `kd` are the open source and
destination files. Each round moves `offset` forward by at least one byte, so
`filelen + 1` rounds of fuel are enough. The result is `0` when the loop ends,
`1` after a failed read and `2` after a failed write. -/
def copyLoop (name2 : CStr) (ks kd : Key) (filelen : Nat) : Nat → World → Nat → World × Int
  | 0, w, _ => (w, 0)
  | fuel + 1, w, offset =>
    if offset < filelen then
      match fread w.disk ks offset (min BUFFERSIZE (filelen - offset)) with
      | none => ((unlink w name2).1, 1)
      | some buf =>
        if (fwrite w kd offset buf).2 then
          copyLoop name2 ks kd filelen fuel (fwrite w kd offset buf).1
            (offset + min BUFFERSIZE (filelen - offset))
        else ((unlink (fwrite w kd offset buf).1 name2).1, 2)
    else (w, 0)

/-- The part of source `copyf` after the target file is open: the transfer
loop and then `copydate`. -/
def copyfTransfer (w : World) (name1 name2 : CStr) (ks kd : Key) (filelen : Nat) : World × Int :=
  if (copyLoop name2 ks kd filelen (filelen + 1) w 0).2 ≠ 0 then
    copyLoop name2 ks kd filelen (filelen + 1) w 0
  else ((copydate (copyLoop name2 ks kd filelen (filelen + 1) w 0).1 name2 name1).1, 0)

/-- Source `copyf`: copy one file. Result `0` = success, `1` = read error,
`2` = write error. -/
def copyf (e : Env) (w : World) (name1 name2 : CStr) : World × Int :=
  match fopen_r w.disk name1 with
  | .err _ => (w, 1)
  | .ok ks =>
    if filelength w.disk ks ≠ 0 ∧ fread w.disk ks 0 1 = none then (w, 1)
    else
      match fopen_w w name2 with
      | (w1, .ok kd) => copyfTransfer w1 name1 name2 ks kd (filelength w.disk ks)
      | (w1, .err er) =>
        if er = .EACCES ∧ e.force = true then
          let iMode : Nat :=
            orWrite (match stat w1.disk name2 with
                     | .ok st => st.st_mode
                     | .err _ => 0)
          match chmod w1 name2 iMode with
          | (w2, .ok _) =>
            (match fopen_w w2 name2 with
             | (w3, .ok kd) => copyfTransfer w3 name1 name2 ks kd (filelength w.disk ks)
             | (w3, .err _) => (w3, 2))
          | (w2, .err _) => (w2, 2)
        else (w1, 2)

/-- Source `copy`: copy one file, creating the target directory if needed. -/
def copy (e : Env) (w : World) (name1 name2 : CStr) : World × Int :=
  if exists_ w.disk (strsfp name2).1 then copyf e w name1 name2
  else if (mkdirp w (strsfp name2).1 DIRMODE).2 ≠ 0 then mkdirp w (strsfp name2).1 DIRMODE
  else copyf e (mkdirp w (strsfp name2).1 DIRMODE).1 name1 name2

/-! ### Deleting -/

/-- Source `zapFileM`: delete a file or a link whose mode is known. -/
def zapFileM (w : World) (path : CStr) (iMode : Nat) (zo : zapOpts) : World × Int :=
  if S_ISDIR iMode then (w, 1)
  else if zo.noexec then (w, 0)
  else if zo.force && !(hasWriteBit iMode) then
    (if -(chmod w path (orWrite iMode)).2.rc ≠ 0 then
       ((chmod w path (orWrite iMode)).1, -(chmod w path (orWrite iMode)).2.rc)
     else
       ((unlink (chmod w path (orWrite iMode)).1 path).1,
        -(unlink (chmod w path (orWrite iMode)).1 path).2.rc))
  else ((unlink w path).1, -(unlink w path).2.rc)

/-- Source `zapFile`: delete a file or a link. A path that `lstat` reports as
missing (`ENOENT`) is a success. -/
def zapFile (w : World) (path : CStr) (zo : zapOpts) : World × Int :=
  match lstat w.disk path with
  | .err .ENOENT => (w, 0)
  | .err _ => (w, 1)
  | .ok st => zapFileM w path st.st_mode zo

/-- The `readdir` loop of source `zapDirM` over the entries still to read;
`zapSub` is the recursive call of `zapDirM` on a subdirectory and `nErr` the
count of failures so far. -/
def zapDirLoop (zapSub : World → CStr → Nat → World × Option Int) (path : CStr) (zo : zapOpts) :
    List Dirent → World → Int → World × Option Int
  | [], w, nErr => (w, some nErr)
  | de :: rest, w, nErr =>
    match lstat w.disk (NewPathName path de.d_name) with
    | .err _ => zapDirLoop zapSub path zo rest w (nErr + 1)
    | .ok st =>
      match de.d_type with
      | .dir =>
        if de.d_name = ['.'] ∨ de.d_name = ['.', '.'] then zapDirLoop zapSub path zo rest w nErr
        else
          match zapSub w (NewPathName path de.d_name) st.st_mode with
          | (w1, none) => (w1, none)
          | (w1, some iErr) => zapDirLoop zapSub path zo rest w1 (nErr + iErr)
      | .lnk =>
        zapDirLoop zapSub path zo rest (zapFileM w (NewPathName path de.d_name) st.st_mode zo).1
          (nErr + (zapFileM w (NewPathName path de.d_name) st.st_mode zo).2)
      | .reg =>
        zapDirLoop zapSub path zo rest (zapFileM w (NewPathName path de.d_name) st.st_mode zo).1
          (nErr + (zapFileM w (NewPathName path de.d_name) st.st_mode zo).2)
      | _ => zapDirLoop zapSub path zo rest w (nErr + 1)

/-- The end of source `zapDirM`, after the `readdir` loop: remove the
directory itself unless in no-exec mode. -/
def zapDirEnd (path : CStr) (zo : zapOpts) (r : World × Option Int) : World × Option Int :=
  match r with
  | (w1, none) => (w1, none)
  | (w1, some nErr) =>
    if zo.noexec then (w1, some nErr)
    else if (rmdir w1 path).2.rc ≠ 0 then ((rmdir w1 path).1, some (nErr + 1))
    else ((rmdir w1 path).1, some nErr)

/-- Source `zapDirM`: remove a directory whose mode is known, with all its
files and subdirectories. The result is the number of failures. -/
def zapDirM : Nat → World → CStr → Nat → zapOpts → World × Option Int
  | 0, w, _, _, _ => (w, none)
  | fuel + 1, w, path, iMode, zo =>
    if !(S_ISDIR iMode) then (w, some 1)
    else
      match opendir w.disk path with
      | .err _ => (w, some 1)
      | .ok ents =>
        zapDirEnd path zo
          (zapDirLoop (fun w1 p m => zapDirM fuel w1 p m zo) path zo ents w 0)

/-- Source `zapDir`: remove a directory. -/
def zapDir (fuel : Nat) (w : World) (path : CStr) (zo : zapOpts) : World × Option Int :=
  match lstat w.disk path with
  | .err .ENOENT => (w, some 0)
  | .err _ => (w, some 1)
  | .ok st => zapDirM fuel w path st.st_mode zo

/-- One round of the `readdir` loop of source `zapDirM`, for the entry `de`:
the world after the round and the value of `iErr` that the round adds to
`nErr`; `zapSub` is the recursive call of `zapDirM` on a subdirectory. -/
def zapDirStep (zapSub : World → CStr → Nat → World × Option Int) (path : CStr) (zo : zapOpts)
    (w : World) (de : Dirent) : World × Option Int :=
  match lstat w.disk (NewPathName path de.d_name) with
  | .err _ => (w, some 1)
  | .ok st =>
    match de.d_type with
    | .dir =>
      if de.d_name = ['.'] ∨ de.d_name = ['.', '.'] then (w, some 0)
      else zapSub w (NewPathName path de.d_name) st.st_mode
    | .lnk =>
      ((zapFileM w (NewPathName path de.d_name) st.st_mode zo).1,
       some (zapFileM w (NewPathName path de.d_name) st.st_mode zo).2)
    | .reg =>
      ((zapFileM w (NewPathName path de.d_name) st.st_mode zo).1,
       some (zapFileM w (NewPathName path de.d_name) st.st_mode zo).2)
    | _ => (w, some 1)

/-! ### Updating one entry -/

/-- The end of source `update`, from the call of `older` on: `p2` is the
target name, emptied by the test mode when the target was to be removed. -/
def updateEnd (e : Env) (w : World) (p1 p2 : CStr) : World × Int :=
  if older w.disk p1 p2 then (w, 0)
  else if e.test then (w, 0)
  else copy e w p1 p2

/-- Source `update`: copy file `p1` onto `p2` unless `p2` is already there
and not older. -/
def update (e : Env) (fuel : Nat) (w : World) (p1 p2 : CStr) : World × Option Int :=
  if e.fresh && !(exist_file w.disk p2) then (w, some 0)
  else if e.copyempty = false ∧ file_empty w.disk p1 = true then (w, some 0)
  else
    match lstat w.disk p2 with
    | .err _ => ((updateEnd e w p1 p2).1, some (updateEnd e w p1 p2).2)
    | .ok sP2stat =>
      if S_ISDIR sP2stat.st_mode then
        match zapDirM fuel w p2 sP2stat.st_mode ⟨true, e.test, true, false, e.force⟩ with
        | (w1, none) => (w1, none)
        | (w1, some err) =>
          if err ≠ 0 then (w1, some err)
          else
            ((updateEnd e w1 p1 (if e.test then [] else p2)).1,
             some (updateEnd e w1 p1 (if e.test then [] else p2)).2)
      else if S_ISLNK sP2stat.st_mode then
        (if (zapFileM w p2 sP2stat.st_mode ⟨false, e.test, true, false, e.force⟩).2 ≠ 0 then
           ((zapFileM w p2 sP2stat.st_mode ⟨false, e.test, true, false, e.force⟩).1,
            some (zapFileM w p2 sP2stat.st_mode ⟨false, e.test, true, false, e.force⟩).2)
         else
           ((updateEnd e (zapFileM w p2 sP2stat.st_mode ⟨false, e.test, true, false, e.force⟩).1
               p1 (if e.test then [] else p2)).1,
            some (updateEnd e (zapFileM w p2 sP2stat.st_mode ⟨false, e.test, true, false, e.force⟩).1
               p1 (if e.test then [] else p2)).2))
      else ((updateEnd e w p1 p2).1, some (updateEnd e w p1 p2).2)

/-- The end of source `update_link`, once the old target is removed: create
the directory of `p2` if needed, read the link `p1` and create the link `p2`.
The string given to `symlink` is the content of the buffer `target1` up to
its first NUL; `readlink` writes the target at its start and adds no
terminating NUL. -/
def updateLinkEnd (e : Env) (w : World) (p1 p2 : CStr) : World × Int :=
  let w1 : World × Int :=
    if exists_ w.disk (strsfp p2).1 then (w, 0) else mkdirp w (strsfp p2).1 DIRMODE
  if w1.2 ≠ 0 then w1
  else
    match readlink w1.1.disk p1 with
    | .err _ => (w1.1, 1)
    | .ok target =>
      let target1 : CStr :=
        (target ++ e.junk.drop target.length).takeWhile (fun c => decide (c ≠ Char.ofNat 0))
      if (symlink w1.1 target1 p2).2.rc ≠ 0 then
        ((symlink w1.1 target1 p2).1, (symlink w1.1 target1 p2).2.rc)
      else ((copydate (symlink w1.1 target1 p2).1 p2 p1).1, 0)

/-- Source `update_link`: copy link `p1` onto `p2` unless `p2` is a link
that is not older. -/
def update_link (e : Env) (fuel : Nat) (w : World) (p1 p2 : CStr) : World × Option Int :=
  let bP2IsLink : Bool := is_link w.disk p2
  if e.fresh && !bP2IsLink then (w, some 0)
  else if bP2IsLink && older w.disk p1 p2 then (w, some 0)
  else if e.test then (w, some 0)
  else
    match lstat w.disk p2 with
    | .err _ => ((updateLinkEnd e w p1 p2).1, some (updateLinkEnd e w p1 p2).2)
    | .ok sP2stat =>
      let w1 : World :=
        if e.force && !(hasWriteBit sP2stat.st_mode) then
          (chmod w p2 (orWrite sP2stat.st_mode)).1
        else w
      if S_ISDIR sP2stat.st_mode then
        match zapDirM fuel w1 p2 sP2stat.st_mode ⟨true, e.test, true, false, e.force⟩ with
        | (w2, none) => (w2, none)
        | (w2, some err) =>
          if err ≠ 0 then (w2, some err)
          else ((updateLinkEnd e w2 p1 p2).1, some (updateLinkEnd e w2 p1 p2).2)
      else if (zapFileM w1 p2 sP2stat.st_mode ⟨false, e.test, true, false, e.force⟩).2 ≠ 0 then
        ((zapFileM w1 p2 sP2stat.st_mode ⟨false, e.test, true, false, e.force⟩).1,
         some (zapFileM w1 p2 sP2stat.st_mode ⟨false, e.test, true, false, e.force⟩).2)
      else
        ((updateLinkEnd e (zapFileM w1 p2 sP2stat.st_mode ⟨false, e.test, true, false, e.force⟩).1
            p1 p2).1,
         some (updateLinkEnd e
            (zapFileM w1 p2 sP2stat.st_mode ⟨false, e.test, true, false, e.force⟩).1 p1 p2).2)

/-! ### Updating a set of files -/

/-- The loop of source `updateall` that removes the extra consecutive
separators before index `i`. -/
def stripSlashes (s : CStr) : Nat → Nat
  | 0 => 0
  | i + 1 => if s[i]? = some DIRSEPARATOR_CHAR then stripSlashes s i else i + 1

/-- The first step of source `updateall`: the source directory `path0` and
the `pattern` of the source argument `p1`. -/
def sourceSplit (d : Disk) (p1 : CStr) : CStr × CStr :=
  if is_directory d p1 then (p1, PATTERN_ALL)
  else
    match strrchr p1 DIRSEPARATOR_CHAR with
    | some i =>
      (if p1.take (stripSlashes p1 i) = [] then DIRSEPARATOR_STRING
       else p1.take (stripSlashes p1 i),
       if p1.drop (i + 1) = [] then PATTERN_ALL else p1.drop (i + 1))
    | none => (['.'], p1)

/-- The second step of source `updateall`: is the target `p2` a file or a
directory name. The result is `ppath` and `pname`; `pname = none` stands for
the NULL pointer, which implies using the name of the source entry. -/
def targetSplit (d : Disk) (p1 p2 : CStr) : CStr × Option CStr :=
  if (strsfp p2).2 ≠ [] ∧ is_directory d (strsfp p2).1 = true ∧ is_directory d p2 = false
      ∧ hasWildcard p1 = false then
    ((strsfp p2).1, some (strsfp p2).2)
  else (p2, none)

/-- The target pathname `path2` that source `updateall` computes for the
source entry `d_name`. -/
def targetPath (ppath : CStr) (pname : Option CStr) (d_name : CStr) : CStr :=
  strmfp ppath (match pname with
                | some name => name
                | none => d_name)

/-- The first `readdir` loop of source `updateall`: update every file or
link of the source directory that matches the pattern. -/
def scanLoop (e : Env) (fuel : Nat) (path0 ppath : CStr) (pname : Option CStr) (pattern : CStr) :
    List Dirent → World → Int → World × Option Int
  | [], w, nErrors => (w, some nErrors)
  | de :: rest, w, nErrors =>
    if de.d_type ≠ .reg ∧ de.d_type ≠ .lnk then
      scanLoop e fuel path0 ppath pname pattern rest w nErrors
    else if e.fnmatch pattern de.d_name e.iFnmFlag = false then
      scanLoop e fuel path0 ppath pname pattern rest w nErrors
    else
      match (if de.d_type = .lnk then
               update_link e fuel w (strmfp path0 de.d_name) (targetPath ppath pname de.d_name)
             else update e fuel w (strmfp path0 de.d_name) (targetPath ppath pname de.d_name)) with
      | (w1, none) => (w1, none)
      | (w1, some err) =>
        scanLoop e fuel path0 ppath pname pattern rest w1 (if err ≠ 0 then nErrors + 1 else nErrors)

/-- The `readdir` loop of the erase mode of source `updateall`: `path2` is
the absolute pathname of the target directory. -/
def eraseLoop (e : Env) (fuel : Nat) (path0 path2 pattern : CStr) (zo : zapOpts) :
    List Dirent → World → Int → World × Option Int
  | [], w, nErrors => (w, some nErrors)
  | de :: rest, w, nErrors =>
    if de.d_name = ['.'] ∨ de.d_name = ['.', '.'] then
      eraseLoop e fuel path0 path2 pattern zo rest w nErrors
    else if e.fnmatch pattern de.d_name e.iFnmFlag = false then
      eraseLoop e fuel path0 path2 pattern zo rest w nErrors
    else if access w.disk (strmfp path0 de.d_name) = -1 then
      match lstat w.disk (strmfp path2 de.d_name) with
      | .err _ => eraseLoop e fuel path0 path2 pattern zo rest w (nErrors + 1)
      | .ok sStat =>
        match de.d_type with
        | .dir =>
          (match zapDirM fuel w (strmfp path2 de.d_name) sStat.st_mode zo with
           | (w1, none) => (w1, none)
           | (w1, some err) => eraseLoop e fuel path0 path2 pattern zo rest w1 (nErrors + err))
        | .lnk =>
          eraseLoop e fuel path0 path2 pattern zo rest
            (zapFileM w (strmfp path2 de.d_name) sStat.st_mode zo).1
            (if (zapFileM w (strmfp path2 de.d_name) sStat.st_mode zo).2 ≠ 0 then nErrors + 1
             else nErrors)
        | .reg =>
          eraseLoop e fuel path0 path2 pattern zo rest
            (zapFileM w (strmfp path2 de.d_name) sStat.st_mode zo).1
            (if (zapFileM w (strmfp path2 de.d_name) sStat.st_mode zo).2 ≠ 0 then nErrors + 1
             else nErrors)
        | _ => eraseLoop e fuel path0 path2 pattern zo rest w (nErrors + 1)
    else eraseLoop e fuel path0 path2 pattern zo rest w nErrors

/-- The erase mode of source `updateall`. The buffer `path2` is read only
when `opendir` succeeds, and `realpath` succeeds then. -/
def erasePhase (e : Env) (fuel : Nat) (path0 p2 pattern : CStr) (zo : zapOpts) (w : World)
    (nErrors : Int) : World × Option Int :=
  if e.iErase then
    match opendir w.disk p2 with
    | .err _ => (w, some nErrors)
    | .ok ents =>
      eraseLoop e fuel path0
        (match realpath w.disk p2 with
         | some r => r
         | none => [])
        pattern zo ents w nErrors
  else (w, some nErrors)

/-- Outcome of the preparation of a target subdirectory in the recursive
mode of source `updateall`: the world, whether the entry is processed
further (`false` after a `continue` that counted one error), and the final
value of `p2_exists`. -/
structure Prep where
  world : World
  go : Bool
  p2_exists : Bool

/-- The creation of the missing target directory, under the `copyempty`
flag, with `p2_exists` known to be false. -/
def recurCreate (e : Env) (w : World) (path2 : CStr) : Prep :=
  if e.copyempty then
    (if e.test then ⟨w, true, false⟩
     else if (mkdirp w path2 DIRMODE).2 ≠ 0 then ⟨(mkdirp w path2 DIRMODE).1, false, false⟩
     else ⟨(mkdirp w path2 DIRMODE).1, true, false⟩)
  else ⟨w, true, false⟩

/-- The preparation of the target subdirectory `path2` in the recursive mode
of source `updateall`. -/
def recurPrep (e : Env) (w : World) (path2 : CStr) (zo : zapOpts) : Prep :=
  if exists_ w.disk path2 = false ∨ is_directory w.disk path2 = false then
    (if e.test then ⟨w, true, exists_ w.disk path2⟩
     else if exists_ w.disk path2 = true ∧ is_directory w.disk path2 = false then
       (if (zapFile w path2 zo).2 ≠ 0 then ⟨(zapFile w path2 zo).1, false, true⟩
        else recurCreate e (zapFile w path2 zo).1 path2)
     else if exists_ w.disk path2 = false then recurCreate e w path2
     else ⟨w, true, true⟩)
  else ⟨w, true, exists_ w.disk path2⟩

/-- The `readdir` loop of the recursive mode of source `updateall`;
`updSub` is the recursive call of `updateall`. -/
def recurLoop (updSub : World → CStr → CStr → World × Option Int) (e : Env)
    (path0 ppath pattern : CStr) (zo : zapOpts) :
    List Dirent → World → Int → World × Option Int
  | [], w, nErrors => (w, some nErrors)
  | de :: rest, w, nErrors =>
    if de.d_type ≠ .dir then recurLoop updSub e path0 ppath pattern zo rest w nErrors
    else if de.d_name = ['.'] ∨ de.d_name = ['.', '.'] then
      recurLoop updSub e path0 ppath pattern zo rest w nErrors
    else
      let path3 : CStr := strmfp path0 de.d_name
      let path1 : CStr := strmfp path3 pattern
      let path2 : CStr := strmfp ppath de.d_name ++ DIRSEPARATOR_STRING
      let pr : Prep := recurPrep e w path2 zo
      if pr.go = false then recurLoop updSub e path0 ppath pattern zo rest pr.world (nErrors + 1)
      else
        match updSub pr.world path1 path2 with
        | (w1, none) => (w1, none)
        | (w1, some err) =>
          recurLoop updSub e path0 ppath pattern zo rest
            (if pr.p2_exists = false then (copydate w1 path2 path3).1 else w1)
            (nErrors + err)

/-- The last step of source `updateall`: give the target directory the date
of the source directory when the call created it. -/
def updateallEnd (iTargetDirExisted : Bool) (ppath path0 : CStr) (r : World × Option Int) :
    World × Option Int :=
  match r with
  | (w, none) => (w, none)
  | (w, some nErrors) =>
    if iTargetDirExisted = false ∧ is_directory w.disk ppath = true then
      ((copydate w ppath path0).1, some nErrors)
    else (w, some nErrors)

/-- The recursive mode of source `updateall`, followed by its last step,
which a failed `opendir` jumps over. -/
def recurPhase (updSub : World → CStr → CStr → World × Option Int) (e : Env)
    (path0 ppath pattern : CStr) (zo : zapOpts) (iTargetDirExisted : Bool)
    (r : World × Option Int) : World × Option Int :=
  match r with
  | (w, none) => (w, none)
  | (w, some nErrors) =>
    if e.iRecur then
      match opendir w.disk path0 with
      | .err _ => (w, some (nErrors + 1))
      | .ok ents =>
        updateallEnd iTargetDirExisted ppath path0
          (recurLoop updSub e path0 ppath pattern zo ents w nErrors)
    else updateallEnd iTargetDirExisted ppath path0 (w, some nErrors)

/-- Source `updateall`: update all files matching the source argument `p1`
into the target `p2`. The result is the number of errors. -/
def updateall (e : Env) : Nat → World → CStr → CStr → World × Option Int
  | 0, w, _, _ => (w, none)
  | fuel + 1, w, p1, p2 =>
    let zo : zapOpts := ⟨true, e.test, e.iRecur, false, e.force⟩
    let path0 : CStr := (sourceSplit w.disk p1).1
    let pattern : CStr := (sourceSplit w.disk p1).2
    let ppath : CStr := (targetSplit w.disk p1 p2).1
    let pname : Option CStr := (targetSplit w.disk p1 p2).2
    let iTargetDirExisted : Bool := is_directory w.disk ppath
    match opendir w.disk path0 with
    | .err _ => (w, some 1)
    | .ok ents =>
      match scanLoop e fuel path0 ppath pname pattern ents w 0 with
      | (w1, none) => (w1, none)
      | (w1, some n1) =>
        recurPhase (fun w2 q1 q2 => updateall e fuel w2 q1 q2) e path0 ppath pattern zo
          iTargetDirExisted (erasePhase e fuel path0 p2 pattern zo w1 n1)

/-! ### File name position -/

/-- Source `strgfn`: the position of the file name in a pathname, as an index
into the pathname. -/
def strgfn (pathname : CStr) : Nat :=
  match strrchr pathname DIRSEPARATOR_CHAR with
  | some pc => pc + 1
  | none =>
    match strrchr pathname ':' with
    | some pc => pc + 1
    | none => 0

/-- Source `stcgfp`: the path part of a pathname, everything before the file
name, less one trailing separator. -/
def stcgfp (pathname : CStr) : CStr :=
  if strgfn pathname ≠ 0 ∧ pathname[strgfn pathname - 1]? = some DIRSEPARATOR_CHAR then
    pathname.take (strgfn pathname - 1)
  else pathname.take (strgfn pathname)

/-! ### The progress display of `copyf` -/

/-- The value of an expression of type `off_t` (64 bits: `_FILE_OFFSET_BITS`
is 64) whose exact value is `x`. Signed overflow is undefined in C; the value
taken here is the two's complement one. -/
def wrapOff (x : Int) : Int := (x + 2 ^ 63) % 2 ^ 64 - 2 ^ 63

/-- The value of a cast `(int)` (32 bits) of the value `x`. -/
def wrapInt (x : Int) : Int := (x + 2 ^ 31) % 2 ^ 32 - 2 ^ 31

/-- The unit of the progress display of source `copyf`: the values of `lUnit`
and `pszUnit` after the test of `iProgress`. -/
def progressUnit (iProgress : Bool) (filelen : Nat) : Nat × CStr :=
  if iProgress then
    if filelen > 100 * 1024 * 1024 then (1024 * 1024, ['M', 'B'])
    else if filelen > 100 * 1024 then (1024, ['K', 'B'])
    else (1, ['B'])
  else (1, ['B'])

/-- The percentage of the progress display of source `copyf`:
`pc = (int)((offset * 100) / filelen)`, computed in `off_t`, with the
division of C, which truncates. -/
def progressPc (offset filelen : Nat) : Int :=
  wrapInt (Int.tdiv (wrapOff ((offset : Int) * 100)) (filelen : Int))

/-! ## Concrete inputs

A matcher for `fnmatch` and small worlds on which the program is evaluated. -/

/-- Matching of `*` against every suffix of the name. -/
def globStar (k : CStr → Bool) : CStr → Bool
  | [] => k []
  | c :: cs => k (c :: cs) || globStar k cs

/-- Shell pattern matching with `*` and `?`, standing for `fnmatch` on such
patterns. -/
def glob : CStr → CStr → Bool
  | [], s => decide (s = [])
  | p :: ps, s =>
    if p = '*' then globStar (glob ps) s
    else
      match s with
      | [] => false
      | c :: cs => (decide (p = '?') || decide (p = c)) && glob ps cs

/-- The default options of the Unix build: only `copyempty` is set. -/
def defaultEnv : Env :=
  ⟨false, false, false, false, false, true, false, false, false, 0, fun p n _ => glob p n, []⟩

/-- A directory with mode `0o755`. -/
def dirNode : Node := ⟨.dir, 0o755, 100, [], []⟩

/-- A regular file with mode `0o644`. -/
def fileNode (mtime : Int) (data : List Nat) : Node := ⟨.reg, 0o644, mtime, data, []⟩

/-- A symbolic link. -/
def linkNode (mtime : Int) (target : CStr) : Node := ⟨.lnk, 0o777, mtime, [], target⟩

/-- The path `s/a`. -/
def pSrcA : CStr := ['s', '/', 'a']

/-- The path `d/a`. -/
def pDstA : CStr := ['d', '/', 'a']

/-- A world where the source `s/a` and the target `d/a` are regular files
with different contents, both with modification time `0`, the epoch. -/
def wEpoch : World :=
  ⟨⟨[([], dirNode), ([['s']], dirNode), ([['s'], ['a']], fileNode 0 [1, 2, 3]),
     ([['d']], dirNode), ([['d'], ['a']], fileNode 0 [9])], [], 500, []⟩, []⟩

/-- A world where the source `s/a` has modification time `0` and the target
directory `d` is empty. -/
def wEpochNew : World :=
  ⟨⟨[([], dirNode), ([['s']], dirNode), ([['s'], ['a']], fileNode 0 [1, 2, 3]),
     ([['d']], dirNode)], [], 500, []⟩, []⟩

/-- The options of the erase mode: `copyempty` and `iErase` are set. -/
def eraseEnv : Env :=
  ⟨false, false, false, false, false, true, false, false, true, 0, fun p n _ => glob p n, []⟩

/-- The options of the no-empty mode: `copyempty` is cleared. -/
def noEmptyEnv : Env :=
  ⟨false, false, false, false, false, false, false, false, false, 0, fun p n _ => glob p n, []⟩

/-- The link target `nowhere`, which names no entity. -/
def pNowhere : CStr := ['n', 'o', 'w', 'h', 'e', 'r', 'e']

/-- A world where the source directory `s` and the target directory `d` both
hold a symbolic link `x` to the missing path `nowhere`, with the same date. -/
def wDangling : World :=
  ⟨⟨[([], dirNode), ([['s']], dirNode), ([['s'], ['x']], linkNode 7 pNowhere),
     ([['d']], dirNode), ([['d'], ['x']], linkNode 7 pNowhere)], [], 500, []⟩, []⟩

/-- A world whose current directory holds the source `s/a` and no entry `b`. -/
def wBare : World :=
  ⟨⟨[([], dirNode), ([['s']], dirNode), ([['s'], ['a']], fileNode 5 [1, 2, 3])],
    [], 500, []⟩, []⟩

/-- A world where the source `s/a` is an empty file without read permission
and the target `d/a` is a symbolic link to the file `d/t`. -/
def wUnreadable : World :=
  ⟨⟨[([], dirNode), ([['s']], dirNode), ([['s'], ['a']], ⟨.reg, 0, 5, [], []⟩),
     ([['d']], dirNode), ([['d'], ['t']], fileNode 9 [4]),
     ([['d'], ['a']], linkNode 9 ['t'])], [], 500, []⟩, []⟩

/-- The options of the freshen mode: `copyempty` and `fresh` are set. -/
def freshEnv : Env :=
  ⟨false, false, true, false, false, true, false, false, false, 0, fun p n _ => glob p n, []⟩

/-- A world where reading the first byte of the source `s/a` fails. -/
def wProbeFault : World :=
  ⟨⟨[([], dirNode), ([['s']], dirNode), ([['s'], ['a']], fileNode 5 [1, 2, 3]),
     ([['d']], dirNode), ([['d'], ['a']], fileNode 3 [9])], [], 500,
    [.read [['s'], ['a']] 0]⟩, []⟩

/-- A world where the source `s/a` is an empty readable file and the target
`d/a` is a symbolic link to the file `d/t`. -/
def wEmptySrc : World :=
  ⟨⟨[([], dirNode), ([['s']], dirNode), ([['s'], ['a']], fileNode 5 []),
     ([['d']], dirNode), ([['d'], ['t']], fileNode 9 [4]),
     ([['d'], ['a']], linkNode 9 ['t'])], [], 500, []⟩, []⟩

/-- The options of a recursive dry run: `test`, `copyempty` and `iRecur` are
set. -/
def dryEnv : Env :=
  ⟨true, false, false, false, false, true, false, true, false, 0, fun p n _ => glob p n, []⟩

/-- The path `d/sub/`. -/
def pDstSub : CStr := ['d', '/', 's', 'u', 'b', '/']

/-- A world where the source directory `s` has a subdirectory `sub` holding
the file `c`, and the target directory `d` is empty. -/
def wRecur : World :=
  ⟨⟨[([], dirNode), ([['s']], dirNode), ([['s'], ['s', 'u', 'b']], dirNode),
     ([['s'], ['s', 'u', 'b'], ['c']], fileNode 5 [1, 2, 3]), ([['d']], dirNode)],
    [], 500, []⟩, []⟩

/-- The path `d/x/b`. -/
def pDstXB : CStr := ['d', '/', 'x', '/', 'b']

/-- A world where the source `s/a` is a regular file and the target
directory `d` is empty. -/
def wCopy : World :=
  ⟨⟨[([], dirNode), ([['s']], dirNode), ([['s'], ['a']], fileNode 5 [1, 2, 3]),
     ([['d']], dirNode)], [], 500, []⟩, []⟩

/-- The path `a*`. -/
def pStar : CStr := ['a', '*']

/-- A world whose current directory holds a directory named `a*`. -/
def wStar : World :=
  ⟨⟨[([], dirNode), ([['a', '*']], dirNode)], [], 500, []⟩, []⟩

/-- The path `n//`. -/
def pNewSlashes : CStr := ['n', '/', '/']

/-- A world where the target `d/a` exists, and both writing to it at offset
`0` and unlinking it fail. -/
def wWriteFault : World :=
  ⟨⟨[([], dirNode), ([['s']], dirNode), ([['s'], ['a']], fileNode 5 [1, 2, 3]),
     ([['d']], dirNode), ([['d'], ['a']], fileNode 3 [9, 9, 9, 9])], [], 500,
    [.write [['d'], ['a']] 0, .unlink [['d'], ['a']]]⟩, []⟩

/-- A world where the target `d/a` exists and writing to it at offset `0`
fails. -/
def wWriteFaultOnly : World :=
  ⟨⟨[([], dirNode), ([['s']], dirNode), ([['s'], ['a']], fileNode 5 [1, 2, 3]),
     ([['d']], dirNode), ([['d'], ['a']], fileNode 3 [9, 9, 9, 9])], [], 500,
    [.write [['d'], ['a']] 0]⟩, []⟩

/-- The path `c:`. -/
def pDrive : CStr := ['c', ':']

/-- The path `d/x/y`. -/
def pDeep : CStr := ['d', '/', 'x', '/', 'y']

/-- The path `t`. -/
def pTree : CStr := ['t']

/-- Options of a deletion that is carried out. -/
def zoExec : zapOpts := ⟨false, false, true, false, false⟩

/-- A world where the directory `t` holds the file `a`, which cannot be
unlinked, the file `b`, and the directory `sub` holding the file `c`. -/
def wTree : World :=
  ⟨⟨[([], dirNode), ([['t']], dirNode), ([['t'], ['a']], fileNode 5 [1]),
     ([['t'], ['b']], fileNode 5 [2]), ([['t'], ['s', 'u', 'b']], dirNode),
     ([['t'], ['s', 'u', 'b'], ['c']], fileNode 5 [3])], [], 500,
    [.unlink [['t'], ['a']]]⟩, []⟩

/-- The options of a recursive update with the erase mode. -/
def recurEraseEnv : Env :=
  ⟨false, false, false, false, false, true, false, true, true, 0, fun p n _ => glob p n, []⟩

/-- A world where the source directory `s` holds the file `a` and the
subdirectory `sub` with the file `c`, and the target directory `d` holds the
file `old` and the directory `junk` with the file `x`, none of which is in
the source. -/
def wSync : World :=
  ⟨⟨[([], dirNode), ([['s']], dirNode), ([['s'], ['a']], fileNode 5 [1, 2, 3]),
     ([['s'], ['s', 'u', 'b']], dirNode),
     ([['s'], ['s', 'u', 'b'], ['c']], fileNode 5 [4]),
     ([['d']], dirNode), ([['d'], ['o', 'l', 'd']], fileNode 3 [9]),
     ([['d'], ['j', 'u', 'n', 'k']], dirNode),
     ([['d'], ['j', 'u', 'n', 'k'], ['x']], fileNode 3 [8])], [], 500, []⟩, []⟩

/-- A world whose current directory holds the block device `b`, the socket
`k`, the character device `c` and the FIFO `f`. -/
def wDevice : World :=
  ⟨⟨[([], dirNode), ([['b']], ⟨.blk, 0o660, 100, [], []⟩),
     ([['k']], ⟨.sock, 0o755, 100, [], []⟩), ([['c']], ⟨.chr, 0o620, 100, [], []⟩),
     ([['f']], ⟨.fifo, 0o644, 100, [], []⟩)], [], 500, []⟩, []⟩

/-- The default options, with a `target1` buffer that holds four bytes `#`
on entry of `update_link`. -/
def junkEnv : Env :=
  ⟨false, false, false, false, false, true, false, false, false, 0, fun p n _ => glob p n,
   ['#', '#', '#', '#']⟩

/-- The path `s/l`. -/
def pSrcL : CStr := ['s', '/', 'l']

/-- The path `d/l`. -/
def pDstL : CStr := ['d', '/', 'l']

/-- A world where `s/l` is a symbolic link with the target `t` and the
directory `d` is empty. -/
def wLink : World :=
  ⟨⟨[([], dirNode), ([['s']], dirNode), ([['s'], ['l']], linkNode 5 ['t']),
     ([['d']], dirNode)], [], 500, []⟩, []⟩

/-- The path `d/r`. -/
def pDstR : CStr := ['d', '/', 'r']

/-- Options of a forced deletion that is carried out. -/
def zoForce : zapOpts := ⟨false, false, true, false, true⟩

/-- A world where the directory `d` holds the read-only file `r`. -/
def wReadOnly : World :=
  ⟨⟨[([], dirNode), ([['d']], dirNode), ([['d'], ['r']], ⟨.reg, 0o444, 5, [7], []⟩)],
    [], 500, []⟩, []⟩

/-- Options of a deletion in no-exec mode. -/
def zoDry : zapOpts := ⟨true, true, false, false, false⟩

/-- A world where the directory `t` holds the file `a` and the directory
`sub`, which holds the directory `deep`, which holds the FIFO `f`. -/
def wDeep : World :=
  ⟨⟨[([], dirNode), ([['t']], dirNode), ([['t'], ['a']], fileNode 5 [1]),
     ([['t'], ['s', 'u', 'b']], dirNode),
     ([['t'], ['s', 'u', 'b'], ['d', 'e', 'e', 'p']], dirNode),
     ([['t'], ['s', 'u', 'b'], ['d', 'e', 'e', 'p'], ['f']], ⟨.fifo, 0o644, 5, [], []⟩)],
    [], 500, []⟩, []⟩

/-- A world where the source directory `s` holds the files `a` and `b`, and
the target `d/a` is a directory holding the files `x` and `y`, which cannot
be unlinked. -/
def wScan : World :=
  ⟨⟨[([], dirNode), ([['s']], dirNode), ([['s'], ['a']], fileNode 5 [1]),
     ([['s'], ['b']], fileNode 5 [2]), ([['d']], dirNode), ([['d'], ['a']], dirNode),
     ([['d'], ['a'], ['x']], fileNode 3 [8]), ([['d'], ['a'], ['y']], fileNode 3 [9])],
    [], 500, [.unlink [['d'], ['a'], ['x']], .unlink [['d'], ['a'], ['y']]]⟩, []⟩

/-- The entries that `readdir` returns for the directory `s` of `wScan`. -/
def entsScan : List Dirent :=
  [⟨['.'], .dir⟩, ⟨['.', '.'], .dir⟩, ⟨['a'], .reg⟩, ⟨['b'], .reg⟩]

/-- The path `d/x/y/z`. -/
def pDstXYZ : CStr := ['d', '/', 'x', '/', 'y', '/', 'z']

/-- A world with the empty directory `d`, where creating `d/x/y` fails. -/
def wMkdirFault : World :=
  ⟨⟨[([], dirNode), ([['d']], dirNode)], [], 500, [.mkdir [['d'], ['x'], ['y']]]⟩, []⟩

/-- A world where the source `s/a` is a file and the target `d/a` is a
directory holding the file `x`. -/
def wMismatch : World :=
  ⟨⟨[([], dirNode), ([['s']], dirNode), ([['s'], ['a']], fileNode 5 [1, 2, 3]),
     ([['d']], dirNode), ([['d'], ['a']], dirNode), ([['d'], ['a'], ['x']], fileNode 9 [8])],
    [], 500, []⟩, []⟩

/-! ## Relations between worlds -/

/-- The world `w1` extends `w`: same current directory, clock and failures,
every entity of `w` is unchanged, and every new entity is a directory. -/
def Extends (w w1 : World) : Prop :=
  w1.disk.cwd = w.disk.cwd ∧ w1.disk.now = w.disk.now ∧ w1.disk.faults = w.disk.faults
    ∧ (∀ k n, lookup k w.disk.nodes = some n → lookup k w1.disk.nodes = some n)
    ∧ (∀ k, lookup k w.disk.nodes = none →
        lookup k w1.disk.nodes = none ∨ ∃ n, lookup k w1.disk.nodes = some n ∧ n.kind = .dir)

/-- Every entity other than the root has a non-empty name and lies in a
directory. -/
def Rooted (nodes : List (Key × Node)) : Prop :=
  ∀ kn ∈ nodes, kn.1 ≠ [] →
    kn.1.getLast? ≠ some [] ∧ (lookup kn.1.dropLast nodes).map Node.kind = some .dir

instance (nodes : List (Key × Node)) : Decidable (Rooted nodes) := by
  unfold Rooted
  infer_instance

/-- The world `w1` has the current directory of `w`, and every entity of
`w1` lies in a directory when every entity of `w` does. -/
def Keeps (w w1 : World) : Prop :=
  w1.disk.cwd = w.disk.cwd ∧ (Rooted w.disk.nodes → Rooted w1.disk.nodes)

/-! ## Theorems -/

/-- C3, evaluated at the failing input: the target `d/a` exists with
modification time `0`, the time of the source `s/a` is not later, and `older`
still answers false, as it does for a missing target. -/
theorem older_false_on_existing_epoch_target :
    lstat wEpoch.disk pDstA = .ok ⟨0o100644, 0, 1⟩
      ∧ getmodified wEpoch.disk pSrcA ≤ getmodified wEpoch.disk pDstA
      ∧ older wEpoch.disk pSrcA pDstA = false := by
  decide

/-- C1, evaluated at the failing input: source and target are regular files
with equal modification times (the epoch), and `update` returns 0 but has
replaced the content `[9]` of the target by the content of the source. -/
theorem update_overwrites_epoch_target :
    lstat wEpoch.disk pSrcA = .ok ⟨0o100644, 0, 3⟩
      ∧ lstat wEpoch.disk pDstA = .ok ⟨0o100644, 0, 1⟩
      ∧ (update defaultEnv 1 wEpoch pSrcA pDstA).2 = some 0
      ∧ lookup [['d'], ['a']] wEpoch.disk.nodes = some (fileNode 0 [9])
      ∧ lookup [['d'], ['a']] (update defaultEnv 1 wEpoch pSrcA pDstA).1.disk.nodes
          = some (fileNode 0 [1, 2, 3]) := by
  decide

/-- C9, evaluated at the failing input: after a first successful copy of a
source whose modification time is `0`, the freshness gate `older` is still
false and a second `update` opens and writes the target again; so does a
second run of `updateall` over the same arguments. -/
theorem update_twice_copies_twice_at_epoch :
    (update defaultEnv 1 wEpochNew pSrcA pDstA).2 = some 0
      ∧ lookup [['d'], ['a']] (update defaultEnv 1 wEpochNew pSrcA pDstA).1.disk.nodes
          = some (fileNode 0 [1, 2, 3])
      ∧ older (update defaultEnv 1 wEpochNew pSrcA pDstA).1.disk pSrcA pDstA = false
      ∧ (update defaultEnv 1 (update defaultEnv 1 wEpochNew pSrcA pDstA).1 pSrcA pDstA).1.calls
          = [.lutimes pDstA 0, .lchmod pDstA 0o100644, .fwrite [['d'], ['a']] 0 3,
             .fopen_w pDstA]
            ++ (update defaultEnv 1 wEpochNew pSrcA pDstA).1.calls
      ∧ (updateall defaultEnv 2 wEpochNew ['s'] ['d']).2 = some 0
      ∧ (updateall defaultEnv 2 (updateall defaultEnv 2 wEpochNew ['s'] ['d']).1 ['s'] ['d']).1.calls
          = [.lutimes pDstA 0, .lchmod pDstA 0o100644, .fwrite [['d'], ['a']] 0 3,
             .fopen_w pDstA]
            ++ (updateall defaultEnv 2 wEpochNew ['s'] ['d']).1.calls := by
  decide

/-- C5, evaluated at the failing input: the source directory `s` has an
entry `x` (a symbolic link whose target is missing) and so has the target
directory `d`; in erase mode `updateall` returns 0 and has unlinked `d/x`,
because `access` follows the link of the source entry. -/
theorem erase_removes_entry_whose_source_is_dangling_link :
    lookup [['s'], ['x']] wDangling.disk.nodes = some (linkNode 7 pNowhere)
      ∧ lookup [['d'], ['x']] wDangling.disk.nodes = some (linkNode 7 pNowhere)
      ∧ defaultEnv.fnmatch PATTERN_ALL ['x'] 0 = true
      ∧ (updateall eraseEnv 2 wDangling ['s'] ['d']).2 = some 0
      ∧ (updateall eraseEnv 2 wDangling ['s'] ['d']).1.calls = [.unlink ['/', 'd', '/', 'x']]
      ∧ lookup [['d'], ['x']] (updateall eraseEnv 2 wDangling ['s'] ['d']).1.disk.nodes
          = none := by
  decide

/-- C4, counterexample: the target `b` has no separator, its parent (the
current directory) is a directory, `b` is not an existing directory and the
source `s/a` has no wildcard; `updateall` still treats `b` as a directory and
copies the source entry to `b/a`. -/
theorem target_without_separator_is_a_directory :
    is_directory wBare.disk ['.'] = true
      ∧ is_directory wBare.disk ['b'] = false
      ∧ hasWildcard pSrcA = false
      ∧ targetSplit wBare.disk pSrcA ['b'] = (['b'], none)
      ∧ targetPath (targetSplit wBare.disk pSrcA ['b']).1 (targetSplit wBare.disk pSrcA ['b']).2
          ['a'] = ['b', '/', 'a']
      ∧ (updateall defaultEnv 2 wBare pSrcA ['b']).2 = some 0
      ∧ (lookup [['b']] (updateall defaultEnv 2 wBare pSrcA ['b']).1.disk.nodes).map Node.kind
          = some .dir
      ∧ (lookup [['b'], ['a']] (updateall defaultEnv 2 wBare pSrcA ['b']).1.disk.nodes).map
          Node.data = some [1, 2, 3] := by
  decide

/-- C8, counterexample: copy-empty is disabled and the source `s/a` is a
zero-length regular file, but it cannot be opened; `update` deletes the
existing target `d/a` and returns 1. -/
theorem noempty_unreadable_source_deletes_target :
    lstat wUnreadable.disk pSrcA = .ok ⟨0o100000, 5, 0⟩
      ∧ noEmptyEnv.copyempty = false
      ∧ lookup [['d'], ['a']] wUnreadable.disk.nodes = some (linkNode 9 ['t'])
      ∧ (update noEmptyEnv 1 wUnreadable pSrcA pDstA).2 = some 1
      ∧ lookup [['d'], ['a']] (update noEmptyEnv 1 wUnreadable pSrcA pDstA).1.disk.nodes
          = none := by
  decide

/-! ### Path resolution -/

theorem entry_ok_lookup (d : Disk) (p : CStr) (b : Bool) (k : Key) (n : Node)
    (h : entry d p b = .ok (k, n)) : lookup k d.nodes = some n := by
  unfold entry at h
  cases hn : namei d p b with
  | err e => simp [hn] at h
  | ok k1 =>
    simp only [hn] at h
    cases hl : lookup k1 d.nodes with
    | none => simp [hl] at h
    | some n1 =>
      simp only [hl] at h
      split at h
      · simp at h
      · simp at h
        obtain ⟨h1, h2⟩ := h
        subst h1; subst h2; exact hl

theorem entry_follow_err_of_nofollow_err (d : Disk) (p : CStr) (e : Errno)
    (h : entry d p false = .err e) : ∃ e1, entry d p true = .err e1 := by
  unfold entry namei at *
  by_cases hp : p = []
  · simp [hp]
  · by_cases hl : PATH_MAX ≤ p.length
    · simp [hp, hl]
    · cases hts : trailingSlash p
      · simp only [hp, hl, hts, if_false, Bool.or_false, Bool.false_and, Bool.or_self] at h ⊢
        cases hlk : lookup (canon d.cwd p) d.nodes with
        | none => simp [chase, hlk]
        | some n => simp [hlk] at h
      · simp only [hp, hl, hts, if_false, Bool.or_true, Bool.true_and, if_true] at h ⊢
        exact ⟨e, h⟩

theorem entry_follow_of_nofollow_ok (d : Disk) (p : CStr) (k : Key) (n : Node)
    (h : entry d p false = .ok (k, n)) (hk : n.kind ≠ .lnk) : entry d p true = .ok (k, n) := by
  have hlk := entry_ok_lookup d p false k n h
  unfold entry namei at *
  by_cases hp : p = []
  · simp [hp] at h
  · by_cases hl : PATH_MAX ≤ p.length
    · simp [hp, hl] at h
    · cases hts : trailingSlash p
      · simp only [hp, hl, hts, if_false, Bool.or_false, Bool.false_and, Bool.or_self] at h ⊢
        cases hlk1 : lookup (canon d.cwd p) d.nodes with
        | none => simp [hlk1] at h
        | some n1 =>
          simp [hlk1] at h
          obtain ⟨h1, h2⟩ := h
          subst h1; subst h2
          simp [chase, hlk1, hk]
      · simp only [hp, hl, hts, if_false, Bool.or_true, Bool.true_and, if_true] at h ⊢
        exact h
/-! ### Freshen mode, no-empty mode and unreadable sources -/

theorem exist_file_false_of_missing (d : Disk) (p : CStr) (h : exists_ d p = false) :
    exist_file d p = false := by
  unfold exists_ lstat at h
  cases he : entry d p false with
  | ok kn => simp [he] at h
  | err e =>
    obtain ⟨e1, h1⟩ := entry_follow_err_of_nofollow_err d p e he
    simp [exist_file, fopen_r, h1]

/-- C7: in freshen mode, when the target path does not exist, `update`
returns 0 and leaves the world as it was: nothing is created, no call is
issued, and the target still does not exist. -/
theorem update_freshen_skips_missing_target (e : Env) (fuel : Nat) (w : World) (p1 p2 : CStr)
    (hfresh : e.fresh = true) (hmiss : exists_ w.disk p2 = false) :
    update e fuel w p1 p2 = (w, some 0)
      ∧ exists_ (update e fuel w p1 p2).1.disk p2 = false := by
  have h1 : update e fuel w p1 p2 = (w, some 0) := by
    unfold update
    simp [hfresh, exist_file_false_of_missing w.disk p2 hmiss]
  rw [h1]
  exact ⟨rfl, hmiss⟩

theorem update_freshen_skips_missing_target_witness :
    (freshEnv.fresh = true ∧ exists_ wEpochNew.disk pDstA = false)
      ∧ update freshEnv 1 wEpochNew pSrcA pDstA = (wEpochNew, some 0)
      ∧ exists_ (update freshEnv 1 wEpochNew pSrcA pDstA).1.disk pDstA = false :=
  ⟨⟨by decide, by decide⟩,
   update_freshen_skips_missing_target freshEnv 1 wEpochNew pSrcA pDstA (by decide) (by decide)⟩

theorem file_empty_of_readable_empty (d : Disk) (p : CStr) (k : Key) (n : Node)
    (hsrc : entry d p false = .ok (k, n)) (hreg : n.kind = .reg) (hlen : n.data = [])
    (hread : hasReadBit n.perm = true) : file_empty d p = true := by
  have hk : n.kind ≠ .lnk := by rw [hreg]; decide
  have h1 := entry_follow_of_nofollow_ok d p k n hsrc hk
  have h2 := entry_ok_lookup d p false k n hsrc
  simp [file_empty, fopen_r, h1, hread, filelength, h2, hlen]

/-- C8, amended: with copy-empty disabled, for every source path that names
a zero-length regular file with the owner read permission (so that it can be
opened), and every target, `update` returns 0 and leaves the world as it was:
no target entry is created, modified or deleted. -/
theorem update_noempty_skips_readable_empty_source (e : Env) (fuel : Nat) (w : World)
    (p1 p2 : CStr) (k : Key) (n : Node)
    (hne : e.copyempty = false) (hsrc : entry w.disk p1 false = .ok (k, n))
    (hreg : n.kind = .reg) (hlen : n.data = []) (hread : hasReadBit n.perm = true) :
    update e fuel w p1 p2 = (w, some 0) := by
  unfold update
  have h := file_empty_of_readable_empty w.disk p1 k n hsrc hreg hlen hread
  by_cases hf : (e.fresh && !(exist_file w.disk p2)) = true
  · simp [hf]
  · simp [hf, hne, h]

theorem update_noempty_skips_readable_empty_source_witness :
    (noEmptyEnv.copyempty = false
        ∧ entry wEmptySrc.disk pSrcA false = .ok ([['s'], ['a']], fileNode 5 [])
        ∧ (fileNode 5 []).kind = .reg ∧ (fileNode 5 []).data = []
        ∧ hasReadBit (fileNode 5 []).perm = true)
      ∧ update noEmptyEnv 1 wEmptySrc pSrcA pDstA = (wEmptySrc, some 0) :=
  ⟨⟨by decide, by decide, by decide, by decide, by decide⟩,
   update_noempty_skips_readable_empty_source noEmptyEnv 1 wEmptySrc pSrcA pDstA
     [['s'], ['a']] (fileNode 5 []) (by decide) (by decide) (by decide) (by decide)
     (by decide)⟩

/-- C10: when the source cannot be opened, or is not empty and the read of
its first byte fails, `copyf` returns 1 and the world is as it was: the log of
calls is unchanged, so the target was not opened, truncated, chmod-ed or
deleted, and the disk is unchanged, so an existing target keeps its content. -/
theorem copyf_source_failure_keeps_world (e : Env) (w : World) (name1 name2 : CStr)
    (h : (∃ er, fopen_r w.disk name1 = .err er)
      ∨ (∃ ks, fopen_r w.disk name1 = .ok ks ∧ filelength w.disk ks ≠ 0
          ∧ fread w.disk ks 0 1 = none)) :
    copyf e w name1 name2 = (w, 1) := by
  unfold copyf
  rcases h with ⟨er, h⟩ | ⟨ks, h1, h2, h3⟩
  · simp [h]
  · simp [h1, h2, h3]

theorem copyf_source_failure_keeps_world_witness :
    ((∃ er, fopen_r wProbeFault.disk pSrcA = .err er)
        ∨ (∃ ks, fopen_r wProbeFault.disk pSrcA = .ok ks ∧ filelength wProbeFault.disk ks ≠ 0
            ∧ fread wProbeFault.disk ks 0 1 = none))
      ∧ copyf defaultEnv wProbeFault pSrcA pDstA = (wProbeFault, 1) :=
  ⟨Or.inr ⟨[['s'], ['a']], by decide, by decide, by decide⟩,
   copyf_source_failure_keeps_world defaultEnv wProbeFault pSrcA pDstA
     (Or.inr ⟨[['s'], ['a']], by decide, by decide, by decide⟩)⟩

/-! ### Target resolution -/

theorem strrchr_none (s : CStr) (c : Char) (h : c ∉ s) : strrchr s c = none := by
  induction s with
  | nil => rfl
  | cons x xs ih =>
    simp only [List.mem_cons, not_or] at h
    simp [strrchr, ih h.2, Ne.symm h.1]

theorem strrchr_append (dir name : CStr) (c : Char) (h : c ∉ name) :
    strrchr (dir ++ c :: name) c = some dir.length := by
  induction dir with
  | nil => simp [strrchr, strrchr_none name c h]
  | cons x xs ih => simp [strrchr, ih]

theorem is_directory_empty (d : Disk) : is_directory d [] = false := by
  simp [is_directory, strchr, lstat, entry, namei]

theorem strsfp_no_separator (p : CStr) (h1 : DIRSEPARATOR_CHAR ∉ p) (h2 : ':' ∉ p) :
    strsfp p = ([], p) := by
  have ha : strrchr p '/' = none := strrchr_none p '/' h1
  simp [strsfp, ha, strrchr_none p ':' h2]

theorem strsfp_strmfp_plain (dir name : CStr) (hn : DIRSEPARATOR_CHAR ∉ name) (hd : dir ≠ [])
    (h1 : dir.getLast? ≠ some DIRSEPARATOR_CHAR) (h2 : dir.getLast? ≠ some ':')
    (h3 : name.head? ≠ some ':') :
    strsfp (dir ++ DIRSEPARATOR_CHAR :: name) = (dir, name)
      ∧ strmfp dir name = dir ++ DIRSEPARATOR_CHAR :: name := by
  have ha : strrchr (dir ++ '/' :: name) '/' = some dir.length :=
    strrchr_append dir name '/' hn
  have hlen : 0 < dir.length := List.length_pos.mpr hd
  constructor
  · simp only [strsfp, DIRSEPARATOR_CHAR, ha]
    have ht : (dir ++ '/' :: name).take dir.length = dir := by simp
    have hdr : (dir ++ '/' :: name).drop (dir.length + 1) = name := by
      rw [← List.drop_drop]; simp
    rw [ht, hdr]
    simp only [hd, if_false]
    have h3' : ¬ (name.head? = some ':' ∧ dir.length = 1) := fun h => h3 h.1
    simp only [h3', if_false]
    have h4 : ¬ (dir[1]? = some ':' ∧ dir.length = 2) := by
      rintro ⟨ha1, ha2⟩
      apply h2
      rw [List.getLast?_eq_getElem?, ha2]
      exact ha1
    simp only [h4, if_false]
  · simp [strmfp, hlen, h1, h2, DIRSEPARATOR_STRING]
    rfl


/-- C4, amended: `updateall (S, D)` treats `D` as an exact file name exactly
when `strsfp` splits `D` into a directory part and a non-empty name,
`is_directory` accepts that directory part, `is_directory` rejects `D`, and
`S` has no `*` or `?`; every matched entry is then copied to the path that
`strmfp` rebuilds from the two parts, which is `D` itself for a `D` of the
form `dir/name` (with `dir` not empty and not ending in `/` or `:`), and in
every other case to `D` joined with the name of the entry. A `D` with neither
a separator nor a `:` has an empty directory part, which `is_directory`
rejects, so it is always treated as a directory. -/
theorem targetSplit_rule (d : Disk) (p1 p2 d_name : CStr) :
    (targetPath (targetSplit d p1 p2).1 (targetSplit d p1 p2).2 d_name
        = if (strsfp p2).2 ≠ [] ∧ is_directory d (strsfp p2).1 = true
              ∧ is_directory d p2 = false ∧ hasWildcard p1 = false
          then strmfp (strsfp p2).1 (strsfp p2).2 else strmfp p2 d_name)
      ∧ (DIRSEPARATOR_CHAR ∉ p2 ∧ ':' ∉ p2 →
          targetPath (targetSplit d p1 p2).1 (targetSplit d p1 p2).2 d_name = strmfp p2 d_name)
      ∧ (∀ dir name : CStr, p2 = dir ++ DIRSEPARATOR_CHAR :: name → DIRSEPARATOR_CHAR ∉ name →
          dir ≠ [] → dir.getLast? ≠ some DIRSEPARATOR_CHAR → dir.getLast? ≠ some ':' →
          name.head? ≠ some ':' → strmfp (strsfp p2).1 (strsfp p2).2 = p2) := by
  have hmain : targetPath (targetSplit d p1 p2).1 (targetSplit d p1 p2).2 d_name
        = if (strsfp p2).2 ≠ [] ∧ is_directory d (strsfp p2).1 = true
              ∧ is_directory d p2 = false ∧ hasWildcard p1 = false
          then strmfp (strsfp p2).1 (strsfp p2).2 else strmfp p2 d_name := by
    unfold targetSplit
    split <;> simp [targetPath]
  refine ⟨hmain, ?_, ?_⟩
  · rintro ⟨h1, h2⟩
    rw [hmain, strsfp_no_separator p2 h1 h2]
    simp [is_directory_empty]
  · intro dir name hp hn hd h1 h2 h3
    have h := strsfp_strmfp_plain dir name hn hd h1 h2 h3
    rw [hp, h.1]
    exact h.2
/-! ### Dry run -/

theorem zapFileM_noexec (w : World) (path : CStr) (m : Nat) (zo : zapOpts)
    (h : zo.noexec = true) : (zapFileM w path m zo).1 = w := by
  unfold zapFileM
  split
  · rfl
  · simp [h]

theorem zapDirLoop_noexec (zapSub : World → CStr → Nat → World × Option Int) (path : CStr)
    (zo : zapOpts) (h : zo.noexec = true) (hsub : ∀ w p m, (zapSub w p m).1 = w)
    (ents : List Dirent) : ∀ (w : World) (n : Int), (zapDirLoop zapSub path zo ents w n).1 = w := by
  induction ents with
  | nil => intro w n; rfl
  | cons de rest ih =>
    intro w n
    unfold zapDirLoop
    cases hl : lstat w.disk (NewPathName path de.d_name) with
    | err er => simp only; exact ih w (n + 1)
    | ok st =>
      simp only
      cases hk : de.d_type <;> simp only
      case dir =>
        split
        · exact ih w n
        · have hs := hsub w (NewPathName path de.d_name) st.st_mode
          rcases hz : zapSub w (NewPathName path de.d_name) st.st_mode with ⟨w1, _ | iErr⟩
          · rw [hz] at hs; exact hs
          · rw [hz] at hs
            simp only at hs ⊢
            rw [ih w1 (n + iErr)]; exact hs
      case lnk =>
        rw [ih, zapFileM_noexec w _ _ zo h]
      case reg =>
        rw [ih, zapFileM_noexec w _ _ zo h]
      all_goals exact ih w (n + 1)

theorem zapDirM_noexec (zo : zapOpts) (h : zo.noexec = true) (fuel : Nat) :
    ∀ (w : World) (path : CStr) (m : Nat), (zapDirM fuel w path m zo).1 = w := by
  induction fuel with
  | zero => intro w path m; rfl
  | succ fuel ih =>
    intro w path m
    unfold zapDirM
    split
    · rfl
    · cases ho : opendir w.disk path with
      | err er => rfl
      | ok ents =>
        simp only
        have hl := zapDirLoop_noexec (fun w1 p m => zapDirM fuel w1 p m zo) path zo h
          (fun w p m => ih w p m) ents w 0
        rcases hz : zapDirLoop (fun w1 p m => zapDirM fuel w1 p m zo) path zo ents w 0
          with ⟨w1, _ | nErr⟩
        · rw [hz] at hl; exact hl
        · rw [hz] at hl
          simp only [zapDirEnd, h, if_true]
          exact hl
theorem updateEnd_test (e : Env) (w : World) (p1 p2 : CStr) (h : e.test = true) :
    (updateEnd e w p1 p2).1 = w := by
  unfold updateEnd
  split
  · rfl
  · simp [h]

theorem update_test (e : Env) (fuel : Nat) (w : World) (p1 p2 : CStr) (h : e.test = true) :
    (update e fuel w p1 p2).1 = w := by
  unfold update
  split
  · rfl
  · split
    · rfl
    · cases hl : lstat w.disk p2 with
      | err er => simp only; exact updateEnd_test e w p1 p2 h
      | ok st =>
        simp only
        split
        · have hz := zapDirM_noexec ⟨true, e.test, true, false, e.force⟩ h fuel w p2 st.st_mode
          rcases hr : zapDirM fuel w p2 st.st_mode ⟨true, e.test, true, false, e.force⟩
            with ⟨w1, _ | err⟩
          · rw [hr] at hz; exact hz
          · rw [hr] at hz
            simp only at hz ⊢
            split
            · exact hz
            · simp only; rw [updateEnd_test e w1 _ _ h]; exact hz
        · have hz := zapFileM_noexec w p2 st.st_mode ⟨false, e.test, true, false, e.force⟩ h
          split
          · split
            · exact hz
            · simp only; rw [updateEnd_test e _ _ _ h]; exact hz
          · simp only; exact updateEnd_test e w p1 p2 h

theorem update_link_test (e : Env) (fuel : Nat) (w : World) (p1 p2 : CStr) (h : e.test = true) :
    (update_link e fuel w p1 p2).1 = w := by
  unfold update_link
  simp only
  split
  · rfl
  · split
    · rfl
    · simp [h]

theorem scanLoop_test (e : Env) (fuel : Nat) (path0 ppath : CStr) (pname : Option CStr)
    (pattern : CStr) (h : e.test = true) (ents : List Dirent) :
    ∀ (w : World) (n : Int), (scanLoop e fuel path0 ppath pname pattern ents w n).1 = w := by
  induction ents with
  | nil => intro w n; rfl
  | cons de rest ih =>
    intro w n
    unfold scanLoop
    split
    · exact ih w n
    · split
      · exact ih w n
      · have hu : ((if de.d_type = .lnk then
               update_link e fuel w (strmfp path0 de.d_name) (targetPath ppath pname de.d_name)
             else update e fuel w (strmfp path0 de.d_name) (targetPath ppath pname de.d_name))).1
             = w := by
          split
          · exact update_link_test e fuel w _ _ h
          · exact update_test e fuel w _ _ h
        rcases hr : (if de.d_type = .lnk then
               update_link e fuel w (strmfp path0 de.d_name) (targetPath ppath pname de.d_name)
             else update e fuel w (strmfp path0 de.d_name) (targetPath ppath pname de.d_name))
          with ⟨w1, _ | err⟩
        · rw [hr] at hu; exact hu
        · rw [hr] at hu
          simp only at hu ⊢
          rw [ih]; exact hu

theorem eraseLoop_noexec (e : Env) (fuel : Nat) (path0 path2 pattern : CStr) (zo : zapOpts)
    (h : zo.noexec = true) (ents : List Dirent) :
    ∀ (w : World) (n : Int), (eraseLoop e fuel path0 path2 pattern zo ents w n).1 = w := by
  induction ents with
  | nil => intro w n; rfl
  | cons de rest ih =>
    intro w n
    unfold eraseLoop
    split
    · exact ih w n
    · split
      · exact ih w n
      · split
        · cases hl : lstat w.disk (strmfp path2 de.d_name) with
          | err er => simp only; exact ih w (n + 1)
          | ok st =>
            simp only
            cases hk : de.d_type <;> simp only
            case dir =>
              have hz := zapDirM_noexec zo h fuel w (strmfp path2 de.d_name) st.st_mode
              rcases hr : zapDirM fuel w (strmfp path2 de.d_name) st.st_mode zo
                with ⟨w1, _ | err⟩
              · rw [hr] at hz; exact hz
              · rw [hr] at hz
                simp only at hz ⊢
                rw [ih]; exact hz
            case lnk => rw [ih, zapFileM_noexec w _ _ zo h]
            case reg => rw [ih, zapFileM_noexec w _ _ zo h]
            all_goals exact ih w (n + 1)
        · exact ih w n

theorem erasePhase_noexec (e : Env) (fuel : Nat) (path0 p2 pattern : CStr) (zo : zapOpts)
    (h : zo.noexec = true) (w : World) (n : Int) :
    (erasePhase e fuel path0 p2 pattern zo w n).1 = w := by
  unfold erasePhase
  split
  · cases ho : opendir w.disk p2 with
    | err er => rfl
    | ok ents => simp only; exact eraseLoop_noexec e fuel path0 _ pattern zo h ents w n
  · rfl
theorem copydate_missing_target (w : World) (pszToFile pszFromFile : CStr)
    (h : exists_ w.disk pszToFile = false) :
    (copydate w pszToFile pszFromFile).1.disk = w.disk := by
  unfold exists_ lstat at h
  cases he : entry w.disk pszToFile false with
  | ok kn => obtain ⟨k, n⟩ := kn; simp [he] at h
  | err er =>
    have h1 : ∀ m, (lchmod w pszToFile m).1 = w.log (.lchmod pszToFile m) := by
      intro m; simp [lchmod, he]
    have h2 : ∀ (w1 : World) t, w1.disk = w.disk →
        (lutimes w1 pszToFile t).1 = w1.log (.lutimes pszToFile t) := by
      intro w1 t hw; simp [lutimes, hw, he]
    unfold copydate
    simp only [h1]
    rw [h2 (w.log _) _ rfl]
    rfl

theorem recurPrep_test (e : Env) (w : World) (path2 : CStr) (zo : zapOpts) (h : e.test = true) :
    (recurPrep e w path2 zo).world = w ∧ (recurPrep e w path2 zo).go = true
      ∧ (recurPrep e w path2 zo).p2_exists = exists_ w.disk path2 := by
  unfold recurPrep
  split
  · simp [h]
  · simp

theorem recurLoop_test (updSub : World → CStr → CStr → World × Option Int) (e : Env)
    (path0 ppath pattern : CStr) (zo : zapOpts) (h : e.test = true)
    (hsub : ∀ w q1 q2, (updSub w q1 q2).1.disk = w.disk) (ents : List Dirent) :
    ∀ (w : World) (n : Int),
      (recurLoop updSub e path0 ppath pattern zo ents w n).1.disk = w.disk := by
  induction ents with
  | nil => intro w n; rfl
  | cons de rest ih =>
    intro w n
    unfold recurLoop
    split
    · exact ih w n
    · split
      · exact ih w n
      · simp only
        obtain ⟨hw, hgo, hex⟩ :=
          recurPrep_test e w (strmfp ppath de.d_name ++ DIRSEPARATOR_STRING) zo h
        rw [hw, hgo, hex]
        simp only [Bool.true_eq_false, if_false]
        have hs := hsub w (strmfp (strmfp path0 de.d_name) pattern)
          (strmfp ppath de.d_name ++ DIRSEPARATOR_STRING)
        rcases hr : updSub w (strmfp (strmfp path0 de.d_name) pattern)
          (strmfp ppath de.d_name ++ DIRSEPARATOR_STRING) with ⟨w1, _ | err⟩
        · rw [hr] at hs; exact hs
        · rw [hr] at hs
          simp only at hs ⊢
          rw [ih]
          split
          · rename_i hmiss
            rw [copydate_missing_target w1 _ _ (by rw [hs]; exact hmiss)]
            exact hs
          · exact hs

theorem updateallEnd_unchanged (b : Bool) (ppath path0 : CStr) (r : World × Option Int)
    (h : is_directory r.1.disk ppath = b) : updateallEnd b ppath path0 r = r := by
  obtain ⟨w, _ | n⟩ := r
  · rfl
  · simp only at h
    unfold updateallEnd
    simp only
    split
    · rename_i hc
      rw [h] at hc
      obtain ⟨h1, h2⟩ := hc
      rw [h1] at h2
      exact absurd h2 (by decide)
    · rfl

/-- In test mode `updateall` leaves the disk as it was, whatever the source
argument, the target, the state of the disk and the depth reached: nothing is
created or deleted and no content, permission or date is changed. -/
theorem updateall_dry_run_keeps_disk (e : Env) (fuel : Nat) (w : World) (p1 p2 : CStr)
    (htest : e.test = true) : (updateall e fuel w p1 p2).1.disk = w.disk := by
  induction fuel generalizing w p1 p2 with
  | zero => rfl
  | succ fuel ih =>
    unfold updateall
    simp only
    cases ho : opendir w.disk (sourceSplit w.disk p1).1 with
    | err er => rfl
    | ok ents =>
      simp only
      have hsc := scanLoop_test e fuel (sourceSplit w.disk p1).1 (targetSplit w.disk p1 p2).1
        (targetSplit w.disk p1 p2).2 (sourceSplit w.disk p1).2 htest ents w 0
      rcases hr : scanLoop e fuel (sourceSplit w.disk p1).1 (targetSplit w.disk p1 p2).1
        (targetSplit w.disk p1 p2).2 (sourceSplit w.disk p1).2 ents w 0 with ⟨w1, _ | n1⟩
      · rw [hr] at hsc; simp only at hsc ⊢; rw [hsc]
      · rw [hr] at hsc
        simp only at hsc ⊢
        subst hsc
        have her := erasePhase_noexec e fuel (sourceSplit w1.disk p1).1 p2
          (sourceSplit w1.disk p1).2 ⟨true, e.test, e.iRecur, false, e.force⟩ htest w1 n1
        rcases hq : erasePhase e fuel (sourceSplit w1.disk p1).1 p2
          (sourceSplit w1.disk p1).2 ⟨true, e.test, e.iRecur, false, e.force⟩ w1 n1
          with ⟨w2, _ | n2⟩
        · rw [hq] at her; simp only at her; subst her; rfl
        · rw [hq] at her
          simp only at her
          subst her
          unfold recurPhase
          simp only
          split
          · cases ho2 : opendir w2.disk (sourceSplit w2.disk p1).1 with
            | err er => rfl
            | ok ents2 =>
              simp only
              have hl := recurLoop_test (fun w3 q1 q2 => updateall e fuel w3 q1 q2) e
                (sourceSplit w2.disk p1).1 (targetSplit w2.disk p1 p2).1
                (sourceSplit w2.disk p1).2 ⟨true, e.test, e.iRecur, false, e.force⟩ htest
                (fun w3 q1 q2 => ih w3 q1 q2) ents2 w2 n2
              rw [updateallEnd_unchanged _ _ _ _ (by rw [hl])]
              exact hl
          · rw [updateallEnd_unchanged (is_directory w2.disk (targetSplit w2.disk p1 p2).1) _ _
              (w2, some n2) rfl]
/-- C6, evaluated at the failing input: in a recursive dry run where the
target subdirectory `d/sub/` is missing, `updateall` returns 0 and leaves the
disk unchanged, but it has called `copydate` on the missing directory, which
issues `lchmod` and `lutimes`. -/
theorem dry_run_issues_copydate_calls :
    dryEnv.test = true
      ∧ exists_ wRecur.disk pDstSub = false
      ∧ (updateall dryEnv 3 wRecur ['s'] ['d']).2 = some 0
      ∧ (updateall dryEnv 3 wRecur ['s'] ['d']).1.disk = wRecur.disk
      ∧ (updateall dryEnv 3 wRecur ['s'] ['d']).1.calls
          = [.lutimes pDstSub 100, .lchmod pDstSub 0o040755] := by
  decide

/-! ### Copy to a missing target -/

theorem lookup_store_same (k : Key) (n : Node) (l : List (Key × Node)) :
    lookup k (store k n l) = some n := by
  induction l with
  | nil => simp [store, lookup]
  | cons a rest ih =>
    obtain ⟨k1, n1⟩ := a
    by_cases h : k1 = k
    · simp [store, lookup, h]
    · simp [store, lookup, h, ih]

theorem lookup_store_other (k k2 : Key) (n : Node) (l : List (Key × Node)) (h : k ≠ k2) :
    lookup k2 (store k n l) = lookup k2 l := by
  induction l with
  | nil => simp [store, lookup, h]
  | cons a rest ih =>
    obtain ⟨k1, n1⟩ := a
    by_cases h1 : k1 = k
    · subst h1
      simp [store, lookup, h]
    · by_cases h2 : k1 = k2
      · subst h2
        simp [store, lookup, h1]
      · simp [store, lookup, h1, h2, ih]

theorem Extends.refl (w : World) : Extends w w :=
  ⟨rfl, rfl, rfl, fun _ _ h => h, fun _ h => Or.inl h⟩

theorem Extends.trans {w w1 w2 : World} (h1 : Extends w w1) (h2 : Extends w1 w2) :
    Extends w w2 := by
  obtain ⟨a1, b1, c1, d1, e1⟩ := h1
  obtain ⟨a2, b2, c2, d2, e2⟩ := h2
  refine ⟨a2.trans a1, b2.trans b1, c2.trans c1, fun k n h => d2 k n (d1 k n h), ?_⟩
  intro k hk
  rcases e1 k hk with h | ⟨n, hn, hd⟩
  · exact e2 k h
  · exact Or.inr ⟨n, d2 k n hn, hd⟩

theorem mkdir_extends (w : World) (p : CStr) (mode : Nat) : Extends w (mkdir w p mode).1 := by
  unfold mkdir
  split
  · exact Extends.refl w
  · split
    · exact Extends.refl w
    · cases hl : lookup (canon w.disk.cwd p) w.disk.nodes with
      | some n => exact Extends.refl w
      | none =>
        simp only
        cases hp : parentIsDir w.disk (canon w.disk.cwd p) with
        | err er => exact Extends.refl w
        | ok u =>
          simp only
          split
          · exact Extends.refl w
          · refine ⟨rfl, rfl, rfl, ?_, ?_⟩
            · intro k n hk
              have hne : canon w.disk.cwd p ≠ k := by
                intro heq; rw [heq] at hl; rw [hl] at hk; exact absurd hk (by simp)
              simp only [World.put, World.log]
              rw [lookup_store_other _ _ _ _ hne]; exact hk
            · intro k hk
              by_cases heq : canon w.disk.cwd p = k
              · right
                refine ⟨⟨.dir, mode % 4096, w.disk.now, [], []⟩, ?_, rfl⟩
                simp only [World.put, World.log]
                rw [← heq, lookup_store_same]
              · left
                simp only [World.put, World.log]
                rw [lookup_store_other _ _ _ _ heq]; exact hk

theorem mkdirpLoop_extends (pszPath : CStr) (pszMode : Nat) (fuel : Nat) :
    ∀ (w : World) (pc : Nat) (b : Bool),
      Extends w (mkdirpLoop fuel w pszPath pszMode pc b).1 := by
  induction fuel with
  | zero => intro w pc b; exact Extends.refl w
  | succ fuel ih =>
    intro w pc b
    unfold mkdirpLoop
    simp only
    split
    · have hm : ∀ q, Extends w (mkdir1 w q pszMode).1 := fun q => mkdir_extends w q pszMode
      split
      · exact hm _
      · split
        · exact hm _
        · split
          · exact hm _
          · exact (hm _).trans (ih _ _ _)
    · split
      · exact Extends.refl w
      · split
        · exact Extends.refl w
        · exact ih _ _ _

theorem mkdirp_extends (w : World) (p : CStr) (mode : Nat) : Extends w (mkdirp w p mode).1 := by
  unfold mkdirp
  simp only
  split <;> split <;> first | exact Extends.refl w | exact mkdirpLoop_extends p mode _ w _ _
theorem copyLoop_succeeds (name2 : CStr) (ks kd : Key) (src : Node) (hne : ks ≠ kd)
    (fuel : Nat) :
    ∀ (w : World) (offset : Nat) (dn : Node),
      src.data.length - offset < fuel → offset ≤ src.data.length →
      w.disk.faults = [] → lookup ks w.disk.nodes = some src →
      lookup kd w.disk.nodes = some dn → dn.data = src.data.take offset →
      ∃ w1 dn1, copyLoop name2 ks kd src.data.length fuel w offset = (w1, 0)
        ∧ w1.disk.cwd = w.disk.cwd ∧ w1.disk.faults = []
        ∧ lookup ks w1.disk.nodes = some src
        ∧ lookup kd w1.disk.nodes = some dn1 ∧ dn1.data = src.data ∧ dn1.kind = dn.kind
        ∧ dn1.perm = dn.perm ∧ dn1.target = dn.target := by
  induction fuel with
  | zero => intro w offset dn h; omega
  | succ fuel ih =>
    intro w offset dn hfuel hle hf hs hd hdata
    unfold copyLoop
    by_cases hlt : offset < src.data.length
    · simp only [hlt, if_true]
      have hn1 : 1 ≤ min BUFFERSIZE (src.data.length - offset) := by
        simp only [BUFFERSIZE]; omega
      have hn2 : min BUFFERSIZE (src.data.length - offset) ≤ src.data.length - offset :=
        Nat.min_le_right _ _
      generalize min BUFFERSIZE (src.data.length - offset) = n at hn1 hn2 ⊢
      have hlen : ((src.data.drop offset).take n).length = n := by
        rw [List.length_take, List.length_drop]; omega
      have hfr : fread w.disk ks offset n = some ((src.data.drop offset).take n) := by
        simp [fread, hf, hs, hlen]
      simp only [hfr]
      generalize hbuf : (src.data.drop offset).take n = buf at hlen ⊢
      have hfw : fwrite w kd offset buf
          = ((w.log (.fwrite kd offset buf.length)).put kd
              { dn with data := dn.data.take offset ++ buf, mtime := w.disk.now }, true) := by
        simp [fwrite, hf, hd]
      rw [hfw]
      simp only [if_true]
      have hdata2 : dn.data.take offset ++ buf = src.data.take (offset + n) := by
        rw [hdata, List.take_take, Nat.min_self, List.take_add, hbuf]
      obtain ⟨w1, dn1, h1, h2, h3, h4, h5, h6, h7, h8, h9⟩ :=
        ih ((w.log (.fwrite kd offset buf.length)).put kd
              { dn with data := dn.data.take offset ++ buf, mtime := w.disk.now })
          (offset + n)
          { dn with data := dn.data.take offset ++ buf, mtime := w.disk.now }
          (by omega) (by omega) hf
          (by simp only [World.put, World.log]
              rw [lookup_store_other _ _ _ _ (Ne.symm hne)]; exact hs)
          (by simp only [World.put, World.log]; exact lookup_store_same _ _ _)
          hdata2
      exact ⟨w1, dn1, h1, h2, h3, h4, h5, h6, h7, h8, h9⟩
    · simp only [hlt, if_false]
      refine ⟨w, dn, rfl, rfl, hf, hs, hd, ?_, rfl, rfl, rfl⟩
      rw [hdata]
      exact List.take_of_length_le (by omega)
theorem entry_nofollow_elim (d : Disk) (p : CStr) (k : Key) (n : Node)
    (h : entry d p false = .ok (k, n)) (hk : n.kind ≠ .dir) :
    p ≠ [] ∧ ¬ PATH_MAX ≤ p.length ∧ trailingSlash p = false ∧ k = canon d.cwd p
      ∧ lookup k d.nodes = some n := by
  have hl := entry_ok_lookup d p false k n h
  unfold entry namei at h
  by_cases hp : p = []
  · simp [hp] at h
  · by_cases hlen : PATH_MAX ≤ p.length
    · simp [hp, hlen] at h
    · refine ⟨hp, hlen, ?_⟩
      cases hts : trailingSlash p
      · simp only [hp, hlen, hts, if_false, Bool.or_false, Bool.false_and, Bool.or_self] at h
        cases hlk : lookup (canon d.cwd p) d.nodes with
        | none => simp [hlk] at h
        | some n1 =>
          simp [hlk] at h
          exact ⟨rfl, h.1.symm, hl⟩
      · exfalso
        simp only [hp, hlen, hts, if_false, Bool.or_true, Bool.true_and, if_true] at h
        cases hc : chase d.nodes 40 (canon d.cwd p) with
        | err er => simp [hc] at h
        | ok k1 =>
          simp only [hc] at h
          cases hlk : lookup k1 d.nodes with
          | none => simp [hlk] at h
          | some n1 =>
            simp only [hlk] at h
            by_cases hd : n1.kind = .dir
            · simp [hd] at h
              exact hk (h.2 ▸ hd)
            · simp [hd] at h

theorem entry_intro (d : Disk) (p : CStr) (n : Node) (b : Bool) (hp : p ≠ [])
    (hlen : ¬ PATH_MAX ≤ p.length) (hts : trailingSlash p = false)
    (hl : lookup (canon d.cwd p) d.nodes = some n) (hk : n.kind ≠ .lnk) :
    entry d p b = .ok (canon d.cwd p, n) := by
  unfold entry namei
  cases b
  · simp [hp, hlen, hts, hl]
  · simp [hp, hlen, hts, hl, chase, hk]

theorem lookup_none_of_missing (d : Disk) (p : CStr) (h : exists_ d p = false) (hp : p ≠ [])
    (hlen : ¬ PATH_MAX ≤ p.length) (hts : trailingSlash p = false) :
    lookup (canon d.cwd p) d.nodes = none := by
  unfold exists_ lstat entry namei at h
  simp only [hp, hlen, hts, if_false, Bool.or_false, Bool.false_and, Bool.or_self] at h
  cases hlk : lookup (canon d.cwd p) d.nodes with
  | none => rfl
  | some n => simp [hlk] at h

theorem fopen_w_ok_path (w : World) (p : CStr) (kd : Key) (h : (fopen_w w p).2 = .ok kd) :
    p ≠ [] ∧ ¬ PATH_MAX ≤ p.length ∧ trailingSlash p = false := by
  unfold fopen_w namei at h
  by_cases hp : p = []
  · simp [hp] at h
  · by_cases hlen : PATH_MAX ≤ p.length
    · simp [hp, hlen] at h
    · refine ⟨hp, hlen, ?_⟩
      cases hts : trailingSlash p
      · rfl
      · exfalso
        simp only [hp, hlen, hts, if_false, Bool.or_true, if_true] at h
        cases hc : chase w.disk.nodes 40 (canon w.disk.cwd p) with
        | err er => simp [hc] at h
        | ok k1 => simp [hc] at h

theorem fopen_w_creates (w : World) (p : CStr) (kd : Key) (h : (fopen_w w p).2 = .ok kd)
    (hn : lookup (canon w.disk.cwd p) w.disk.nodes = none
      ∨ ∃ n, lookup (canon w.disk.cwd p) w.disk.nodes = some n ∧ n.kind = .dir) :
    lookup (canon w.disk.cwd p) w.disk.nodes = none
      ∧ fopen_w w p = ((w.log (.fopen_w p)).put (canon w.disk.cwd p)
          ⟨.reg, 0o644, w.disk.now, [], []⟩, .ok (canon w.disk.cwd p)) := by
  obtain ⟨hp, hlen, hts⟩ := fopen_w_ok_path w p kd h
  unfold fopen_w namei at h ⊢
  simp only [hp, hlen, hts, if_false, Bool.or_false, Bool.true_or, if_true] at h ⊢
  rcases hn with hn | ⟨n, hn, hd⟩
  · have hc : chase w.disk.nodes 40 (canon w.disk.cwd p) = .ok (canon w.disk.cwd p) := by
      simp [chase, hn]
    simp only [hc, hn] at h ⊢
    cases hpd : parentIsDir w.disk (canon w.disk.cwd p) with
    | err er => simp [hpd] at h
    | ok u => simp
  · exfalso
    have hc : chase w.disk.nodes 40 (canon w.disk.cwd p) = .ok (canon w.disk.cwd p) := by
      simp [chase, hn, hd]
    simp [hc, hn, hd] at h
theorem copydate_sets (w : World) (p2 p1 : CStr) (k1 : Key) (src dn : Node)
    (hsrc : entry w.disk p1 false = .ok (k1, src))
    (hp : p2 ≠ []) (hlen : ¬ PATH_MAX ≤ p2.length) (hts : trailingSlash p2 = false)
    (hl : lookup (canon w.disk.cwd p2) w.disk.nodes = some dn) (hk : dn.kind ≠ .lnk)
    (hf : w.disk.faults = []) :
    (copydate w p2 p1).1.disk.cwd = w.disk.cwd
      ∧ lookup (canon w.disk.cwd p2) (copydate w p2 p1).1.disk.nodes
          = some { dn with perm := src.st_mode % 4096, mtime := src.mtime } := by
  have h1 : lstat w.disk p1 = .ok src.stat := by simp [lstat, hsrc]
  have h2 : lchmod w p2 src.st_mode
      = ((w.log (.lchmod p2 src.st_mode)).put (canon w.disk.cwd p2)
          { dn with perm := src.st_mode % 4096 }, .ok ()) := by
    simp [lchmod, entry_intro w.disk p2 dn false hp hlen hts hl hk, hk, hf]
  have hl3 : lookup (canon w.disk.cwd p2)
      ((w.log (.lchmod p2 src.st_mode)).put (canon w.disk.cwd p2)
          { dn with perm := src.st_mode % 4096 }).disk.nodes
        = some { dn with perm := src.st_mode % 4096 } := by
    simp only [World.put, World.log]; exact lookup_store_same _ _ _
  have h3 : lutimes ((w.log (.lchmod p2 src.st_mode)).put (canon w.disk.cwd p2)
          { dn with perm := src.st_mode % 4096 }) p2 src.mtime
      = ((((w.log (.lchmod p2 src.st_mode)).put (canon w.disk.cwd p2)
          { dn with perm := src.st_mode % 4096 }).log (.lutimes p2 src.mtime)).put
            (canon w.disk.cwd p2)
            { dn with perm := src.st_mode % 4096, mtime := src.mtime }, .ok ()) := by
    have he := entry_intro ((w.log (.lchmod p2 src.st_mode)).put (canon w.disk.cwd p2)
          { dn with perm := src.st_mode % 4096 }).disk p2
          { dn with perm := src.st_mode % 4096 } false hp hlen hts hl3 hk
    have hf2 : ((w.log (.lchmod p2 src.st_mode)).put (canon w.disk.cwd p2)
          { dn with perm := src.st_mode % 4096 }).disk.faults = [] := hf
    unfold lutimes
    rw [he]
    simp only [hf2, List.not_mem_nil, if_false]
    rfl
  unfold copydate
  simp only [h1, h2, Node.stat, h3]
  refine ⟨rfl, ?_⟩
  simp only [World.put, World.log]
  exact lookup_store_same _ _ _
theorem copyf_succeeds (e : Env) (w : World) (p1 p2 : CStr) (src : Node) (kd : Key)
    (hf : w.disk.faults = [])
    (hp1 : p1 ≠ []) (hlen1 : ¬ PATH_MAX ≤ p1.length) (hts1 : trailingSlash p1 = false)
    (hl1 : lookup (canon w.disk.cwd p1) w.disk.nodes = some src) (hreg : src.kind = .reg)
    (hread : hasReadBit src.perm = true)
    (hopen : (fopen_w w p2).2 = .ok kd)
    (hmiss : lookup (canon w.disk.cwd p2) w.disk.nodes = none
      ∨ ∃ n, lookup (canon w.disk.cwd p2) w.disk.nodes = some n ∧ n.kind = .dir) :
    (copyf e w p1 p2).2 = 0 ∧ (copyf e w p1 p2).1.disk.cwd = w.disk.cwd
      ∧ ∃ dst, lookup (canon w.disk.cwd p2) (copyf e w p1 p2).1.disk.nodes = some dst
          ∧ dst.kind = .reg ∧ dst.data = src.data ∧ dst.mtime = src.mtime := by
  have hk : src.kind ≠ .lnk := by rw [hreg]; decide
  obtain ⟨hp2, hlen2, hts2⟩ := fopen_w_ok_path w p2 kd hopen
  obtain ⟨hnone, hfw⟩ := fopen_w_creates w p2 kd hopen hmiss
  have hne : canon w.disk.cwd p1 ≠ canon w.disk.cwd p2 := by
    intro heq; rw [heq, hnone] at hl1; exact absurd hl1 (by simp)
  have hfr : fopen_r w.disk p1 = .ok (canon w.disk.cwd p1) := by
    simp [fopen_r, entry_intro w.disk p1 src true hp1 hlen1 hts1 hl1 hk, hread]
  have hfl : filelength w.disk (canon w.disk.cwd p1) = src.data.length := by
    simp [filelength, hl1]
  have hprobe : ¬ (src.data.length ≠ 0 ∧ fread w.disk (canon w.disk.cwd p1) 0 1 = none) := by
    rintro ⟨h0, hr⟩
    have h1 : ((src.data.drop 0).take 1).length = 1 := by
      rw [List.length_take, List.length_drop]; omega
    simp [fread, hf, hl1, h1] at hr
    exact h0 (by rw [hr]; rfl)
  obtain ⟨w3, dn1, hc1, hc2, hc3, hc4, hc5, hc6, hc7, _, _⟩ :=
    copyLoop_succeeds p2 (canon w.disk.cwd p1) (canon w.disk.cwd p2) src hne
      (src.data.length + 1)
      ((w.log (.fopen_w p2)).put (canon w.disk.cwd p2) ⟨.reg, 0o644, w.disk.now, [], []⟩)
      0 ⟨.reg, 0o644, w.disk.now, [], []⟩ (by omega) (by omega) hf
      (by simp only [World.put, World.log]
          rw [lookup_store_other _ _ _ _ (Ne.symm hne)]; exact hl1)
      (by simp only [World.put, World.log]; exact lookup_store_same _ _ _)
      (by simp)
  have hcwd3 : w3.disk.cwd = w.disk.cwd := hc2
  have hsrc3 : entry w3.disk p1 false = .ok (canon w3.disk.cwd p1, src) :=
    entry_intro w3.disk p1 src false hp1 hlen1 hts1 (by rw [hcwd3]; exact hc4) hk
  have hk1 : dn1.kind ≠ .lnk := by rw [hc7]; simp
  obtain ⟨hd1, hd2⟩ := copydate_sets w3 p2 p1 (canon w3.disk.cwd p1) src dn1 hsrc3 hp2 hlen2
    hts2 (by rw [hcwd3]; exact hc5) hk1 hc3
  have hres : copyf e w p1 p2 = ((copydate w3 p2 p1).1, 0) := by
    unfold copyf
    simp only [hfr, hfl, hprobe, if_false, hfw, copyfTransfer, hc1]
    simp
  rw [hres]
  refine ⟨rfl, hd1.trans hcwd3, { dn1 with perm := src.st_mode % 4096, mtime := src.mtime },
    ?_, ?_, ?_, ?_⟩
  · rw [← hcwd3]; exact hd2
  · exact hc7
  · exact hc6
  · rfl
/-- C2: with test and freshen off and copy-empty on (the default options),
for every source path naming a regular file with the owner read permission
and every target path that does not exist, when no failure is injected, the
creation of the target directory succeeds where it is needed and the target
file can be opened for writing, `update` returns 0, and afterwards the target
path names a regular file whose content is that of the source and whose
modification time is that of the source. -/
theorem update_copies_to_missing_target (e : Env) (fuel : Nat) (w : World) (p1 p2 : CStr)
    (ks kd : Key) (src : Node)
    (htest : e.test = false) (hfresh : e.fresh = false) (hce : e.copyempty = true)
    (hsrc : entry w.disk p1 false = .ok (ks, src)) (hreg : src.kind = .reg)
    (hread : hasReadBit src.perm = true)
    (hdst : exists_ w.disk p2 = false)
    (hfaults : w.disk.faults = [])
    (hmk : exists_ w.disk (strsfp p2).1 = true ∨ (mkdirp w (strsfp p2).1 DIRMODE).2 = 0)
    (hopen : (fopen_w (if exists_ w.disk (strsfp p2).1 = true then w
                       else (mkdirp w (strsfp p2).1 DIRMODE).1) p2).2 = .ok kd) :
    (update e fuel w p1 p2).2 = some 0
      ∧ ∃ dst, entry (update e fuel w p1 p2).1.disk p2 false = .ok (kd, dst)
          ∧ dst.kind = .reg ∧ dst.data = src.data ∧ dst.mtime = src.mtime := by
  have hkd : src.kind ≠ .dir := by rw [hreg]; decide
  obtain ⟨hp1, hlen1, hts1, hks, hl1⟩ := entry_nofollow_elim w.disk p1 ks src hsrc hkd
  subst hks
  generalize hw1 : (if exists_ w.disk (strsfp p2).1 = true then w
                    else (mkdirp w (strsfp p2).1 DIRMODE).1) = w1 at hopen
  have hext : Extends w w1 := by
    rw [← hw1]
    split
    · exact Extends.refl w
    · exact mkdirp_extends w _ _
  obtain ⟨hcwd, _, hfl, hkeep, hnew⟩ := hext
  obtain ⟨hp2, hlen2, hts2⟩ := fopen_w_ok_path w1 p2 kd hopen
  have hnone := lookup_none_of_missing w.disk p2 hdst hp2 hlen2 hts2
  have hmiss1 : lookup (canon w1.disk.cwd p2) w1.disk.nodes = none
      ∨ ∃ n, lookup (canon w1.disk.cwd p2) w1.disk.nodes = some n ∧ n.kind = .dir := by
    rw [hcwd]; exact hnew _ hnone
  have hkdeq : kd = canon w1.disk.cwd p2 := by
    have h := (fopen_w_creates w1 p2 kd hopen hmiss1).2
    rw [h] at hopen
    simp only [Res.ok.injEq] at hopen
    exact hopen.symm
  obtain ⟨hr, hc, dst, hd1, hd2, hd3, hd4⟩ := copyf_succeeds e w1 p1 p2 src kd
    (hfl.trans hfaults) hp1 hlen1 hts1 (by rw [hcwd]; exact hkeep _ _ hl1) hreg hread hopen hmiss1
  have hcopy : copy e w p1 p2 = copyf e w1 p1 p2 := by
    unfold copy
    rw [← hw1]
    by_cases hex : exists_ w.disk (strsfp p2).1 = true
    · simp [hex]
    · have hm : (mkdirp w (strsfp p2).1 DIRMODE).2 = 0 := by
        rcases hmk with h | h
        · exact absurd h hex
        · exact h
      simp [hex, hm]
  have hlst : ∃ er, lstat w.disk p2 = .err er := by
    unfold exists_ at hdst
    cases hl : lstat w.disk p2 with
    | ok st => simp [hl] at hdst
    | err er => exact ⟨er, rfl⟩
  obtain ⟨er, hlst⟩ := hlst
  have hold : older w.disk p1 p2 = false := by
    simp [older, getmodified, hlst]
  have hupd : update e fuel w p1 p2 = ((copyf e w1 p1 p2).1, some (copyf e w1 p1 p2).2) := by
    unfold update
    simp only [hfresh, hce, hlst, updateEnd, hold, htest, hcopy]
    simp
  rw [hupd]
  refine ⟨by simp [hr], dst, ?_, hd2, hd3, hd4⟩
  have hdk : dst.kind ≠ .lnk := by rw [hd2]; decide
  have := entry_intro (copyf e w1 p1 p2).1.disk p2 dst false hp2 hlen2 hts2
    (by rw [hc]; exact hd1) hdk
  rw [hc] at this
  rw [hkdeq]
  exact this
theorem update_copies_to_missing_target_witness :
    (defaultEnv.test = false ∧ defaultEnv.fresh = false ∧ defaultEnv.copyempty = true
        ∧ entry wCopy.disk pSrcA false = .ok ([['s'], ['a']], fileNode 5 [1, 2, 3])
        ∧ (fileNode 5 [1, 2, 3]).kind = .reg ∧ hasReadBit (fileNode 5 [1, 2, 3]).perm = true
        ∧ exists_ wCopy.disk pDstXB = false ∧ wCopy.disk.faults = []
        ∧ (mkdirp wCopy (strsfp pDstXB).1 DIRMODE).2 = 0
        ∧ (fopen_w (if exists_ wCopy.disk (strsfp pDstXB).1 = true then wCopy
                    else (mkdirp wCopy (strsfp pDstXB).1 DIRMODE).1) pDstXB).2
            = .ok [['d'], ['x'], ['b']])
      ∧ (update defaultEnv 1 wCopy pSrcA pDstXB).2 = some 0
      ∧ ∃ dst, entry (update defaultEnv 1 wCopy pSrcA pDstXB).1.disk pDstXB false
            = .ok ([['d'], ['x'], ['b']], dst)
          ∧ dst.kind = .reg ∧ dst.data = (fileNode 5 [1, 2, 3]).data
          ∧ dst.mtime = (fileNode 5 [1, 2, 3]).mtime :=
  ⟨⟨by decide, by decide, by decide, by decide, by decide, by decide, by decide, by decide,
      by decide, by decide⟩,
   update_copies_to_missing_target defaultEnv 1 wCopy pSrcA pDstXB [['s'], ['a']]
     [['d'], ['x'], ['b']] (fileNode 5 [1, 2, 3]) (by decide) (by decide) (by decide)
     (by decide) (by decide) (by decide) (by decide) (by decide) (Or.inr (by decide))
     (by decide)⟩

/-! ### Freshness away from the epoch -/

/-- What `older` computes: the time of `p2` as `getmodified` reports it is
not `0` and the time of `p1` is not later. -/
theorem older_iff (d : Disk) (p1 p2 : CStr) :
    older d p1 p2 = true ↔ getmodified d p2 ≠ 0 ∧ getmodified d p1 ≤ getmodified d p2 := by
  unfold older
  by_cases h : getmodified d p2 = 0
  · simp [h]
  · simp [h]

/-- For a missing `p2` the answer of `older` is false. -/
theorem older_false_of_missing (d : Disk) (p1 p2 : CStr) (h : exists_ d p2 = false) :
    older d p1 p2 = false := by
  unfold exists_ at h
  cases hl : lstat d p2 with
  | ok st => simp [hl] at h
  | err er => simp [older, getmodified, hl]

theorem fmtOf_st_mode (n : Node) : fmtOf n.st_mode = n.kind.fmt := by
  unfold fmtOf Node.st_mode
  cases n.kind <;> simp only [Kind.fmt] <;> omega

/-- The skip of `update` away from the epoch: when the target is a regular
file whose modification time is not `0` and not earlier than that of the
source, `update` returns 0 and leaves the world as it was. -/
theorem update_skips_current_target (e : Env) (fuel : Nat) (w : World) (p1 p2 : CStr)
    (kd : Key) (dst : Node) (hdst : entry w.disk p2 false = .ok (kd, dst))
    (hreg : dst.kind = .reg) (hm : getmodified w.disk p1 ≤ dst.mtime) (h0 : dst.mtime ≠ 0) :
    update e fuel w p1 p2 = (w, some 0) := by
  have hl : lstat w.disk p2 = .ok dst.stat := by simp [lstat, hdst]
  have hd : S_ISDIR dst.stat.st_mode = false := by
    simp [S_ISDIR, Node.stat, fmtOf_st_mode, hreg, Kind.fmt]
  have hk : S_ISLNK dst.stat.st_mode = false := by
    simp [S_ISLNK, Node.stat, fmtOf_st_mode, hreg, Kind.fmt]
  have hp2 : p2 ≠ [] := by
    intro h; rw [h] at hdst; simp [entry, namei] at hdst
  have hg : getmodified w.disk p2 = dst.mtime := by
    simp [getmodified, hp2, hl, Node.stat]
  have ho : older w.disk p1 p2 = true := by
    rw [older_iff, hg]; exact ⟨h0, hm⟩
  unfold update
  split
  · rfl
  · split
    · rfl
    · simp [hl, hd, hk, updateEnd, ho]
/-! ### Splitting and joining pathnames -/

/-- C20: for every path containing `*` or `?`, and every state of the disk,
`is_directory` is false; the answer does not depend on the disk, which is not
queried. -/
theorem is_directory_rejects_wildcards (d : Disk) (name : CStr)
    (h : '*' ∈ name ∨ '?' ∈ name) : is_directory d name = false := by
  unfold is_directory strchr
  rcases h with h | h <;> simp [h]

theorem is_directory_rejects_wildcards_witness :
    (('*' ∈ pStar ∨ '?' ∈ pStar) ∧ lstat wStar.disk pStar = .ok ⟨0o040755, 100, 0⟩)
      ∧ is_directory wStar.disk pStar = false :=
  ⟨⟨by decide, by decide⟩, is_directory_rejects_wildcards wStar.disk pStar (by decide)⟩

/-- C14, counterexample: the pathname `c:/x` contains a separator and the
text before its last separator is `c:`, but the directory that `strsfp`
returns is `c:/`. -/
theorem strsfp_bare_drive_gets_separator :
    strsfp ['c', ':', '/', 'x'] = (['c', ':', '/'], ['x']) := by
  decide

/-- C14, amended: for every pathname containing a separator the returned
name is the text after the last separator, and it contains no separator; the
returned directory is the text before the last separator, except that an
empty text becomes the single separator and that a text of two characters
ending in `:` (a bare drive) gets the separator appended; the case of a text
of one character followed by a name starting with `:` is left out. For every
pathname with neither a separator nor a `:` the directory is empty and the
name is the whole input. -/
theorem strsfp_rule :
    (∀ dir name : CStr, DIRSEPARATOR_CHAR ∉ name →
        (strsfp (dir ++ DIRSEPARATOR_CHAR :: name)).2 = name
          ∧ DIRSEPARATOR_CHAR ∉ (strsfp (dir ++ DIRSEPARATOR_CHAR :: name)).2)
      ∧ (∀ dir name : CStr, DIRSEPARATOR_CHAR ∉ name →
          ¬ (name.head? = some ':' ∧ dir.length = 1) →
          (strsfp (dir ++ DIRSEPARATOR_CHAR :: name)).1
            = if dir = [] then DIRSEPARATOR_STRING
              else if dir[1]? = some ':' ∧ dir.length = 2 then dir ++ DIRSEPARATOR_STRING
              else dir)
      ∧ (∀ p : CStr, DIRSEPARATOR_CHAR ∉ p → ':' ∉ p → strsfp p = ([], p)) := by
  have hsplit : ∀ dir name : CStr, DIRSEPARATOR_CHAR ∉ name →
      strrchr (dir ++ DIRSEPARATOR_CHAR :: name) '/' = some dir.length ∧
      (dir ++ DIRSEPARATOR_CHAR :: name).take dir.length = dir ∧
      (dir ++ DIRSEPARATOR_CHAR :: name).drop (dir.length + 1) = name := by
    intro dir name hn
    refine ⟨strrchr_append dir name '/' hn, by simp, ?_⟩
    rw [← List.drop_drop]; simp
  refine ⟨?_, ?_, fun p h1 h2 => strsfp_no_separator p h1 h2⟩
  · intro dir name hn
    obtain ⟨h1, h2, h3⟩ := hsplit dir name hn
    have : (strsfp (dir ++ DIRSEPARATOR_CHAR :: name)).2 = name := by
      unfold strsfp
      simp only [h1, h2, h3]
      split
      · rfl
      · split
        · rfl
        · split <;> rfl
    rw [this]
    exact ⟨rfl, hn⟩
  · intro dir name hn hslip
    obtain ⟨h1, h2, h3⟩ := hsplit dir name hn
    unfold strsfp
    simp only [h1, h2, h3, hslip, if_false]
    split
    · rfl
    · split <;> rfl

/-- C15, counterexample: the directory `c:` is not empty and does not end in
the separator, but `strmfp` inserts no separator after it. -/
theorem strmfp_no_separator_after_colon :
    strmfp ['c', ':'] ['x'] = ['c', ':', 'x'] := by
  decide

/-- C15, amended: `strmfp (directory, name)` is `directory ++ name` when the
directory is empty or ends in the separator or in `:`, and
`directory ++ separator ++ name` for every other directory; `NewPathName`
inserts the separator after every non-empty directory that does not end in
one. -/
theorem strmfp_rule (directory name : CStr) :
    strmfp directory name
        = (if directory = [] ∨ directory.getLast? = some DIRSEPARATOR_CHAR
              ∨ directory.getLast? = some ':' then directory ++ name
           else directory ++ DIRSEPARATOR_STRING ++ name)
      ∧ NewPathName directory name
        = (if directory = [] ∨ directory.getLast? = some DIRSEPARATOR_CHAR then directory ++ name
           else directory ++ DIRSEPARATOR_STRING ++ name) := by
  constructor
  · unfold strmfp
    by_cases hd : directory = []
    · simp [hd]
    · have : 0 < directory.length := List.length_pos.mpr hd
      by_cases h1 : directory.getLast? = some DIRSEPARATOR_CHAR
      · simp [hd, h1]
      · by_cases h2 : directory.getLast? = some ':'
        · simp [hd, h2]
        · simp [hd, h1, h2, this]
  · unfold NewPathName
    by_cases hd : directory = []
    · simp [hd]
    · have : 0 < directory.length := List.length_pos.mpr hd
      by_cases h1 : directory.getLast? = some DIRSEPARATOR_CHAR
      · simp [hd, h1]
      · simp [hd, h1, this, DIRSEPARATOR_STRING]
        rfl

/-- For the drive-relative pathname `c:x` the directory returned by `strsfp`
is `c`, without the colon: the branch meant for a pure drive tests `*p` after
`p += 1`, where it reads the first character of the name, so it does not
restore the colon, while `stcgfp` returns `c:` for the same pathname. -/
theorem strsfp_drive_relative_drops_colon :
    strsfp ['c', ':', 'x'] = (['c'], ['x'])
      ∧ stcgfp ['c', ':', 'x'] = ['c', ':'] := by
  decide

/-- C16, counterexample: with no separator in the pathname `strsfp` splits at
the last colon, and `strmfp` adds no separator after a colon. The directory
`ab:` does not end in a separator and the name `x` is not empty and has no
separator, but the joined pathname `ab:x` is split into `ab` and `x`; and
with the empty directory the name `a:b` comes back as the directory `a` and
the name `b`. -/
theorem split_of_join_splits_at_colon :
    strmfp ['a', 'b', ':'] ['x'] = ['a', 'b', ':', 'x']
      ∧ strsfp (strmfp ['a', 'b', ':'] ['x']) = (['a', 'b'], ['x'])
      ∧ strmfp [] ['a', ':', 'b'] = ['a', ':', 'b']
      ∧ strsfp (strmfp [] ['a', ':', 'b']) = (['a'], ['b']) := by
  decide

/-- C16, amended: `strsfp (strmfp (d, n)) = (d, n)` for every name `n` with
no separator and every directory `d` that is either empty, with `n` free of
`:`, or not empty, ending neither in the separator nor in `:`, with `n`
not starting with `:`. -/
theorem split_of_join (d n : CStr) (hn : DIRSEPARATOR_CHAR ∉ n)
    (hd : (d = [] ∧ ':' ∉ n)
      ∨ (d ≠ [] ∧ d.getLast? ≠ some DIRSEPARATOR_CHAR ∧ d.getLast? ≠ some ':'
          ∧ n.head? ≠ some ':')) :
    strsfp (strmfp d n) = (d, n) := by
  rcases hd with ⟨h0, hc⟩ | ⟨h0, h1, h2, h3⟩
  · subst h0
    have : strmfp [] n = n := by simp [strmfp]
    rw [this]
    exact strsfp_no_separator n hn hc
  · have h := strsfp_strmfp_plain d n hn h0 h1 h2 h3
    rw [h.2]
    exact h.1

theorem split_of_join_witness :
    (DIRSEPARATOR_CHAR ∉ ['x'] ∧ ((['d'] : CStr) ≠ [] ∧ (['d'] : CStr).getLast? ≠ some DIRSEPARATOR_CHAR
        ∧ (['d'] : CStr).getLast? ≠ some ':' ∧ (['x'] : CStr).head? ≠ some ':'))
      ∧ strsfp (strmfp ['d'] ['x']) = (['d'], ['x']) :=
  ⟨⟨by decide, by decide, by decide, by decide, by decide⟩,
   split_of_join ['d'] ['x'] (by decide)
     (Or.inr ⟨by decide, by decide, by decide, by decide⟩)⟩


/-! ### Source split of `updateall` -/

theorem stripSlashes_run (pre pat : CStr) (hpre : pre.getLast? ≠ some DIRSEPARATOR_CHAR)
    (k m : Nat) (hm : m ≤ k) :
    stripSlashes (pre ++ List.replicate (k + 1) DIRSEPARATOR_CHAR ++ pat) (pre.length + m)
      = pre.length := by
  induction m with
  | zero =>
    cases hp : pre.length with
    | zero => simp [stripSlashes]
    | succ j =>
      have hj : pre[j]? = pre.getLast? := by
        rw [List.getLast?_eq_getElem?, hp]; simp
      have hlt : j < pre.length := by omega
      have hget : (pre ++ List.replicate (k + 1) DIRSEPARATOR_CHAR ++ pat)[j]? = pre[j]? := by
        rw [List.append_assoc, List.getElem?_append_left hlt]
      simp only [Nat.add_zero, stripSlashes, hget, hj]
      simp [hpre]
  | succ m ih =>
    have hget : (pre ++ List.replicate (k + 1) DIRSEPARATOR_CHAR ++ pat)[pre.length + m]?
        = some DIRSEPARATOR_CHAR := by
      rw [List.append_assoc, List.getElem?_append_right (by omega)]
      have : pre.length + m - pre.length = m := by omega
      rw [this, List.getElem?_append_left (by simp; omega)]
      simp [List.getElem?_replicate]
      omega
    have : pre.length + (m + 1) = (pre.length + m) + 1 := by omega
    rw [this, stripSlashes, hget]
    simp only [if_true]
    exact ih (by omega)

/-- C17: the source split of `updateall`. When `is_directory` accepts `p1`
the base is `p1` and the pattern matches everything. Otherwise: a `p1` with
no separator gives the base `.` and the pattern `p1`; a `p1` ending in a
separator gives the pattern that matches everything; and a `p1` made of a
text `pre` not ending in a separator, a run of one or more separators and a
non-empty last component `pat` gives the pattern `pat` and the base `pre`,
or the single separator when `pre` is empty. -/
theorem sourceSplit_rule (d : Disk) :
    (∀ p1 : CStr, is_directory d p1 = true → sourceSplit d p1 = (p1, PATTERN_ALL))
      ∧ (∀ p1 : CStr, is_directory d p1 = false → DIRSEPARATOR_CHAR ∉ p1 →
          sourceSplit d p1 = (['.'], p1))
      ∧ (∀ q : CStr, is_directory d (q ++ DIRSEPARATOR_STRING) = false →
          (sourceSplit d (q ++ DIRSEPARATOR_STRING)).2 = PATTERN_ALL)
      ∧ (∀ (pre pat : CStr) (k : Nat),
          is_directory d (pre ++ List.replicate (k + 1) DIRSEPARATOR_CHAR ++ pat) = false →
          pat ≠ [] → DIRSEPARATOR_CHAR ∉ pat → pre.getLast? ≠ some DIRSEPARATOR_CHAR →
          sourceSplit d (pre ++ List.replicate (k + 1) DIRSEPARATOR_CHAR ++ pat)
            = (if pre = [] then DIRSEPARATOR_STRING else pre, pat)) := by
  refine ⟨?_, ?_, ?_, ?_⟩
  · intro p1 h
    simp [sourceSplit, h]
  · intro p1 h hn
    simp [sourceSplit, h, strrchr_none p1 DIRSEPARATOR_CHAR hn]
  · intro q h
    have hs : strrchr (q ++ DIRSEPARATOR_STRING) DIRSEPARATOR_CHAR = some q.length :=
      strrchr_append q [] DIRSEPARATOR_CHAR (by simp)
    unfold sourceSplit
    simp only [h, hs]
    simp [DIRSEPARATOR_STRING]
  · intro pre pat k h hpat hn hpre
    have heq : pre ++ List.replicate (k + 1) DIRSEPARATOR_CHAR ++ pat
        = (pre ++ List.replicate k DIRSEPARATOR_CHAR) ++ DIRSEPARATOR_CHAR :: pat := by
      rw [List.replicate_succ']; simp
    have hs : strrchr (pre ++ List.replicate (k + 1) DIRSEPARATOR_CHAR ++ pat) DIRSEPARATOR_CHAR
        = some (pre.length + k) := by
      rw [heq, strrchr_append _ pat DIRSEPARATOR_CHAR hn]; simp
    have hstrip := stripSlashes_run pre pat hpre k k (le_refl k)
    have htake : (pre ++ List.replicate (k + 1) DIRSEPARATOR_CHAR ++ pat).take pre.length
        = pre := by
      rw [List.append_assoc]; simp
    have hdrop : (pre ++ List.replicate (k + 1) DIRSEPARATOR_CHAR ++ pat).drop (pre.length + k + 1)
        = pat := by
      rw [heq]
      have : pre.length + k + 1 = (pre ++ List.replicate k DIRSEPARATOR_CHAR).length + 1 := by
        simp
      rw [this, ← List.drop_drop]; simp
    unfold sourceSplit
    simp only [h, hs, hstrip, htake, hdrop, hpat, if_false]
    simp

theorem sourceSplit_rule_witness :
    sourceSplit wCopy.disk ['/', 'x'] = (['/'], ['x'])
      ∧ sourceSplit wCopy.disk ['/', '/', 'x'] = (['/'], ['x'])
      ∧ sourceSplit wCopy.disk ['a', '/', '/', 'b'] = (['a'], ['b']) :=
  ⟨(sourceSplit_rule wCopy.disk).2.2.2 [] ['x'] 0 (by decide) (by decide) (by decide) (by decide),
   (sourceSplit_rule wCopy.disk).2.2.2 [] ['x'] 1 (by decide) (by decide) (by decide) (by decide),
   (sourceSplit_rule wCopy.disk).2.2.2 ['a'] ['b'] 1 (by decide) (by decide) (by decide)
     (by decide)⟩

/-! ### Failures of the transfer loop -/

theorem lookup_remove_same (k : Key) (l : List (Key × Node)) : lookup k (remove k l) = none := by
  induction l with
  | nil => rfl
  | cons a rest ih =>
    obtain ⟨k1, n1⟩ := a
    by_cases h : k1 = k
    · simp [remove, h, ih]
    · simp [remove, lookup, h, ih]

theorem unlink_ok_removes (w : World) (p : CStr) (h : (unlink w p).2 = .ok ()) :
    exists_ (unlink w p).1.disk p = false := by
  unfold unlink at h ⊢
  cases he : entry w.disk p false with
  | err er => simp [he] at h
  | ok kn =>
    obtain ⟨k, n⟩ := kn
    simp only [he] at h ⊢
    by_cases hd : n.kind = .dir
    · simp [hd] at h
    · by_cases hf : Fault.unlink k ∈ w.disk.faults
      · simp [hd, hf] at h
      · simp only [hd, hf, if_false]
        obtain ⟨hp, hlen, hts, hk, _⟩ := entry_nofollow_elim w.disk p k n he hd
        have hl : lookup (canon w.disk.cwd p) (remove k w.disk.nodes) = none := by
          rw [← hk]; exact lookup_remove_same k _
        simp [exists_, lstat, entry, namei, hp, hlen, hts, World.del, World.log, hl]

theorem unlink_failed_disk (w : World) (p : CStr) (h : (unlink w p).2 ≠ .ok ()) :
    (unlink w p).1.disk = w.disk := by
  unfold unlink at h ⊢
  cases he : entry w.disk p false with
  | err er => rfl
  | ok kn =>
    obtain ⟨k1, n1⟩ := kn
    simp only [he] at h ⊢
    by_cases hd : n1.kind = .dir
    · rw [if_pos hd]
      rfl
    · rw [if_neg hd] at h ⊢
      by_cases hf : Fault.unlink k1 ∈ w.disk.faults
      · rw [if_pos hf]
        rfl
      · rw [if_neg hf] at h
        exact absurd rfl h

theorem copyLoop_failure (name2 : CStr) (ks kd : Key) (filelen : Nat) (fuel : Nat) :
    ∀ (w : World) (offset : Nat) (w1 : World) (r : Int),
      copyLoop name2 ks kd filelen fuel w offset = (w1, r) → r ≠ 0 →
      ∃ (w0 : World) (off : Nat), w1 = (unlink w0 name2).1
        ∧ ((r = 1 ∧ fread w0.disk ks off (min BUFFERSIZE (filelen - off)) = none)
          ∨ (r = 2 ∧ ∃ (wp : World) (buf : List Nat),
                fread wp.disk ks off (min BUFFERSIZE (filelen - off)) = some buf
                  ∧ fwrite wp kd off buf = (w0, false))) := by
  induction fuel with
  | zero =>
    intro w offset w1 r h hr
    simp [copyLoop] at h
    exact absurd h.2.symm hr
  | succ fuel ih =>
    intro w offset w1 r h hr
    unfold copyLoop at h
    by_cases hlt : offset < filelen
    · simp only [hlt, if_true] at h
      cases hfr : fread w.disk ks offset (min BUFFERSIZE (filelen - offset)) with
      | none =>
        simp only [hfr, Prod.mk.injEq] at h
        exact ⟨w, offset, h.1.symm, Or.inl ⟨h.2.symm, hfr⟩⟩
      | some buf =>
        simp only [hfr] at h
        by_cases hw : (fwrite w kd offset buf).2 = true
        · rw [if_pos hw] at h
          exact ih _ _ _ _ h hr
        · rw [if_neg hw] at h
          simp only [Prod.mk.injEq] at h
          refine ⟨(fwrite w kd offset buf).1, offset, h.1.symm, Or.inr ⟨h.2.symm, w, buf, hfr, ?_⟩⟩
          have : (fwrite w kd offset buf).2 = false := by simpa using hw
          rw [← this]
    · simp only [hlt, if_false, Prod.mk.injEq] at h
      exact absurd h.2.symm hr

/-- A round of the transfer loop whose read fails: the loop calls
`unlink (name2)` and returns 1. -/
theorem copyLoop_read_failure (name2 : CStr) (ks kd : Key) (filelen fuel : Nat) (w : World)
    (offset : Nat) (hlt : offset < filelen)
    (hfr : fread w.disk ks offset (min BUFFERSIZE (filelen - offset)) = none) :
    copyLoop name2 ks kd filelen (fuel + 1) w offset = ((unlink w name2).1, 1) := by
  unfold copyLoop
  rw [if_pos hlt]
  simp only [hfr]

/-- A round of the transfer loop whose write fails: the loop calls
`unlink (name2)` after the failed write and returns 2. -/
theorem copyLoop_write_failure (name2 : CStr) (ks kd : Key) (filelen fuel : Nat) (w : World)
    (offset : Nat) (buf : List Nat) (hlt : offset < filelen)
    (hfr : fread w.disk ks offset (min BUFFERSIZE (filelen - offset)) = some buf)
    (hfw : (fwrite w kd offset buf).2 = false) :
    copyLoop name2 ks kd filelen (fuel + 1) w offset
      = ((unlink (fwrite w kd offset buf).1 name2).1, 2) := by
  unfold copyLoop
  rw [if_pos hlt]
  simp only [hfr]
  rw [if_neg (by simp [hfw])]

/-- A round of the transfer loop whose read and write succeed: the loop goes
on at the next offset, in the world left by the write. -/
theorem copyLoop_round (name2 : CStr) (ks kd : Key) (filelen fuel : Nat) (w : World)
    (offset : Nat) (buf : List Nat) (hlt : offset < filelen)
    (hfr : fread w.disk ks offset (min BUFFERSIZE (filelen - offset)) = some buf)
    (hfw : (fwrite w kd offset buf).2 = true) :
    copyLoop name2 ks kd filelen (fuel + 1) w offset
      = copyLoop name2 ks kd filelen fuel (fwrite w kd offset buf).1
          (offset + min BUFFERSIZE (filelen - offset)) := by
  conv_lhs => unfold copyLoop
  rw [if_pos hlt]
  simp only [hfr]
  rw [if_pos hfw]

/-- A file with a first chunk whose read fails: the part of `copyf` that
follows the opening of the target calls `unlink (name2)` and returns 1,
and when that `unlink` fails the disk is left as it was. -/
theorem copyfTransfer_read_failure (name1 name2 : CStr) (ks kd : Key) (filelen : Nat) (w : World)
    (hlt : 0 < filelen) (hfr : fread w.disk ks 0 (min BUFFERSIZE (filelen - 0)) = none) :
    copyfTransfer w name1 name2 ks kd filelen = ((unlink w name2).1, 1)
      ∧ ((unlink w name2).2 ≠ .ok () →
          (copyfTransfer w name1 name2 ks kd filelen).1.disk = w.disk) := by
  have h := copyLoop_read_failure name2 ks kd filelen filelen w 0 hlt hfr
  have h1 : copyfTransfer w name1 name2 ks kd filelen = ((unlink w name2).1, 1) := by
    unfold copyfTransfer
    rw [h]
    simp
  refine ⟨h1, ?_⟩
  intro hu
  rw [h1]
  exact unlink_failed_disk w name2 hu

/-- A file with a first chunk whose write fails: the part of `copyf` that
follows the opening of the target calls `unlink (name2)` and returns 2,
and when that `unlink` fails the disk is left as the failed write left it. -/
theorem copyfTransfer_write_failure (name1 name2 : CStr) (ks kd : Key) (filelen : Nat) (w : World)
    (buf : List Nat) (hlt : 0 < filelen)
    (hfr : fread w.disk ks 0 (min BUFFERSIZE (filelen - 0)) = some buf)
    (hfw : (fwrite w kd 0 buf).2 = false) :
    copyfTransfer w name1 name2 ks kd filelen = ((unlink (fwrite w kd 0 buf).1 name2).1, 2)
      ∧ ((unlink (fwrite w kd 0 buf).1 name2).2 ≠ .ok () →
          (copyfTransfer w name1 name2 ks kd filelen).1.disk = (fwrite w kd 0 buf).1.disk) := by
  have h := copyLoop_write_failure name2 ks kd filelen filelen w 0 buf hlt hfr hfw
  have h1 : copyfTransfer w name1 name2 ks kd filelen
      = ((unlink (fwrite w kd 0 buf).1 name2).1, 2) := by
    unfold copyfTransfer
    rw [h]
    simp
  refine ⟨h1, ?_⟩
  intro hu
  rw [h1]
  exact unlink_failed_disk _ name2 hu

/-- C11, evaluated at the failing input: the target `d/a` holds four bytes,
`fopen` truncates it, writing the first chunk fails and so does the `unlink`
that follows. `copyf` returns 2, its last call is that `unlink`, and the
target path still exists afterwards and holds the truncated file, with no
bytes. -/
theorem copyf_leaves_truncated_target_when_unlink_fails :
    lookup [['d'], ['a']] wWriteFault.disk.nodes = some (fileNode 3 [9, 9, 9, 9])
      ∧ (copyf defaultEnv wWriteFault pSrcA pDstA).2 = 2
      ∧ (copyf defaultEnv wWriteFault pSrcA pDstA).1.calls
          = [.unlink pDstA, .fwrite [['d'], ['a']] 0 3, .fopen_w pDstA]
      ∧ exists_ (copyf defaultEnv wWriteFault pSrcA pDstA).1.disk pDstA = true
      ∧ lookup [['d'], ['a']] (copyf defaultEnv wWriteFault pSrcA pDstA).1.disk.nodes
          = some (fileNode 500 []) := by
  decide

/-- Whenever the part of `copyf` that follows the opening of the target
returns a non-zero value, that value is 1 after a failed chunk read and 2
after a failed chunk write, the last thing done is the call
`unlink (name2)`, and when that `unlink` succeeds the target path does not
exist afterwards. -/
theorem copyf_transfer_failure_unlinks (name1 name2 : CStr) (ks kd : Key) (filelen : Nat)
    (w w1 : World) (r : Int) (h : copyfTransfer w name1 name2 ks kd filelen = (w1, r))
    (hr : r ≠ 0) :
    ∃ (w0 : World) (off : Nat), w1 = (unlink w0 name2).1
      ∧ ((r = 1 ∧ fread w0.disk ks off (min BUFFERSIZE (filelen - off)) = none)
        ∨ (r = 2 ∧ ∃ (wp : World) (buf : List Nat),
              fread wp.disk ks off (min BUFFERSIZE (filelen - off)) = some buf
                ∧ fwrite wp kd off buf = (w0, false)))
      ∧ ((unlink w0 name2).2 = .ok () → exists_ w1.disk name2 = false) := by
  unfold copyfTransfer at h
  by_cases hz : (copyLoop name2 ks kd filelen (filelen + 1) w 0).2 ≠ 0
  · rw [if_pos hz] at h
    obtain ⟨w0, off, h1, h2⟩ := copyLoop_failure name2 ks kd filelen (filelen + 1) w 0 w1 r h hr
    refine ⟨w0, off, h1, h2, ?_⟩
    intro hok
    rw [h1]
    exact unlink_ok_removes w0 name2 hok
  · rw [if_neg hz] at h
    simp only [Prod.mk.injEq] at h
    exact absurd h.2.symm hr

theorem copyf_transfer_failure_unlinks_witness :
    (copyfTransfer (fopen_w wWriteFaultOnly pDstA).1 pSrcA pDstA [['s'], ['a']] [['d'], ['a']] 3
        = ((copyfTransfer (fopen_w wWriteFaultOnly pDstA).1 pSrcA pDstA [['s'], ['a']]
              [['d'], ['a']] 3).1, 2)
        ∧ (2 : Int) ≠ 0)
      ∧ ∃ (w0 : World) (off : Nat),
          (copyfTransfer (fopen_w wWriteFaultOnly pDstA).1 pSrcA pDstA [['s'], ['a']]
              [['d'], ['a']] 3).1 = (unlink w0 pDstA).1
          ∧ (((2 : Int) = 1 ∧ fread w0.disk [['s'], ['a']] off (min BUFFERSIZE (3 - off)) = none)
            ∨ ((2 : Int) = 2 ∧ ∃ (wp : World) (buf : List Nat),
                  fread wp.disk [['s'], ['a']] off (min BUFFERSIZE (3 - off)) = some buf
                    ∧ fwrite wp [['d'], ['a']] off buf = (w0, false)))
          ∧ ((unlink w0 pDstA).2 = .ok () →
              exists_ (copyfTransfer (fopen_w wWriteFaultOnly pDstA).1 pSrcA pDstA [['s'], ['a']]
                [['d'], ['a']] 3).1.disk pDstA = false) :=
  ⟨⟨by decide, by decide⟩,
   copyf_transfer_failure_unlinks pSrcA pDstA [['s'], ['a']] [['d'], ['a']] 3
     (fopen_w wWriteFaultOnly pDstA).1 _ 2 (by decide) (by decide)⟩

/-! ### Creating directories -/

/-- C18, evaluated at the failing input: for the path `n//`, where nothing
named `n` exists and `mkdir` succeeds on `n`, `mkdirp` creates `n`, then calls
`mkdir` again on `n//`, which exists by then, and returns -1. -/
theorem mkdirp_fails_on_two_trailing_separators :
    exists_ wCopy.disk ['n'] = false
      ∧ (mkdir wCopy ['n'] DIRMODE).2 = .ok ()
      ∧ (mkdirp wCopy pNewSlashes DIRMODE).2 = -1
      ∧ (mkdirp wCopy pNewSlashes DIRMODE).1.calls
          = [.mkdir pNewSlashes DIRMODE, .mkdir ['n'] DIRMODE]
      ∧ isdir (mkdirp wCopy pNewSlashes DIRMODE).1.disk pNewSlashes = true := by
  decide

theorem takeWhile_stops (P : Char → Bool) (l m : List Char) (x : Char) (hx : P x = false) :
    (l ++ x :: m).takeWhile P = l.takeWhile P := by
  induction l with
  | nil => simp [List.takeWhile, hx]
  | cons a rest ih =>
    by_cases ha : P a = true
    · simp [List.takeWhile_cons, ha, ih]
    · simp [List.takeWhile_cons, ha]

theorem takeWhile_append_last (P : Char → Bool) (l m : List Char) (x : Char)
    (hl : l.getLast? = some x) (hx : P x = false) :
    (l ++ m).takeWhile P = l.takeWhile P := by
  obtain ⟨l0, rfl⟩ : ∃ l0, l = l0 ++ [x] := by
    rcases List.eq_nil_or_concat l with h | ⟨l0, y, h⟩
    · subst h; simp at hl
    · subst h
      simp at hl
      exact ⟨l0, by simp [hl]⟩
  rw [List.append_assoc, List.singleton_append, takeWhile_stops P l0 m x hx,
    takeWhile_stops P l0 [] x hx]

/-- Scanning a component name: the scan stops inside the text only at a
separator, and a separator that is not the last character has a character
after it. -/
theorem scan_name (r : List Char) (hlast : r.getLast? ≠ some DIRSEPARATOR_CHAR) :
    (r.takeWhile (fun x => decide (x ≠ DIRSEPARATOR_CHAR))).length ≤ r.length
      ∧ ((r.takeWhile (fun x => decide (x ≠ DIRSEPARATOR_CHAR))).length < r.length →
          r[(r.takeWhile (fun x => decide (x ≠ DIRSEPARATOR_CHAR))).length]?
              = some DIRSEPARATOR_CHAR
            ∧ (r.takeWhile (fun x => decide (x ≠ DIRSEPARATOR_CHAR))).length + 1 < r.length) := by
  induction r with
  | nil => simp
  | cons a rest ih =>
    by_cases ha : a = DIRSEPARATOR_CHAR
    · subst ha
      have hne : rest ≠ [] := by
        intro h
        subst h
        simp at hlast
      have hpos : 0 < rest.length := List.length_pos.mpr hne
      simp [List.takeWhile_cons, hpos]
    · have hl : rest.getLast? ≠ some DIRSEPARATOR_CHAR := by
        intro h
        apply hlast
        cases rest with
        | nil => simp at h
        | cons b t => simpa [List.getLast?_cons_cons] using h
      obtain ⟨h1, h2⟩ := ih hl
      have hd : decide (a ≠ DIRSEPARATOR_CHAR) = true := by simpa using ha
      simp only [List.takeWhile_cons, hd, if_true, List.length_cons, List.getElem?_cons_succ]
      refine ⟨by omega, ?_⟩
      intro h
      obtain ⟨h3, h4⟩ := h2 (by omega)
      exact ⟨h3, by omega⟩

/-- Skipping separators: in a non-empty text that does not end in a
separator the skip stops before the end, at a character that is not a
separator. -/
theorem scan_separators (a : List Char) (hne : a ≠ [])
    (hlast : a.getLast? ≠ some DIRSEPARATOR_CHAR) :
    (a.takeWhile (fun x => decide (x = DIRSEPARATOR_CHAR))).length < a.length
      ∧ 0 < ((a.drop (a.takeWhile (fun x => decide (x = DIRSEPARATOR_CHAR))).length).takeWhile
              (fun x => decide (x ≠ DIRSEPARATOR_CHAR))).length
      ∧ (a.drop (a.takeWhile (fun x => decide (x = DIRSEPARATOR_CHAR))).length).getLast?
          ≠ some DIRSEPARATOR_CHAR := by
  induction a with
  | nil => exact absurd rfl hne
  | cons c rest ih =>
    by_cases hc : c = DIRSEPARATOR_CHAR
    · subst hc
      have hne2 : rest ≠ [] := by
        intro h
        subst h
        simp at hlast
      have hl : rest.getLast? ≠ some DIRSEPARATOR_CHAR := by
        intro h
        apply hlast
        cases rest with
        | nil => exact absurd rfl hne2
        | cons b t => simpa [List.getLast?_cons_cons] using h
      obtain ⟨h1, h2, h3⟩ := ih hne2 hl
      simp only [List.takeWhile_cons, decide_True, if_true, List.length_cons, List.drop_succ_cons]
      exact ⟨by omega, h2, h3⟩
    · simp [List.takeWhile_cons, hc]
      exact hlast

theorem mkdirpLoop_round (fuel : Nat) (w : World) (pszPath : CStr) (pszMode pc : Nat)
    (iSkipTest : Bool) (pc2 : Nat)
    (h : pc2 = pc + ((pszPath.drop pc).takeWhile (fun x => decide (x = DIRSEPARATOR_CHAR))).length
          + ((pszPath.drop (pc + ((pszPath.drop pc).takeWhile
                (fun x => decide (x = DIRSEPARATOR_CHAR))).length)).takeWhile
              (fun x => decide (x ≠ DIRSEPARATOR_CHAR))).length) :
    mkdirpLoop (fuel + 1) w pszPath pszMode pc iSkipTest
      = if iSkipTest || !(isdir w.disk (pszPath.take pc2)) then
          (if (mkdir1 w (pszPath.take pc2) pszMode).2 ≠ 0 then mkdir1 w (pszPath.take pc2) pszMode
           else if pszPath[pc2]? = none then ((mkdir1 w (pszPath.take pc2) pszMode).1, 0)
           else if pszPath[pc2 + 1]? = none then ((mkdir1 w (pszPath.take pc2) pszMode).1, 0)
           else mkdirpLoop fuel (mkdir1 w (pszPath.take pc2) pszMode).1 pszPath pszMode pc2 true)
        else if pszPath[pc2]? = none then (w, 0)
        else if pszPath[pc2 + 1]? = none then (w, 0)
        else mkdirpLoop fuel w pszPath pszMode pc2 false := by
  subst h
  rfl

/-- One more separator at the end of a path that has none changes nothing in
the rounds of `mkdirp`. -/
theorem mkdirpLoop_trailing (p : CStr) (pszMode : Nat)
    (hlast : p.getLast? ≠ some DIRSEPARATOR_CHAR) (fuel : Nat) :
    ∀ (w : World) (pc : Nat) (iSkipTest : Bool), pc < p.length → p.length - pc ≤ fuel →
      mkdirpLoop (fuel + 1) w (p ++ DIRSEPARATOR_STRING) pszMode pc iSkipTest
        = mkdirpLoop fuel w p pszMode pc iSkipTest := by
  induction fuel with
  | zero =>
    intro w pc iSkipTest h1 h2
    omega
  | succ fuel ih =>
    intro w pc iSkipTest h1 h2
    have hA : p.drop pc ≠ [] := by
      intro h
      have := congrArg List.length h
      simp at this
      omega
    have hAl : (p.drop pc).getLast? ≠ some DIRSEPARATOR_CHAR := by
      rw [List.getLast?_drop, if_neg (by omega)]
      exact hlast
    obtain ⟨x, hx⟩ : ∃ x, (p.drop pc).getLast? = some x := by
      cases h : (p.drop pc).getLast? with
      | none => exact absurd (List.getLast?_eq_none_iff.mp h) hA
      | some x => exact ⟨x, rfl⟩
    have hxs : decide (x = DIRSEPARATOR_CHAR) = false := by
      rw [hx] at hAl
      simpa using hAl
    obtain ⟨s1, s2, s3⟩ := scan_separators (p.drop pc) hA hAl
    rw [List.drop_drop] at s2 s3
    obtain ⟨n1, n2⟩ := scan_name _ s3
    rw [List.length_drop] at n1 n2
    rw [List.length_drop] at s1
    rw [List.getElem?_drop] at n2
    have e1 : (p ++ DIRSEPARATOR_STRING).drop pc = p.drop pc ++ DIRSEPARATOR_STRING :=
      List.drop_append_of_le_length (by omega)
    have e2 : ((p ++ DIRSEPARATOR_STRING).drop pc).takeWhile
          (fun x => decide (x = DIRSEPARATOR_CHAR))
        = (p.drop pc).takeWhile (fun x => decide (x = DIRSEPARATOR_CHAR)) := by
      rw [e1]
      exact takeWhile_append_last _ _ _ x hx hxs
    have e3 : (p ++ DIRSEPARATOR_STRING).drop
          (pc + ((p.drop pc).takeWhile (fun x => decide (x = DIRSEPARATOR_CHAR))).length)
        = p.drop (pc + ((p.drop pc).takeWhile (fun x => decide (x = DIRSEPARATOR_CHAR))).length)
            ++ DIRSEPARATOR_STRING :=
      List.drop_append_of_le_length (by omega)
    have e4 : ((p ++ DIRSEPARATOR_STRING).drop
          (pc + ((p.drop pc).takeWhile (fun x => decide (x = DIRSEPARATOR_CHAR))).length)).takeWhile
            (fun x => decide (x ≠ DIRSEPARATOR_CHAR))
        = (p.drop (pc + ((p.drop pc).takeWhile
              (fun x => decide (x = DIRSEPARATOR_CHAR))).length)).takeWhile
            (fun x => decide (x ≠ DIRSEPARATOR_CHAR)) := by
      rw [e3]
      exact takeWhile_stops _ _ [] DIRSEPARATOR_CHAR (by simp)
    rw [mkdirpLoop_round (fuel + 1) w (p ++ DIRSEPARATOR_STRING) pszMode pc iSkipTest _
          (by rw [e2, e4]),
      mkdirpLoop_round fuel w p pszMode pc iSkipTest _ rfl]
    generalize hpc2 : pc + ((p.drop pc).takeWhile (fun x => decide (x = DIRSEPARATOR_CHAR))).length
        + ((p.drop (pc + ((p.drop pc).takeWhile
              (fun x => decide (x = DIRSEPARATOR_CHAR))).length)).takeWhile
            (fun x => decide (x ≠ DIRSEPARATOR_CHAR))).length = pc2 at *
    have hle : pc2 ≤ p.length := by omega
    have hgt : pc < pc2 := by omega
    have et : (p ++ DIRSEPARATOR_STRING).take pc2 = p.take pc2 :=
      List.take_append_of_le_length hle
    rw [et]
    by_cases hend : pc2 = p.length
    · have g1 : p[pc2]? = none := List.getElem?_eq_none (by omega)
      have g2 : (p ++ DIRSEPARATOR_STRING)[pc2]? = some DIRSEPARATOR_CHAR := by
        rw [List.getElem?_append_right (by omega)]
        simp [hend, DIRSEPARATOR_STRING, DIRSEPARATOR_CHAR]
      have g3 : (p ++ DIRSEPARATOR_STRING)[pc2 + 1]? = none :=
        List.getElem?_eq_none (by simp [DIRSEPARATOR_STRING]; omega)
      simp [g1, g2, g3]
    · obtain ⟨n3, n4⟩ := n2 (by omega)
      have g1 : p[pc2]? = some DIRSEPARATOR_CHAR := n3
      have g2 : (p ++ DIRSEPARATOR_STRING)[pc2]? = some DIRSEPARATOR_CHAR := by
        rw [List.getElem?_append_left (by omega)]
        exact g1
      obtain ⟨y, hy⟩ : ∃ y, p[pc2 + 1]? = some y :=
        ⟨p[pc2 + 1], List.getElem?_eq_getElem (by omega)⟩
      have g3 : (p ++ DIRSEPARATOR_STRING)[pc2 + 1]? = some y := by
        rw [List.getElem?_append_left (by omega)]
        exact hy
      have i1 := ih w pc2 false (by omega) (by omega)
      have i2 := ih (mkdir1 w (p.take pc2) pszMode).1 pc2 true (by omega) (by omega)
      simp [g1, g2, g3, hy, i1, i2]

/-- C19, counterexample: on the two-character path `c:` the added separator
makes `mkdirp` skip the drive prefix, and the one `mkdir` call is made on
`c:/` instead of `c:`. The result and the disk afterwards are the same. -/
theorem mkdirp_trailing_separator_after_drive_differs :
    pDrive.getLast? ≠ some DIRSEPARATOR_CHAR
      ∧ (mkdirp wCopy pDrive DIRMODE).1.calls = [.mkdir ['c', ':'] DIRMODE]
      ∧ (mkdirp wCopy (pDrive ++ DIRSEPARATOR_STRING) DIRMODE).1.calls
          = [.mkdir ['c', ':', '/'] DIRMODE]
      ∧ (mkdirp wCopy (pDrive ++ DIRSEPARATOR_STRING) DIRMODE).1.calls
          ≠ (mkdirp wCopy pDrive DIRMODE).1.calls
      ∧ (mkdirp wCopy (pDrive ++ DIRSEPARATOR_STRING) DIRMODE).2
          = (mkdirp wCopy pDrive DIRMODE).2
      ∧ (mkdirp wCopy (pDrive ++ DIRSEPARATOR_STRING) DIRMODE).1.disk
          = (mkdirp wCopy pDrive DIRMODE).1.disk := by
  decide

/-- C19, amended: for every path `p` that does not end in a separator and is
not a two-character path with a colon second, and in every world (one whose
root is a directory when `p` is empty), `mkdirp` on `p` followed by a
separator ends in the same world, with the same calls in the same order, and
returns the same result as `mkdirp` on `p`. -/
theorem mkdirp_trailing_separator (w : World) (p : CStr) (pszMode : Nat)
    (hlast : p.getLast? ≠ some DIRSEPARATOR_CHAR)
    (hdrive : ¬ (p.length = 2 ∧ p[1]? = some ':'))
    (hroot : p = [] → isdir w.disk DIRSEPARATOR_STRING = true) :
    mkdirp w (p ++ DIRSEPARATOR_STRING) pszMode = mkdirp w p pszMode := by
  cases p with
  | nil =>
    have hr := hroot rfl
    simp only [DIRSEPARATOR_STRING] at hr
    simp [mkdirp, DIRSEPARATOR_STRING, mkdirpLoop, DIRSEPARATOR_CHAR, List.takeWhile, hr]
  | cons a rest =>
    have hc : ((a :: rest ++ DIRSEPARATOR_STRING) ≠ []
          ∧ (a :: rest ++ DIRSEPARATOR_STRING)[1]? = some ':'
          ∧ (a :: rest ++ DIRSEPARATOR_STRING)[2]? = some DIRSEPARATOR_CHAR)
        ↔ ((a :: rest) ≠ [] ∧ (a :: rest)[1]? = some ':'
          ∧ (a :: rest)[2]? = some DIRSEPARATOR_CHAR) := by
      cases rest with
      | nil => simp [DIRSEPARATOR_STRING, DIRSEPARATOR_CHAR]
      | cons b rest2 =>
        cases rest2 with
        | nil =>
          have : b ≠ ':' := by
            intro h
            apply hdrive
            simp [h]
          simp [DIRSEPARATOR_STRING, this]
        | cons c rest3 => simp
    unfold mkdirp
    simp only [hc]
    by_cases hcond : (a :: rest) ≠ [] ∧ (a :: rest)[1]? = some ':'
        ∧ (a :: rest)[2]? = some DIRSEPARATOR_CHAR
    · rw [if_pos hcond]
      have h3 : 2 < (a :: rest).length := by
        rcases hcond with ⟨_, _, h2⟩
        by_contra hlt
        rw [List.getElem?_eq_none (by omega)] at h2
        exact absurd h2 (by simp)
      have g1 : (a :: rest ++ DIRSEPARATOR_STRING)[2]? ≠ none := by
        rw [List.getElem?_append_left h3, hcond.2.2]; simp
      have g2 : (a :: rest)[2]? ≠ none := by rw [hcond.2.2]; simp
      rw [if_neg g1, if_neg g2]
      have hlen : (a :: rest ++ DIRSEPARATOR_STRING).length = (a :: rest).length + 1 := by
        simp [DIRSEPARATOR_STRING]
      rw [hlen]
      exact mkdirpLoop_trailing (a :: rest) pszMode hlast ((a :: rest).length + 1) w 2 false
        h3 (by omega)
    · rw [if_neg hcond]
      have g1 : (a :: rest ++ DIRSEPARATOR_STRING)[0]? ≠ none := by simp
      have g2 : (a :: rest)[0]? ≠ none := by simp
      rw [if_neg g1, if_neg g2]
      have hlen : (a :: rest ++ DIRSEPARATOR_STRING).length = (a :: rest).length + 1 := by
        simp [DIRSEPARATOR_STRING]
      rw [hlen]
      exact mkdirpLoop_trailing (a :: rest) pszMode hlast ((a :: rest).length + 1) w 0 false
        (by simp) (by omega)

theorem mkdirp_trailing_separator_witness :
    (pDeep.getLast? ≠ some DIRSEPARATOR_CHAR
        ∧ ¬ (pDeep.length = 2 ∧ pDeep[1]? = some ':')
        ∧ (mkdirp wCopy pDeep DIRMODE).1.calls ≠ [])
      ∧ mkdirp wCopy (pDeep ++ DIRSEPARATOR_STRING) DIRMODE = mkdirp wCopy pDeep DIRMODE :=
  ⟨by decide,
   mkdirp_trailing_separator wCopy pDeep DIRMODE (by decide) (by decide) (by decide)⟩

/-! ### Counting the failures of a deletion -/

theorem rc_range {α : Type} (r : Res α) : r.rc = 0 ∨ r.rc = -1 := by
  cases r with
  | ok a => exact Or.inl rfl
  | err e => exact Or.inr rfl

theorem zapFileM_range (w : World) (path : CStr) (iMode : Nat) (zo : zapOpts) :
    (zapFileM w path iMode zo).2 = 0 ∨ (zapFileM w path iMode zo).2 = 1 := by
  unfold zapFileM
  split
  · exact Or.inr rfl
  · split
    · exact Or.inl rfl
    · split
      · split
        · rcases rc_range (chmod w path (orWrite iMode)).2 with h | h <;> simp [h]
        · rcases rc_range (unlink (chmod w path (orWrite iMode)).1 path).2 with h | h <;> simp [h]
      · rcases rc_range (unlink w path).2 with h | h <;> simp [h]

theorem zapDirLoop_cons_step (zapSub : World → CStr → Nat → World × Option Int) (path : CStr)
    (zo : zapOpts) (de : Dirent) (rest : List Dirent) (w : World) (nErr : Int) :
    zapDirLoop zapSub path zo (de :: rest) w nErr
      = match zapDirStep zapSub path zo w de with
        | (w1, none) => (w1, none)
        | (w1, some iErr) => zapDirLoop zapSub path zo rest w1 (nErr + iErr) := by
  unfold zapDirStep
  rw [zapDirLoop]
  cases lstat w.disk (NewPathName path de.d_name) with
  | err e => rfl
  | ok st =>
    cases hk : de.d_type <;> simp only [hk]
    · by_cases hn : de.d_name = ['.'] ∨ de.d_name = ['.', '.']
      · simp [hn]
      · simp only [hn, if_false]

theorem NewPathName_longer (path name : CStr) (h : name ≠ []) :
    path.length < (NewPathName path name).length := by
  have : 0 < name.length := List.length_pos.mpr h
  unfold NewPathName
  split
  · simp
  · simp
    omega

theorem opendir_ok_short (d : Disk) (p : CStr) (ents : List Dirent)
    (h : opendir d p = .ok ents) : p.length < PATH_MAX := by
  unfold opendir entry namei at h
  by_cases h1 : p = []
  · simp [h1] at h
  · by_cases h2 : PATH_MAX ≤ p.length
    · simp [h1, h2] at h
    · omega

theorem children_names (k : Key) (de : Dirent) (l : List (Key × Node))
    (h : de ∈ children k l) : de.d_name ≠ [] := by
  induction l with
  | nil => simp [children] at h
  | cons a rest ih =>
    obtain ⟨k1, n⟩ := a
    unfold children at h
    cases hl : k1.getLast? with
    | none =>
      simp only [hl] at h
      exact ih h
    | some name =>
      simp only [hl] at h
      by_cases hc : k1.dropLast = k ∧ name ≠ []
      · rw [if_pos hc] at h
        rcases List.mem_cons.mp h with h | h
        · subst h
          exact hc.2
        · exact ih h
      · rw [if_neg hc] at h
        exact ih h

theorem opendir_names (d : Disk) (p : CStr) (ents : List Dirent) (h : opendir d p = .ok ents)
    (de : Dirent) (hde : de ∈ ents) : de.d_name ≠ [] := by
  unfold opendir at h
  cases he : entry d p true with
  | err e => simp [he] at h
  | ok kn =>
    obtain ⟨k, n⟩ := kn
    simp only [he] at h
    by_cases h1 : n.kind ≠ .dir
    · simp [h1] at h
    · by_cases h2 : hasReadBit n.perm = true
      · simp only [h1, h2, if_false, if_true, Res.ok.injEq] at h
        subst h
        rcases List.mem_cons.mp hde with h3 | h3
        · subst h3; simp
        · rcases List.mem_cons.mp h3 with h4 | h4
          · subst h4; simp
          · exact children_names k de d.nodes h4
      · simp [h1, h2] at h

/-- One round of the loop of `zapDirM` gives a count that is not negative,
and at most one for an entry that is not a directory, when the recursive
call returns such counts on longer paths. -/
theorem zapDirStep_spec (zapSub : World → CStr → Nat → World × Option Int) (path : CStr)
    (zo : zapOpts) (w : World) (de : Dirent) (hname : de.d_name ≠ [])
    (hsub : ∀ (w1 : World) (p : CStr) (m : Nat), path.length < p.length →
      ∃ (w2 : World) (r : Int), zapSub w1 p m = (w2, some r) ∧ 0 ≤ r) :
    ∃ (w2 : World) (r : Int), zapDirStep zapSub path zo w de = (w2, some r) ∧ 0 ≤ r
      ∧ (de.d_type ≠ .dir → r ≤ 1) := by
  unfold zapDirStep
  cases lstat w.disk (NewPathName path de.d_name) with
  | err e => exact ⟨w, 1, rfl, by decide, fun _ => by decide⟩
  | ok st =>
    have hz := zapFileM_range w (NewPathName path de.d_name) st.st_mode zo
    have hz2 : 0 ≤ (zapFileM w (NewPathName path de.d_name) st.st_mode zo).2
        ∧ (zapFileM w (NewPathName path de.d_name) st.st_mode zo).2 ≤ 1 := by
      rcases hz with h | h <;> rw [h] <;> decide
    cases hk : de.d_type
    case dir =>
      by_cases hn : de.d_name = ['.'] ∨ de.d_name = ['.', '.']
      · exact ⟨w, 0, by simp [hn], le_refl 0, fun h => absurd rfl h⟩
      · obtain ⟨w2, r, h1, h2⟩ := hsub w (NewPathName path de.d_name) st.st_mode
          (NewPathName_longer path de.d_name hname)
        exact ⟨w2, r, by simp [hn, h1], h2, fun h => absurd rfl h⟩
    case lnk => exact ⟨_, _, rfl, hz2.1, fun _ => hz2.2⟩
    case reg => exact ⟨_, _, rfl, hz2.1, fun _ => hz2.2⟩
    all_goals exact ⟨w, 1, rfl, by decide, fun _ => by decide⟩

/-- The loop of `zapDirM` makes one round for every entry, each in the world
left by the round before, and returns the sum of the counts of the rounds
added to the count it started with. -/
theorem zapDirLoop_spec (zapSub : World → CStr → Nat → World × Option Int) (path : CStr)
    (zo : zapOpts)
    (hsub : ∀ (w1 : World) (p : CStr) (m : Nat), path.length < p.length →
      ∃ (w2 : World) (r : Int), zapSub w1 p m = (w2, some r) ∧ 0 ≤ r)
    (ents : List Dirent) :
    ∀ (w : World) (nErr : Int), (∀ de ∈ ents, de.d_name ≠ []) →
      ∃ (W : Nat → World) (c : Nat → Int), W 0 = w
        ∧ (∀ (i : Nat) (h : i < ents.length),
            zapDirStep zapSub path zo (W i) (ents.get ⟨i, h⟩) = (W (i + 1), some (c i))
              ∧ 0 ≤ c i ∧ ((ents.get ⟨i, h⟩).d_type ≠ .dir → c i ≤ 1))
        ∧ zapDirLoop zapSub path zo ents w nErr
            = (W ents.length, some (nErr + Finset.sum (Finset.range ents.length) c)) := by
  induction ents with
  | nil =>
    intro w nErr _
    exact ⟨fun _ => w, fun _ => 0, rfl, fun i h => absurd h (by simp), by simp [zapDirLoop]⟩
  | cons de rest ih =>
    intro w nErr hnames
    obtain ⟨w1, c0, h1, h2, h3⟩ := zapDirStep_spec zapSub path zo w de
      (hnames de (List.mem_cons_self _ _)) hsub
    obtain ⟨W, c, hW0, hstep, hloop⟩ := ih w1 (nErr + c0)
      (fun d hd => hnames d (List.mem_cons_of_mem _ hd))
    refine ⟨fun i => Nat.casesOn i w (fun j => W j), fun i => Nat.casesOn i c0 (fun j => c j),
      rfl, ?_, ?_⟩
    · intro i h
      cases i with
      | zero => exact ⟨by simp [h1, hW0], h2, h3⟩
      | succ j => exact hstep j (by simpa using h)
    · rw [zapDirLoop_cons_step, h1]
      simp only [hloop, List.length_cons]
      rw [Finset.sum_range_succ']
      show (W rest.length, some (nErr + c0 + Finset.sum (Finset.range rest.length) c))
        = (W rest.length, some (nErr + (Finset.sum (Finset.range rest.length) c + c0)))
      congr 2
      ring

/-- With enough fuel `zapDirM` returns, and its count is not negative. -/
theorem zapDirM_returns (zo : zapOpts) (fuel : Nat) :
    ∀ (w : World) (path : CStr) (iMode : Nat), 0 < fuel → PATH_MAX < fuel + path.length →
      ∃ (w2 : World) (r : Int), zapDirM fuel w path iMode zo = (w2, some r) ∧ 0 ≤ r := by
  induction fuel with
  | zero =>
    intro w path iMode h
    exact absurd h (by decide)
  | succ fuel ih =>
    intro w path iMode _ hf
    unfold zapDirM
    by_cases hd : S_ISDIR iMode = true
    · simp only [hd, Bool.not_true, Bool.false_eq_true, if_false]
      cases ho : opendir w.disk path with
      | err e => exact ⟨w, 1, rfl, by decide⟩
      | ok ents =>
        have hshort := opendir_ok_short w.disk path ents ho
        have hsub : ∀ (w1 : World) (p : CStr) (m : Nat), path.length < p.length →
            ∃ (w2 : World) (r : Int), zapDirM fuel w1 p m zo = (w2, some r) ∧ 0 ≤ r := by
          intro w1 p m hp
          exact ih w1 p m (by omega) (by omega)
        obtain ⟨W, c, _, hstep, hloop⟩ := zapDirLoop_spec
          (fun w1 p m => zapDirM fuel w1 p m zo) path zo hsub ents w 0
          (opendir_names w.disk path ents ho)
        have hsum : 0 ≤ Finset.sum (Finset.range ents.length) c :=
          Finset.sum_nonneg (fun i hi => (hstep i (Finset.mem_range.mp hi)).2.1)
        simp only [hloop, zapDirEnd]
        by_cases hn : zo.noexec = true
        · rw [if_pos hn]
          exact ⟨_, _, rfl, by omega⟩
        · rw [if_neg hn]
          by_cases hr : (rmdir (W ents.length) path).2.rc ≠ 0
          · rw [if_pos hr]
            exact ⟨_, _, rfl, by omega⟩
          · rw [if_neg hr]
            exact ⟨_, _, rfl, by omega⟩
    · exact ⟨w, 1, by simp [hd], by decide⟩

theorem mem_remove (k : Key) (kn : Key × Node) (l : List (Key × Node)) :
    kn ∈ remove k l ↔ kn ∈ l ∧ kn.1 ≠ k := by
  induction l with
  | nil => simp [remove]
  | cons a rest ih =>
    obtain ⟨k1, n1⟩ := a
    by_cases h : k1 = k
    · subst h
      simp only [remove, if_true, ih, List.mem_cons]
      constructor
      · intro hh
        exact ⟨Or.inr hh.1, hh.2⟩
      · intro hh
        rcases hh.1 with h1 | h1
        · exact absurd (by rw [h1]) hh.2
        · exact ⟨h1, hh.2⟩
    · simp only [remove, h, if_false, List.mem_cons, ih]
      constructor
      · intro hh
        rcases hh with h1 | h1
        · exact ⟨Or.inl h1, by rw [h1]; exact h⟩
        · exact ⟨Or.inr h1.1, h1.2⟩
      · intro hh
        rcases hh.1 with h1 | h1
        · exact Or.inl h1
        · exact Or.inr ⟨h1, hh.2⟩

theorem lookup_remove_other (k k2 : Key) (l : List (Key × Node)) (h : k2 ≠ k) :
    lookup k2 (remove k l) = lookup k2 l := by
  induction l with
  | nil => rfl
  | cons a rest ih =>
    obtain ⟨k1, n1⟩ := a
    by_cases h1 : k1 = k
    · subst h1
      have : ¬ k1 = k2 := fun hh => h hh.symm
      simp [remove, lookup, this, ih]
    · by_cases h2 : k1 = k2
      · subst h2
        simp [remove, lookup, h1]
      · simp [remove, lookup, h1, h2, ih]

theorem lookup_some_mem (k : Key) (n : Node) (l : List (Key × Node))
    (h : lookup k l = some n) : (k, n) ∈ l := by
  induction l with
  | nil => simp [lookup] at h
  | cons a rest ih =>
    obtain ⟨k1, n1⟩ := a
    by_cases h1 : k1 = k
    · subst h1
      simp only [lookup, if_true, Option.some.injEq] at h
      subst h
      exact List.mem_cons_self _ _
    · simp only [lookup, h1, if_false] at h
      exact List.mem_cons_of_mem _ (ih h)

theorem lookup_none_not_mem (k : Key) (n : Node) (l : List (Key × Node))
    (h : lookup k l = none) : (k, n) ∉ l := by
  induction l with
  | nil => simp
  | cons a rest ih =>
    obtain ⟨k1, n1⟩ := a
    by_cases h1 : k1 = k
    · simp [lookup, h1] at h
    · simp only [lookup, h1, if_false] at h
      intro hm
      rcases List.mem_cons.mp hm with h2 | h2
      · exact h1 (by simp only [Prod.mk.injEq] at h2; exact h2.1.symm)
      · exact ih h h2

theorem children_of_mem (kn : Key × Node) (l : List (Key × Node)) (hm : kn ∈ l)
    (h1 : kn.1 ≠ []) (h2 : kn.1.getLast? ≠ some []) : children kn.1.dropLast l ≠ [] := by
  induction l with
  | nil => simp at hm
  | cons a rest ih =>
    obtain ⟨k1, n1⟩ := a
    rcases List.mem_cons.mp hm with h | h
    · subst h
      unfold children
      cases hl : k1.getLast? with
      | none => exact absurd (List.getLast?_eq_none_iff.mp hl) h1
      | some name =>
        have hne : name ≠ [] := by
          intro hh
          apply h2
          simp only [hl, hh]
        simp [hne]
    · unfold children
      cases hl : k1.getLast? with
      | none => exact ih h
      | some name =>
        simp only []
        split
        · simp
        · exact ih h

theorem mem_store (k : Key) (n : Node) (kn : Key × Node) (l : List (Key × Node))
    (h : kn ∈ store k n l) : kn ∈ l ∨ kn = (k, n) := by
  induction l with
  | nil =>
    simp only [store, List.mem_singleton] at h
    exact Or.inr h
  | cons a rest ih =>
    obtain ⟨k1, n1⟩ := a
    by_cases h1 : k1 = k
    · subst h1
      simp only [store, if_true] at h
      rcases List.mem_cons.mp h with h2 | h2
      · exact Or.inr h2
      · exact Or.inl (List.mem_cons_of_mem _ h2)
    · simp only [store, h1, if_false] at h
      rcases List.mem_cons.mp h with h2 | h2
      · exact Or.inl (by rw [h2]; exact List.mem_cons_self _ _)
      · rcases ih h2 with h3 | h3
        · exact Or.inl (List.mem_cons_of_mem _ h3)
        · exact Or.inr h3

theorem Rooted.remove_file (l : List (Key × Node)) (k : Key) (n : Node) (h : Rooted l)
    (hl : lookup k l = some n) (hk : n.kind ≠ .dir) : Rooted (remove k l) := by
  intro kn hm hne
  obtain ⟨hm1, hm2⟩ := (mem_remove k kn l).mp hm
  obtain ⟨h1, h2⟩ := h kn hm1 hne
  refine ⟨h1, ?_⟩
  have hd : kn.1.dropLast ≠ k := by
    intro hh
    rw [hh, hl] at h2
    simp only [Option.map_some', Option.some.injEq] at h2
    exact hk h2
  rw [lookup_remove_other k _ l hd]
  exact h2

theorem Rooted.remove_empty (l : List (Key × Node)) (k : Key) (h : Rooted l)
    (hc : children k l = []) : Rooted (remove k l) := by
  intro kn hm hne
  obtain ⟨hm1, hm2⟩ := (mem_remove k kn l).mp hm
  obtain ⟨h1, h2⟩ := h kn hm1 hne
  refine ⟨h1, ?_⟩
  have hd : kn.1.dropLast ≠ k := by
    intro hh
    have := children_of_mem kn l hm1 hne h1
    rw [hh] at this
    exact this hc
  rw [lookup_remove_other k _ l hd]
  exact h2

theorem Rooted.store_same_kind (l : List (Key × Node)) (k : Key) (n n1 : Node) (h : Rooted l)
    (hl : lookup k l = some n) (hk : n1.kind = n.kind) : Rooted (store k n1 l) := by
  have hlk : ∀ k2 : Key, (lookup k2 (store k n1 l)).map Node.kind
      = (lookup k2 l).map Node.kind := by
    intro k2
    by_cases h2 : k = k2
    · subst h2
      rw [lookup_store_same, hl]
      simp [hk]
    · rw [lookup_store_other k k2 n1 l h2]
  intro kn hm hne
  rcases mem_store k n1 kn l hm with h1 | h1
  · obtain ⟨h2, h3⟩ := h kn h1 hne
    exact ⟨h2, by rw [hlk]; exact h3⟩
  · have hmem := lookup_some_mem k n l hl
    subst h1
    obtain ⟨h2, h3⟩ := h (k, n) hmem hne
    exact ⟨h2, by rw [hlk]; exact h3⟩

/-- On a disk where every entity lies in a directory, nothing is left under a
path that has no entity. -/
theorem Rooted.nothing_below (l : List (Key × Node)) (k : Key) (h : Rooted l)
    (hl : lookup k l = none) : ∀ kn ∈ l, ¬ (k <+: kn.1) := by
  have key : ∀ (ext : List CStr) (n : Node), (k ++ ext, n) ∉ l := by
    intro ext
    induction ext using List.reverseRecOn with
    | nil =>
      intro n
      rw [List.append_nil]
      exact lookup_none_not_mem k n l hl
    | append_singleton ext x ih =>
      intro n hm
      have hne : k ++ (ext ++ [x]) ≠ [] := by simp
      obtain ⟨_, h2⟩ := h (k ++ (ext ++ [x]), n) hm hne
      have hd : (k ++ (ext ++ [x])).dropLast = k ++ ext := by
        rw [← List.append_assoc, List.dropLast_concat]
      simp only [hd] at h2
      cases hq : lookup (k ++ ext) l with
      | none => simp [hq] at h2
      | some m => exact ih m (lookup_some_mem _ m l hq)
  intro kn hm hp
  obtain ⟨ext, he⟩ := hp
  apply key ext kn.2
  rw [he]
  exact hm

theorem keeps_refl (w : World) : Keeps w w := ⟨rfl, fun h => h⟩

theorem keeps_trans (w w1 w2 : World) (h1 : Keeps w w1) (h2 : Keeps w1 w2) : Keeps w w2 :=
  ⟨h2.1.trans h1.1, fun h => h2.2 (h1.2 h)⟩

theorem unlink_keeps (w : World) (p : CStr) : Keeps w (unlink w p).1 := by
  unfold unlink
  cases he : entry w.disk p false with
  | err er => exact keeps_refl w
  | ok kn =>
    obtain ⟨k, n⟩ := kn
    simp only []
    by_cases hd : n.kind = .dir
    · rw [if_pos hd]
      exact keeps_refl w
    · rw [if_neg hd]
      by_cases hf : Fault.unlink k ∈ w.disk.faults
      · rw [if_pos hf]
        exact keeps_refl w
      · rw [if_neg hf]
        exact ⟨rfl, fun h => Rooted.remove_file _ k n h (entry_ok_lookup w.disk p false k n he) hd⟩

theorem chmod_keeps (w : World) (p : CStr) (mode : Nat) : Keeps w (chmod w p mode).1 := by
  unfold chmod
  cases he : entry w.disk p true with
  | err er => exact keeps_refl w
  | ok kn =>
    obtain ⟨k, n⟩ := kn
    simp only []
    by_cases hf : Fault.chmod k ∈ w.disk.faults
    · rw [if_pos hf]
      exact keeps_refl w
    · rw [if_neg hf]
      exact ⟨rfl, fun h => Rooted.store_same_kind _ k n _ h
        (entry_ok_lookup w.disk p true k n he) rfl⟩

theorem rmdir_keeps (w : World) (p : CStr) : Keeps w (rmdir w p).1 := by
  unfold rmdir
  repeat' (first | exact keeps_refl w | split)
  rename_i h1 h2 n hl h3 h4 h5
  exact ⟨rfl, fun h => Rooted.remove_empty _ _ h (by simpa using h4)⟩

theorem zapFileM_keeps (w : World) (path : CStr) (iMode : Nat) (zo : zapOpts) :
    Keeps w (zapFileM w path iMode zo).1 := by
  unfold zapFileM
  split
  · exact keeps_refl w
  · split
    · exact keeps_refl w
    · split
      · split
        · exact chmod_keeps w path _
        · exact keeps_trans _ _ _ (chmod_keeps w path _) (unlink_keeps _ path)
      · exact unlink_keeps w path

theorem zapDirLoop_keeps (zapSub : World → CStr → Nat → World × Option Int) (path : CStr)
    (zo : zapOpts) (hsub : ∀ (w1 : World) (p : CStr) (m : Nat), Keeps w1 (zapSub w1 p m).1)
    (ents : List Dirent) :
    ∀ (w : World) (nErr : Int), Keeps w (zapDirLoop zapSub path zo ents w nErr).1 := by
  induction ents with
  | nil =>
    intro w nErr
    exact keeps_refl w
  | cons de rest ih =>
    intro w nErr
    rw [zapDirLoop]
    cases hl : lstat w.disk (NewPathName path de.d_name) with
    | err er => exact ih _ _
    | ok st =>
      cases hk : de.d_type with
      | dir =>
        simp only []
        split
        · exact ih _ _
        · have hs := hsub w (NewPathName path de.d_name) st.st_mode
          cases hz : zapSub w (NewPathName path de.d_name) st.st_mode with
          | mk w1 o =>
            rw [hz] at hs
            cases o with
            | none => exact hs
            | some iErr => exact keeps_trans _ _ _ hs (ih _ _)
      | lnk => exact keeps_trans _ _ _ (zapFileM_keeps w _ _ zo) (ih _ _)
      | reg => exact keeps_trans _ _ _ (zapFileM_keeps w _ _ zo) (ih _ _)
      | _ => exact ih _ _

theorem zapDirM_keeps (zo : zapOpts) (fuel : Nat) :
    ∀ (w : World) (path : CStr) (iMode : Nat), Keeps w (zapDirM fuel w path iMode zo).1 := by
  induction fuel with
  | zero =>
    intro w path iMode
    exact keeps_refl w
  | succ fuel ih =>
    intro w path iMode
    unfold zapDirM
    split
    · exact keeps_refl w
    · cases ho : opendir w.disk path with
      | err er => exact keeps_refl w
      | ok ents =>
        simp only []
        have hl := zapDirLoop_keeps (fun w1 p m => zapDirM fuel w1 p m zo) path zo
          (fun w1 p m => ih w1 p m) ents w 0
        cases hz : zapDirLoop (fun w1 p m => zapDirM fuel w1 p m zo) path zo ents w 0 with
        | mk w1 o =>
          rw [hz] at hl
          cases o with
          | none => exact hl
          | some nErr =>
            simp only [zapDirEnd]
            split
            · exact hl
            · split
              · exact keeps_trans _ _ _ hl (rmdir_keeps w1 path)
              · exact keeps_trans _ _ _ hl (rmdir_keeps w1 path)


theorem children_remove (k k2 : Key) (l : List (Key × Node)) (h : children k l = []) :
    children k (remove k2 l) = [] := by
  induction l with
  | nil => rfl
  | cons a rest ih =>
    obtain ⟨k1, n⟩ := a
    unfold children at h
    cases hl : k1.getLast? with
    | none =>
      simp only [hl] at h
      by_cases hk : k1 = k2
      · simp only [remove, hk, if_true]
        exact ih h
      · simp only [remove, hk, if_false]
        unfold children
        simp only [hl]
        exact ih h
    | some name =>
      simp only [hl] at h
      by_cases hc : k1.dropLast = k ∧ name ≠ []
      · rw [if_pos hc] at h
        exact absurd h (by simp)
      · rw [if_neg hc] at h
        by_cases hk : k1 = k2
        · simp only [remove, hk, if_true]
          exact ih h
        · simp only [remove, hk, if_false]
          unfold children
          simp only [hl]
          rw [if_neg hc]
          exact ih h

theorem rmdir_ok_removes (w : World) (p : CStr) (h : (rmdir w p).2 = .ok ()) :
    exists_ (rmdir w p).1.disk p = false
      ∧ children (canon w.disk.cwd p) (rmdir w p).1.disk.nodes = []
      ∧ lookup (canon w.disk.cwd p) (rmdir w p).1.disk.nodes = none := by
  unfold rmdir at h ⊢
  by_cases h1 : p = []
  · simp [h1] at h
  · by_cases h2 : PATH_MAX ≤ p.length
    · simp [h1, h2] at h
    · simp only [h1, h2, if_false] at h ⊢
      cases hl : lookup (canon w.disk.cwd p) w.disk.nodes with
      | none => simp [hl] at h
      | some n =>
        simp only [hl] at h ⊢
        by_cases h3 : n.kind ≠ .dir
        · simp [h3] at h
        · by_cases h4 : children (canon w.disk.cwd p) w.disk.nodes ≠ []
          · simp [h3, h4] at h
          · by_cases h5 : canon w.disk.cwd p = []
                ∨ Fault.rmdir (canon w.disk.cwd p) ∈ w.disk.faults
            · simp [h3, h4, h5] at h
            · simp only [h3, h4, h5, if_false]
              have hgone : lookup (canon w.disk.cwd p)
                  (remove (canon w.disk.cwd p) w.disk.nodes) = none :=
                lookup_remove_same _ _
              refine ⟨?_, ?_, ?_⟩
              · simp [exists_, lstat, entry, namei, h1, h2, World.del, World.log, chase, hgone]
              · simp only [World.del, World.log]
                exact children_remove _ _ _ (by simpa using h4)
              · simp only [World.del, World.log]
                exact hgone

/-- C13: on a directory that can be opened, not in no-exec mode and with
enough fuel, `zapDirM` makes one round for every entry read, each in the
world left by the round before, whatever the counts of the earlier rounds;
the count of a round is not negative, and at most one for an entry that is
not a directory; `rmdir` is then called on the directory, and the result is
the sum of the counts of the rounds, plus one when `rmdir` fails. When the
result is 0 the directory no longer exists and no entry is left in it; on a
disk where every entity lies in a directory, no entity is left anywhere
below its path. -/
theorem zapDirM_best_effort (fuel : Nat) (w : World) (path : CStr) (iMode : Nat) (zo : zapOpts)
    (ents : List Dirent) (hdir : S_ISDIR iMode = true) (hopen : opendir w.disk path = .ok ents)
    (hexec : zo.noexec = false) (hfuel : PATH_MAX ≤ fuel + path.length) :
    ∃ (W : Nat → World) (c : Nat → Int), W 0 = w
      ∧ (∀ (i : Nat) (h : i < ents.length),
          zapDirStep (fun w1 p m => zapDirM fuel w1 p m zo) path zo (W i) (ents.get ⟨i, h⟩)
              = (W (i + 1), some (c i))
            ∧ 0 ≤ c i ∧ ((ents.get ⟨i, h⟩).d_type ≠ .dir → c i ≤ 1))
      ∧ zapDirM (fuel + 1) w path iMode zo
          = ((rmdir (W ents.length) path).1,
             some (Finset.sum (Finset.range ents.length) c
                    + (if (rmdir (W ents.length) path).2.rc = 0 then 0 else 1)))
      ∧ ((zapDirM (fuel + 1) w path iMode zo).2 = some 0 →
          exists_ (zapDirM (fuel + 1) w path iMode zo).1.disk path = false
            ∧ children (canon w.disk.cwd path)
                (zapDirM (fuel + 1) w path iMode zo).1.disk.nodes = []
            ∧ (Rooted w.disk.nodes →
                ∀ kn ∈ (zapDirM (fuel + 1) w path iMode zo).1.disk.nodes,
                  ¬ (canon w.disk.cwd path <+: kn.1))) := by
  have hshort := opendir_ok_short w.disk path ents hopen
  have hsub : ∀ (w1 : World) (p : CStr) (m : Nat), path.length < p.length →
      ∃ (w2 : World) (r : Int), zapDirM fuel w1 p m zo = (w2, some r) ∧ 0 ≤ r := by
    intro w1 p m hp
    exact zapDirM_returns zo fuel w1 p m (by omega) (by omega)
  obtain ⟨W, c, hW0, hstep, hloop⟩ := zapDirLoop_spec
    (fun w1 p m => zapDirM fuel w1 p m zo) path zo hsub ents w 0
    (opendir_names w.disk path ents hopen)
  have hsum : 0 ≤ Finset.sum (Finset.range ents.length) c :=
    Finset.sum_nonneg (fun i hi => (hstep i (Finset.mem_range.mp hi)).2.1)
  have hres : zapDirM (fuel + 1) w path iMode zo
      = ((rmdir (W ents.length) path).1,
         some (Finset.sum (Finset.range ents.length) c
                + (if (rmdir (W ents.length) path).2.rc = 0 then 0 else 1))) := by
    unfold zapDirM
    simp only [hdir, Bool.not_true, Bool.false_eq_true, if_false, hopen, hloop, zapDirEnd, hexec,
      zero_add]
    by_cases hr : (rmdir (W ents.length) path).2.rc = 0
    · simp [hr]
    · simp [hr]
  refine ⟨W, c, hW0, hstep, hres, ?_⟩
  intro hz
  rw [hres] at hz ⊢
  simp only [Option.some.injEq] at hz
  have hrc : (rmdir (W ents.length) path).2.rc = 0 := by
    by_contra hne
    rw [if_neg hne] at hz
    omega
  have hok : (rmdir (W ents.length) path).2 = .ok () := by
    cases hq : (rmdir (W ents.length) path).2 with
    | ok u => rfl
    | err e =>
      rw [hq] at hrc
      simp [Res.rc] at hrc
  have hk := zapDirLoop_keeps (fun w1 p m => zapDirM fuel w1 p m zo) path zo
    (fun w1 p m => zapDirM_keeps zo fuel w1 p m) ents w 0
  rw [hloop] at hk
  obtain ⟨r1, r2, r3⟩ := rmdir_ok_removes (W ents.length) path hok
  rw [hk.1] at r2 r3
  refine ⟨r1, r2, ?_⟩
  intro hroot
  exact Rooted.nothing_below _ _ ((rmdir_keeps (W ents.length) path).2 (hk.2 hroot)) r3

theorem zapDirM_best_effort_witness :
    (S_ISDIR 0o040755 = true
        ∧ opendir wTree.disk pTree
            = .ok [⟨['.'], .dir⟩, ⟨['.', '.'], .dir⟩, ⟨['a'], .reg⟩, ⟨['b'], .reg⟩,
                ⟨['s', 'u', 'b'], .dir⟩]
        ∧ zoExec.noexec = false ∧ PATH_MAX ≤ 4096 + pTree.length
        ∧ (zapDirM (4096 + 1) wTree pTree 0o040755 zoExec).2 = some 2
        ∧ (zapDirM (4096 + 1) wTree pTree 0o040755 zoExec).1.calls
            = [.rmdir ['t'], .rmdir ['t', '/', 's', 'u', 'b'],
                .unlink ['t', '/', 's', 'u', 'b', '/', 'c'], .unlink ['t', '/', 'b'],
                .unlink ['t', '/', 'a']]
        ∧ Rooted wTree.disk.nodes
        ∧ (zapDirM (4096 + 1) wCopy ['s'] 0o040755 zoExec).2 = some 0
        ∧ (zapDirM (4096 + 1) wCopy ['s'] 0o040755 zoExec).1.disk.nodes
            = [([], dirNode), ([['d']], dirNode)])
      ∧ ∃ (W : Nat → World) (c : Nat → Int), W 0 = wTree
          ∧ (∀ (i : Nat) (h : i < [(⟨['.'], .dir⟩ : Dirent), ⟨['.', '.'], .dir⟩, ⟨['a'], .reg⟩,
                ⟨['b'], .reg⟩, ⟨['s', 'u', 'b'], .dir⟩].length),
              zapDirStep (fun w1 p m => zapDirM 4096 w1 p m zoExec) pTree zoExec (W i)
                  ([(⟨['.'], .dir⟩ : Dirent), ⟨['.', '.'], .dir⟩, ⟨['a'], .reg⟩,
                    ⟨['b'], .reg⟩, ⟨['s', 'u', 'b'], .dir⟩].get ⟨i, h⟩)
                  = (W (i + 1), some (c i))
                ∧ 0 ≤ c i
                ∧ (([(⟨['.'], .dir⟩ : Dirent), ⟨['.', '.'], .dir⟩, ⟨['a'], .reg⟩,
                    ⟨['b'], .reg⟩, ⟨['s', 'u', 'b'], .dir⟩].get ⟨i, h⟩).d_type ≠ .dir → c i ≤ 1))
          ∧ zapDirM (4096 + 1) wTree pTree 0o040755 zoExec
              = ((rmdir (W 5) pTree).1,
                 some (Finset.sum (Finset.range 5) c
                        + (if (rmdir (W 5) pTree).2.rc = 0 then 0 else 1)))
          ∧ ((zapDirM (4096 + 1) wTree pTree 0o040755 zoExec).2 = some 0 →
              exists_ (zapDirM (4096 + 1) wTree pTree 0o040755 zoExec).1.disk pTree = false
                ∧ children (canon wTree.disk.cwd pTree)
                    (zapDirM (4096 + 1) wTree pTree 0o040755 zoExec).1.disk.nodes = []
                ∧ (Rooted wTree.disk.nodes →
                    ∀ kn ∈ (zapDirM (4096 + 1) wTree pTree 0o040755 zoExec).1.disk.nodes,
                      ¬ (canon wTree.disk.cwd pTree <+: kn.1))) :=
  ⟨by decide,
   zapDirM_best_effort 4096 wTree pTree 0o040755 zoExec
     [⟨['.'], .dir⟩, ⟨['.', '.'], .dir⟩, ⟨['a'], .reg⟩, ⟨['b'], .reg⟩, ⟨['s', 'u', 'b'], .dir⟩]
     (by decide) (by decide) (by decide) (by decide)⟩

/-! ### The count of failures of `updateall` -/

theorem zapDirLoop_mono (zapSub : World → CStr → Nat → World × Option Int) (path : CStr)
    (zo : zapOpts)
    (hsub : ∀ (w1 : World) (p : CStr) (m : Nat) (w2 : World) (r : Int),
      zapSub w1 p m = (w2, some r) → 0 ≤ r)
    (ents : List Dirent) :
    ∀ (w : World) (nErr : Int) (w2 : World) (r : Int),
      zapDirLoop zapSub path zo ents w nErr = (w2, some r) → nErr ≤ r := by
  induction ents with
  | nil =>
    intro w nErr w2 r h
    simp only [zapDirLoop, Prod.mk.injEq, Option.some.injEq] at h
    omega
  | cons de rest ih =>
    intro w nErr w2 r h
    rw [zapDirLoop] at h
    cases hl : lstat w.disk (NewPathName path de.d_name) with
    | err er =>
      simp only [hl] at h
      have := ih _ _ _ _ h
      omega
    | ok st =>
      simp only [hl] at h
      have hz := zapFileM_range w (NewPathName path de.d_name) st.st_mode zo
      cases hk : de.d_type <;> simp only [hk] at h
      case dir =>
        by_cases hn : de.d_name = ['.'] ∨ de.d_name = ['.', '.']
        · rw [if_pos hn] at h
          exact ih _ _ _ _ h
        · rw [if_neg hn] at h
          cases hs : zapSub w (NewPathName path de.d_name) st.st_mode with
          | mk w1 o =>
            cases o with
            | none => simp [hs] at h
            | some iErr =>
              simp only [hs] at h
              have h1 := hsub _ _ _ _ _ hs
              have h2 := ih _ _ _ _ h
              omega
      case lnk =>
        have := ih _ _ _ _ h
        rcases hz with h0 | h0 <;> rw [h0] at this <;> omega
      case reg =>
        have := ih _ _ _ _ h
        rcases hz with h0 | h0 <;> rw [h0] at this <;> omega
      all_goals
        have := ih _ _ _ _ h
        omega

/-- The count returned by `zapDirM` is never negative. -/
theorem zapDirM_nonneg (zo : zapOpts) (fuel : Nat) :
    ∀ (w : World) (path : CStr) (iMode : Nat) (w2 : World) (r : Int),
      zapDirM fuel w path iMode zo = (w2, some r) → 0 ≤ r := by
  induction fuel with
  | zero =>
    intro w path iMode w2 r h
    simp [zapDirM] at h
  | succ fuel ih =>
    intro w path iMode w2 r h
    unfold zapDirM at h
    by_cases hd : S_ISDIR iMode = true
    · simp only [hd, Bool.not_true, Bool.false_eq_true, if_false] at h
      cases ho : opendir w.disk path with
      | err er =>
        simp only [ho, Prod.mk.injEq, Option.some.injEq] at h
        omega
      | ok ents =>
        simp only [ho] at h
        cases hl : zapDirLoop (fun w1 p m => zapDirM fuel w1 p m zo) path zo ents w 0 with
        | mk w1 o =>
          cases o with
          | none => simp [hl, zapDirEnd] at h
          | some nErr =>
            have hm := zapDirLoop_mono (fun w1 p m => zapDirM fuel w1 p m zo) path zo
              (fun a b c d f hh => ih a b c d f hh) ents w 0 w1 nErr hl
            simp only [hl, zapDirEnd] at h
            by_cases hn : zo.noexec = true
            · rw [if_pos hn] at h
              simp only [Prod.mk.injEq, Option.some.injEq] at h
              omega
            · rw [if_neg hn] at h
              by_cases hr : (rmdir w1 path).2.rc ≠ 0
              · rw [if_pos hr] at h
                simp only [Prod.mk.injEq, Option.some.injEq] at h
                omega
              · rw [if_neg hr] at h
                simp only [Prod.mk.injEq, Option.some.injEq] at h
                omega
    · simp only [hd, Bool.not_false, if_true, Prod.mk.injEq, Option.some.injEq] at h
      omega

theorem scanLoop_append (e : Env) (fuel : Nat) (path0 ppath : CStr) (pname : Option CStr)
    (pattern : CStr) (pre suf : List Dirent) :
    ∀ (w : World) (n : Int),
      scanLoop e fuel path0 ppath pname pattern (pre ++ suf) w n
        = match scanLoop e fuel path0 ppath pname pattern pre w n with
          | (wm, none) => (wm, none)
          | (wm, some nm) => scanLoop e fuel path0 ppath pname pattern suf wm nm := by
  induction pre with
  | nil =>
    intro w n
    simp [scanLoop]
  | cons de rest ih =>
    intro w n
    rw [List.cons_append, scanLoop, scanLoop]
    by_cases h1 : de.d_type ≠ .reg ∧ de.d_type ≠ .lnk
    · rw [if_pos h1, if_pos h1]
      exact ih w n
    · rw [if_neg h1, if_neg h1]
      by_cases h2 : e.fnmatch pattern de.d_name e.iFnmFlag = false
      · rw [if_pos h2, if_pos h2]
        exact ih w n
      · rw [if_neg h2, if_neg h2]
        cases (if de.d_type = .lnk then
            update_link e fuel w (strmfp path0 de.d_name) (targetPath ppath pname de.d_name)
          else update e fuel w (strmfp path0 de.d_name) (targetPath ppath pname de.d_name)) with
        | mk w1 o =>
          cases o with
          | none => rfl
          | some err => exact ih w1 _

theorem scanLoop_mono (e : Env) (fuel : Nat) (path0 ppath : CStr) (pname : Option CStr)
    (pattern : CStr) (ents : List Dirent) :
    ∀ (w : World) (n : Int) (w2 : World) (r : Int),
      scanLoop e fuel path0 ppath pname pattern ents w n = (w2, some r) → n ≤ r := by
  induction ents with
  | nil =>
    intro w n w2 r h
    simp only [scanLoop, Prod.mk.injEq, Option.some.injEq] at h
    omega
  | cons de rest ih =>
    intro w n w2 r h
    rw [scanLoop] at h
    by_cases h1 : de.d_type ≠ .reg ∧ de.d_type ≠ .lnk
    · rw [if_pos h1] at h
      exact ih _ _ _ _ h
    · rw [if_neg h1] at h
      by_cases h2 : e.fnmatch pattern de.d_name e.iFnmFlag = false
      · rw [if_pos h2] at h
        exact ih _ _ _ _ h
      · rw [if_neg h2] at h
        cases hc : (if de.d_type = .lnk then
            update_link e fuel w (strmfp path0 de.d_name) (targetPath ppath pname de.d_name)
          else update e fuel w (strmfp path0 de.d_name) (targetPath ppath pname de.d_name)) with
        | mk w1 o =>
          rw [hc] at h
          cases o with
          | none => simp at h
          | some err =>
            have := ih _ _ _ _ h
            by_cases hz : err ≠ 0
            · rw [if_pos hz] at this
              omega
            · rw [if_neg hz] at this
              exact this

/-- A failing call on the first entry of the scan loop is counted. -/
theorem scanLoop_head (e : Env) (fuel : Nat) (path0 ppath : CStr) (pname : Option CStr)
    (pattern : CStr) (de : Dirent) (rest : List Dirent) (w : World) (n : Int) (w2 : World)
    (r : Int) (h : scanLoop e fuel path0 ppath pname pattern (de :: rest) w n = (w2, some r))
    (h1 : de.d_type = .reg ∨ de.d_type = .lnk)
    (h2 : e.fnmatch pattern de.d_name e.iFnmFlag = true) :
    ∃ (w1 : World) (err : Int),
      (if de.d_type = .lnk then
          update_link e fuel w (strmfp path0 de.d_name) (targetPath ppath pname de.d_name)
        else update e fuel w (strmfp path0 de.d_name) (targetPath ppath pname de.d_name))
        = (w1, some err) ∧ (err ≠ 0 → n < r) := by
  rw [scanLoop] at h
  have h1n : ¬ (de.d_type ≠ .reg ∧ de.d_type ≠ .lnk) := by
    rcases h1 with h1 | h1 <;> simp [h1]
  have h2n : ¬ (e.fnmatch pattern de.d_name e.iFnmFlag = false) := by simp [h2]
  rw [if_neg h1n, if_neg h2n] at h
  cases hc : (if de.d_type = .lnk then
      update_link e fuel w (strmfp path0 de.d_name) (targetPath ppath pname de.d_name)
    else update e fuel w (strmfp path0 de.d_name) (targetPath ppath pname de.d_name)) with
  | mk w1 o =>
    rw [hc] at h
    cases o with
    | none => simp at h
    | some err =>
      refine ⟨w1, err, rfl, ?_⟩
      intro hz
      have := scanLoop_mono _ _ _ _ _ _ _ _ _ _ _ h
      rw [if_pos hz] at this
      omega

theorem eraseLoop_append (e : Env) (fuel : Nat) (path0 path2 pattern : CStr) (zo : zapOpts)
    (pre suf : List Dirent) :
    ∀ (w : World) (n : Int),
      eraseLoop e fuel path0 path2 pattern zo (pre ++ suf) w n
        = match eraseLoop e fuel path0 path2 pattern zo pre w n with
          | (wm, none) => (wm, none)
          | (wm, some nm) => eraseLoop e fuel path0 path2 pattern zo suf wm nm := by
  induction pre with
  | nil =>
    intro w n
    simp [eraseLoop]
  | cons de rest ih =>
    intro w n
    rw [List.cons_append, eraseLoop, eraseLoop]
    by_cases h1 : de.d_name = ['.'] ∨ de.d_name = ['.', '.']
    · rw [if_pos h1, if_pos h1]
      exact ih w n
    · rw [if_neg h1, if_neg h1]
      by_cases h2 : e.fnmatch pattern de.d_name e.iFnmFlag = false
      · rw [if_pos h2, if_pos h2]
        exact ih w n
      · rw [if_neg h2, if_neg h2]
        by_cases h3 : access w.disk (strmfp path0 de.d_name) = -1
        · rw [if_pos h3, if_pos h3]
          cases lstat w.disk (strmfp path2 de.d_name) with
          | err er => exact ih w _
          | ok sStat =>
            cases hk : de.d_type with
            | dir =>
              simp only []
              cases zapDirM fuel w (strmfp path2 de.d_name) sStat.st_mode zo with
              | mk w1 o =>
                cases o with
                | none => rfl
                | some err => exact ih w1 _
            | _ => exact ih _ _
        · rw [if_neg h3, if_neg h3]
          exact ih w n

theorem eraseLoop_mono (e : Env) (fuel : Nat) (path0 path2 pattern : CStr) (zo : zapOpts)
    (ents : List Dirent) :
    ∀ (w : World) (n : Int) (w2 : World) (r : Int),
      eraseLoop e fuel path0 path2 pattern zo ents w n = (w2, some r) → n ≤ r := by
  induction ents with
  | nil =>
    intro w n w2 r h
    simp only [eraseLoop, Prod.mk.injEq, Option.some.injEq] at h
    omega
  | cons de rest ih =>
    intro w n w2 r h
    rw [eraseLoop] at h
    by_cases h1 : de.d_name = ['.'] ∨ de.d_name = ['.', '.']
    · rw [if_pos h1] at h
      exact ih _ _ _ _ h
    · rw [if_neg h1] at h
      by_cases h2 : e.fnmatch pattern de.d_name e.iFnmFlag = false
      · rw [if_pos h2] at h
        exact ih _ _ _ _ h
      · rw [if_neg h2] at h
        by_cases h3 : access w.disk (strmfp path0 de.d_name) = -1
        · rw [if_pos h3] at h
          cases hl : lstat w.disk (strmfp path2 de.d_name) with
          | err er =>
            simp only [hl] at h
            have := ih _ _ _ _ h
            omega
          | ok sStat =>
            simp only [hl] at h
            cases hk : de.d_type with
            | dir =>
              simp only [hk] at h
              cases hs : zapDirM fuel w (strmfp path2 de.d_name) sStat.st_mode zo with
              | mk w1 o =>
                cases o with
                | none => simp [hs] at h
                | some err =>
                  simp only [hs] at h
                  have h4 := zapDirM_nonneg zo fuel _ _ _ _ _ hs
                  have h5 := ih _ _ _ _ h
                  omega
            | lnk =>
              simp only [hk] at h
              have := ih _ _ _ _ h
              by_cases hz : (zapFileM w (strmfp path2 de.d_name) sStat.st_mode zo).2 ≠ 0
              · rw [if_pos hz] at this
                omega
              · rw [if_neg hz] at this
                exact this
            | reg =>
              simp only [hk] at h
              have := ih _ _ _ _ h
              by_cases hz : (zapFileM w (strmfp path2 de.d_name) sStat.st_mode zo).2 ≠ 0
              · rw [if_pos hz] at this
                omega
              · rw [if_neg hz] at this
                exact this
            | _ =>
              simp only [hk] at h
              have := ih _ _ _ _ h
              omega
        · rw [if_neg h3] at h
          exact ih _ _ _ _ h

/-- A failing deletion on the first entry of the erase loop is counted: when
the loop returns 0 more than it started with, the entry could be examined,
was of a supported kind and its deletion reported no failure. -/
theorem eraseLoop_head (e : Env) (fuel : Nat) (path0 path2 pattern : CStr) (zo : zapOpts)
    (de : Dirent) (rest : List Dirent) (w : World) (n : Int) (w2 : World)
    (h : eraseLoop e fuel path0 path2 pattern zo (de :: rest) w n = (w2, some n))
    (h1 : de.d_name ≠ ['.'] ∧ de.d_name ≠ ['.', '.'])
    (h2 : e.fnmatch pattern de.d_name e.iFnmFlag = true)
    (h3 : access w.disk (strmfp path0 de.d_name) = -1) :
    ∃ (sStat : Stat), lstat w.disk (strmfp path2 de.d_name) = .ok sStat
      ∧ (de.d_type = .dir ∨ de.d_type = .lnk ∨ de.d_type = .reg)
      ∧ (de.d_type = .dir →
          (zapDirM fuel w (strmfp path2 de.d_name) sStat.st_mode zo).2 = some 0)
      ∧ (de.d_type = .lnk ∨ de.d_type = .reg →
          (zapFileM w (strmfp path2 de.d_name) sStat.st_mode zo).2 = 0) := by
  rw [eraseLoop] at h
  have h1n : ¬ (de.d_name = ['.'] ∨ de.d_name = ['.', '.']) := by
    intro hh
    rcases hh with hh | hh
    · exact h1.1 hh
    · exact h1.2 hh
  have h2n : ¬ (e.fnmatch pattern de.d_name e.iFnmFlag = false) := by simp [h2]
  rw [if_neg h1n, if_neg h2n, if_pos h3] at h
  cases hl : lstat w.disk (strmfp path2 de.d_name) with
  | err er =>
    simp only [hl] at h
    have := eraseLoop_mono _ _ _ _ _ _ _ _ _ _ _ h
    omega
  | ok sStat =>
    simp only [hl] at h
    refine ⟨sStat, rfl, ?_⟩
    cases hk : de.d_type <;> simp only [hk] at h
    case dir =>
      refine ⟨Or.inl rfl, ?_, fun hh => by simp at hh⟩
      intro _
      cases hs : zapDirM fuel w (strmfp path2 de.d_name) sStat.st_mode zo with
      | mk w1 o =>
        cases o with
        | none => simp [hs] at h
        | some err =>
          simp only [hs] at h
          have h4 := zapDirM_nonneg zo fuel _ _ _ _ _ hs
          have h5 := eraseLoop_mono _ _ _ _ _ _ _ _ _ _ _ h
          have : err = 0 := by omega
          rw [this]
    case lnk =>
      refine ⟨Or.inr (Or.inl rfl), fun hh => by simp at hh, ?_⟩
      intro _
      have := eraseLoop_mono _ _ _ _ _ _ _ _ _ _ _ h
      by_contra hz
      rw [if_pos hz] at this
      omega
    case reg =>
      refine ⟨Or.inr (Or.inr rfl), fun hh => by simp at hh, ?_⟩
      intro _
      have := eraseLoop_mono _ _ _ _ _ _ _ _ _ _ _ h
      by_contra hz
      rw [if_pos hz] at this
      omega
    all_goals
      have := eraseLoop_mono _ _ _ _ _ _ _ _ _ _ _ h
      omega

theorem recurLoop_append (updSub : World → CStr → CStr → World × Option Int) (e : Env)
    (path0 ppath pattern : CStr) (zo : zapOpts) (pre suf : List Dirent) :
    ∀ (w : World) (n : Int),
      recurLoop updSub e path0 ppath pattern zo (pre ++ suf) w n
        = match recurLoop updSub e path0 ppath pattern zo pre w n with
          | (wm, none) => (wm, none)
          | (wm, some nm) => recurLoop updSub e path0 ppath pattern zo suf wm nm := by
  induction pre with
  | nil =>
    intro w n
    simp [recurLoop]
  | cons de rest ih =>
    intro w n
    rw [List.cons_append, recurLoop, recurLoop]
    by_cases h1 : de.d_type ≠ .dir
    · rw [if_pos h1, if_pos h1]
      exact ih w n
    · rw [if_neg h1, if_neg h1]
      by_cases h2 : de.d_name = ['.'] ∨ de.d_name = ['.', '.']
      · rw [if_pos h2, if_pos h2]
        exact ih w n
      · rw [if_neg h2, if_neg h2]
        simp only []
        by_cases h3 : (recurPrep e w (strmfp ppath de.d_name ++ DIRSEPARATOR_STRING) zo).go = false
        · rw [if_pos h3, if_pos h3]
          exact ih _ _
        · rw [if_neg h3, if_neg h3]
          cases updSub (recurPrep e w (strmfp ppath de.d_name ++ DIRSEPARATOR_STRING) zo).world
              (strmfp (strmfp path0 de.d_name) pattern)
              (strmfp ppath de.d_name ++ DIRSEPARATOR_STRING) with
          | mk w1 o =>
            cases o with
            | none => rfl
            | some err => exact ih _ _

theorem recurLoop_mono (updSub : World → CStr → CStr → World × Option Int) (e : Env)
    (path0 ppath pattern : CStr) (zo : zapOpts)
    (hsub : ∀ (w1 : World) (q1 q2 : CStr) (w2 : World) (r : Int),
      updSub w1 q1 q2 = (w2, some r) → 0 ≤ r)
    (ents : List Dirent) :
    ∀ (w : World) (n : Int) (w2 : World) (r : Int),
      recurLoop updSub e path0 ppath pattern zo ents w n = (w2, some r) → n ≤ r := by
  induction ents with
  | nil =>
    intro w n w2 r h
    simp only [recurLoop, Prod.mk.injEq, Option.some.injEq] at h
    omega
  | cons de rest ih =>
    intro w n w2 r h
    rw [recurLoop] at h
    by_cases h1 : de.d_type ≠ .dir
    · rw [if_pos h1] at h
      exact ih _ _ _ _ h
    · rw [if_neg h1] at h
      by_cases h2 : de.d_name = ['.'] ∨ de.d_name = ['.', '.']
      · rw [if_pos h2] at h
        exact ih _ _ _ _ h
      · rw [if_neg h2] at h
        simp only [] at h
        by_cases h3 : (recurPrep e w (strmfp ppath de.d_name ++ DIRSEPARATOR_STRING) zo).go = false
        · rw [if_pos h3] at h
          have := ih _ _ _ _ h
          omega
        · rw [if_neg h3] at h
          cases hs : updSub
              (recurPrep e w (strmfp ppath de.d_name ++ DIRSEPARATOR_STRING) zo).world
              (strmfp (strmfp path0 de.d_name) pattern)
              (strmfp ppath de.d_name ++ DIRSEPARATOR_STRING) with
          | mk w1 o =>
            rw [hs] at h
            cases o with
            | none => simp at h
            | some err =>
              have h4 := hsub _ _ _ _ _ hs
              have h5 := ih _ _ _ _ h
              omega

/-- A failure on the first entry of the recursion loop is counted: when the
loop returns the count it started with, the preparation of the target
subdirectory went through and the recursive call returned 0. -/
theorem recurLoop_head (updSub : World → CStr → CStr → World × Option Int) (e : Env)
    (path0 ppath pattern : CStr) (zo : zapOpts)
    (hsub : ∀ (w1 : World) (q1 q2 : CStr) (w2 : World) (r : Int),
      updSub w1 q1 q2 = (w2, some r) → 0 ≤ r)
    (de : Dirent) (rest : List Dirent) (w : World) (n : Int) (w2 : World)
    (h : recurLoop updSub e path0 ppath pattern zo (de :: rest) w n = (w2, some n))
    (h1 : de.d_type = .dir) (h2 : de.d_name ≠ ['.'] ∧ de.d_name ≠ ['.', '.']) :
    (recurPrep e w (strmfp ppath de.d_name ++ DIRSEPARATOR_STRING) zo).go = true
      ∧ (updSub (recurPrep e w (strmfp ppath de.d_name ++ DIRSEPARATOR_STRING) zo).world
          (strmfp (strmfp path0 de.d_name) pattern)
          (strmfp ppath de.d_name ++ DIRSEPARATOR_STRING)).2 = some 0 := by
  rw [recurLoop] at h
  have h1n : ¬ (de.d_type ≠ .dir) := by simp [h1]
  have h2n : ¬ (de.d_name = ['.'] ∨ de.d_name = ['.', '.']) := by
    intro hh
    rcases hh with hh | hh
    · exact h2.1 hh
    · exact h2.2 hh
  rw [if_neg h1n, if_neg h2n] at h
  simp only [] at h
  by_cases h3 : (recurPrep e w (strmfp ppath de.d_name ++ DIRSEPARATOR_STRING) zo).go = false
  · rw [if_pos h3] at h
    have := recurLoop_mono updSub e path0 ppath pattern zo hsub _ _ _ _ _ h
    omega
  · rw [if_neg h3] at h
    refine ⟨by simpa using h3, ?_⟩
    cases hs : updSub
        (recurPrep e w (strmfp ppath de.d_name ++ DIRSEPARATOR_STRING) zo).world
        (strmfp (strmfp path0 de.d_name) pattern)
        (strmfp ppath de.d_name ++ DIRSEPARATOR_STRING) with
    | mk w1 o =>
      rw [hs] at h
      cases o with
      | none => simp at h
      | some err =>
        have h4 := hsub _ _ _ _ _ hs
        have h5 := recurLoop_mono updSub e path0 ppath pattern zo hsub _ _ _ _ _ h
        have : err = 0 := by omega
        rw [this]

/-- The preparation of a target subdirectory goes through only when the
removal of a conflicting entry and the creation of the directory, where they
are called, report no failure. -/
theorem recurPrep_go (e : Env) (w : World) (path2 : CStr) (zo : zapOpts)
    (h : (recurPrep e w path2 zo).go = true) :
    (e.test = false → exists_ w.disk path2 = true → is_directory w.disk path2 = false →
        (zapFile w path2 zo).2 = 0)
      ∧ (e.test = false → e.copyempty = true → exists_ w.disk path2 = true →
          is_directory w.disk path2 = false →
          (mkdirp (zapFile w path2 zo).1 path2 DIRMODE).2 = 0)
      ∧ (e.test = false → e.copyempty = true → exists_ w.disk path2 = false →
          (mkdirp w path2 DIRMODE).2 = 0) := by
  refine ⟨?_, ?_, ?_⟩
  · intro ht hx hd
    by_contra hz
    simp [recurPrep, ht, hx, hd, hz] at h
  · intro ht hc hx hd
    by_contra hz
    by_cases hf : (zapFile w path2 zo).2 = 0
    · simp [recurPrep, recurCreate, ht, hx, hd, hf, hc, hz] at h
    · simp [recurPrep, ht, hx, hd, hf] at h
  · intro ht hc hx
    by_contra hz
    simp [recurPrep, recurCreate, ht, hx, hc, hz] at h

theorem updateallEnd_count (b : Bool) (ppath path0 : CStr) (w : World) (n : Int) (w2 : World)
    (r : Int) (h : updateallEnd b ppath path0 (w, some n) = (w2, some r)) : r = n := by
  unfold updateallEnd at h
  simp only [] at h
  split at h
  · simp only [Prod.mk.injEq, Option.some.injEq] at h
    exact h.2.symm
  · simp only [Prod.mk.injEq, Option.some.injEq] at h
    exact h.2.symm

theorem updateallEnd_some (b : Bool) (ppath path0 : CStr) (r0 : World × Option Int)
    (w2 : World) (r : Int) (h : updateallEnd b ppath path0 r0 = (w2, some r)) :
    ∃ (w1 : World), r0 = (w1, some r) := by
  obtain ⟨w1, o⟩ := r0
  cases o with
  | none => simp [updateallEnd] at h
  | some n =>
    have := updateallEnd_count b ppath path0 w1 n w2 r h
    exact ⟨w1, by rw [this]⟩

theorem erasePhase_mono (e : Env) (fuel : Nat) (path0 p2 pattern : CStr) (zo : zapOpts)
    (w : World) (n : Int) (w2 : World) (r : Int)
    (h : erasePhase e fuel path0 p2 pattern zo w n = (w2, some r)) : n ≤ r := by
  unfold erasePhase at h
  by_cases he : e.iErase = true
  · rw [if_pos he] at h
    cases ho : opendir w.disk p2 with
    | err er =>
      simp only [ho, Prod.mk.injEq, Option.some.injEq] at h
      omega
    | ok ents =>
      simp only [ho] at h
      exact eraseLoop_mono _ _ _ _ _ _ _ _ _ _ _ h
  · rw [if_neg he] at h
    simp only [Prod.mk.injEq, Option.some.injEq] at h
    omega

theorem recurPhase_mono (updSub : World → CStr → CStr → World × Option Int) (e : Env)
    (path0 ppath pattern : CStr) (zo : zapOpts) (b : Bool)
    (hsub : ∀ (w1 : World) (q1 q2 : CStr) (w2 : World) (r : Int),
      updSub w1 q1 q2 = (w2, some r) → 0 ≤ r)
    (w : World) (n : Int) (w2 : World) (r : Int)
    (h : recurPhase updSub e path0 ppath pattern zo b (w, some n) = (w2, some r)) : n ≤ r := by
  unfold recurPhase at h
  simp only [] at h
  by_cases hr : e.iRecur = true
  · rw [if_pos hr] at h
    cases ho : opendir w.disk path0 with
    | err er =>
      simp only [ho, Prod.mk.injEq, Option.some.injEq] at h
      omega
    | ok ents =>
      simp only [ho] at h
      obtain ⟨w1, h1⟩ := updateallEnd_some _ _ _ _ _ _ h
      exact recurLoop_mono updSub e path0 ppath pattern zo hsub _ _ _ _ _ h1
  · rw [if_neg hr] at h
    have := updateallEnd_count _ _ _ _ _ _ _ h
    omega

/-- The count returned by `updateall` is never negative. -/
theorem updateall_nonneg (e : Env) (fuel : Nat) :
    ∀ (w : World) (p1 p2 : CStr) (w2 : World) (r : Int),
      updateall e fuel w p1 p2 = (w2, some r) → 0 ≤ r := by
  induction fuel with
  | zero =>
    intro w p1 p2 w2 r h
    simp [updateall] at h
  | succ fuel ih =>
    intro w p1 p2 w2 r h
    unfold updateall at h
    simp only [] at h
    cases ho : opendir w.disk (sourceSplit w.disk p1).1 with
    | err er =>
      simp only [ho, Prod.mk.injEq, Option.some.injEq] at h
      omega
    | ok ents =>
      simp only [ho] at h
      cases hs : scanLoop e fuel (sourceSplit w.disk p1).1 (targetSplit w.disk p1 p2).1
          (targetSplit w.disk p1 p2).2 (sourceSplit w.disk p1).2 ents w 0 with
      | mk w1 o =>
        rw [hs] at h
        cases o with
        | none => simp at h
        | some n1 =>
          simp only [] at h
          have h1 := scanLoop_mono _ _ _ _ _ _ _ _ _ _ _ hs
          cases hp : erasePhase e fuel (sourceSplit w.disk p1).1 p2 (sourceSplit w.disk p1).2
              ⟨true, e.test, e.iRecur, false, e.force⟩ w1 n1 with
          | mk w3 o3 =>
            rw [hp] at h
            cases o3 with
            | none => simp [recurPhase] at h
            | some n2 =>
              have h2 := erasePhase_mono _ _ _ _ _ _ _ _ _ _ hp
              have h3 := recurPhase_mono _ e _ _ _ _ _
                (fun a b c d f hh => ih a b c d f hh) _ _ _ _ h
              omega

/-- C12: the count that `updateall` returns is never negative, and when it
is 0: every call of `update` or `update_link` made by the scan returned 0;
every entry that the erase mode had to delete could be examined, was of a
supported kind and its `zapDirM` or `zapFileM` call returned 0; and for every
subdirectory of the recursive mode the removal of a conflicting entry and the
creation of the target directory, where they were called, returned 0 and the
recursive call of `updateall` returned 0. Each call is taken in the world
that the loop reached after the entries before it. -/
theorem updateall_failure_count (e : Env) (fuel : Nat) (w : World) (p1 p2 : CStr)
    (path0 pattern ppath : CStr) (pname : Option CStr) (w2 : World) (n : Int)
    (hsrc : sourceSplit w.disk p1 = (path0, pattern))
    (htgt : targetSplit w.disk p1 p2 = (ppath, pname))
    (h : updateall e (fuel + 1) w p1 p2 = (w2, some n)) :
    0 ≤ n ∧ (n = 0 →
      ∃ (ents : List Dirent) (ws we : World),
        opendir w.disk path0 = .ok ents
        ∧ scanLoop e fuel path0 ppath pname pattern ents w 0 = (ws, some 0)
        ∧ erasePhase e fuel path0 p2 pattern ⟨true, e.test, e.iRecur, false, e.force⟩ ws 0
            = (we, some 0)
        ∧ (∀ (pre : List Dirent) (de : Dirent) (rest : List Dirent) (wm : World) (nm : Int),
            ents = pre ++ de :: rest →
            scanLoop e fuel path0 ppath pname pattern pre w 0 = (wm, some nm) →
            de.d_type = .reg ∨ de.d_type = .lnk →
            e.fnmatch pattern de.d_name e.iFnmFlag = true →
            (if de.d_type = .lnk then
                update_link e fuel wm (strmfp path0 de.d_name) (targetPath ppath pname de.d_name)
              else update e fuel wm (strmfp path0 de.d_name)
                (targetPath ppath pname de.d_name)).2 = some 0)
        ∧ (e.iErase = true →
            ∀ (ents2 : List Dirent) (path2 : CStr), opendir ws.disk p2 = .ok ents2 →
            realpath ws.disk p2 = some path2 →
            ∀ (pre : List Dirent) (de : Dirent) (rest : List Dirent) (wm : World) (nm : Int),
            ents2 = pre ++ de :: rest →
            eraseLoop e fuel path0 path2 pattern ⟨true, e.test, e.iRecur, false, e.force⟩ pre ws 0
              = (wm, some nm) →
            de.d_name ≠ ['.'] ∧ de.d_name ≠ ['.', '.'] →
            e.fnmatch pattern de.d_name e.iFnmFlag = true →
            access wm.disk (strmfp path0 de.d_name) = -1 →
            ∃ (sStat : Stat), lstat wm.disk (strmfp path2 de.d_name) = .ok sStat
              ∧ (de.d_type = .dir ∨ de.d_type = .lnk ∨ de.d_type = .reg)
              ∧ (de.d_type = .dir →
                  (zapDirM fuel wm (strmfp path2 de.d_name) sStat.st_mode
                    ⟨true, e.test, e.iRecur, false, e.force⟩).2 = some 0)
              ∧ (de.d_type = .lnk ∨ de.d_type = .reg →
                  (zapFileM wm (strmfp path2 de.d_name) sStat.st_mode
                    ⟨true, e.test, e.iRecur, false, e.force⟩).2 = 0))
        ∧ (e.iRecur = true →
            ∃ (ents3 : List Dirent), opendir we.disk path0 = .ok ents3
            ∧ ∀ (pre : List Dirent) (de : Dirent) (rest : List Dirent) (wm : World) (nm : Int),
              ents3 = pre ++ de :: rest →
              recurLoop (fun w3 q1 q2 => updateall e fuel w3 q1 q2) e path0 ppath pattern
                ⟨true, e.test, e.iRecur, false, e.force⟩ pre we 0 = (wm, some nm) →
              de.d_type = .dir →
              de.d_name ≠ ['.'] ∧ de.d_name ≠ ['.', '.'] →
              (e.test = false →
                  exists_ wm.disk (strmfp ppath de.d_name ++ DIRSEPARATOR_STRING) = true →
                  is_directory wm.disk (strmfp ppath de.d_name ++ DIRSEPARATOR_STRING) = false →
                  (zapFile wm (strmfp ppath de.d_name ++ DIRSEPARATOR_STRING)
                    ⟨true, e.test, e.iRecur, false, e.force⟩).2 = 0)
              ∧ (e.test = false → e.copyempty = true →
                  exists_ wm.disk (strmfp ppath de.d_name ++ DIRSEPARATOR_STRING) = true →
                  is_directory wm.disk (strmfp ppath de.d_name ++ DIRSEPARATOR_STRING) = false →
                  (mkdirp (zapFile wm (strmfp ppath de.d_name ++ DIRSEPARATOR_STRING)
                      ⟨true, e.test, e.iRecur, false, e.force⟩).1
                    (strmfp ppath de.d_name ++ DIRSEPARATOR_STRING) DIRMODE).2 = 0)
              ∧ (e.test = false → e.copyempty = true →
                  exists_ wm.disk (strmfp ppath de.d_name ++ DIRSEPARATOR_STRING) = false →
                  (mkdirp wm (strmfp ppath de.d_name ++ DIRSEPARATOR_STRING) DIRMODE).2 = 0)
              ∧ (updateall e fuel
                  (recurPrep e wm (strmfp ppath de.d_name ++ DIRSEPARATOR_STRING)
                    ⟨true, e.test, e.iRecur, false, e.force⟩).world
                  (strmfp (strmfp path0 de.d_name) pattern)
                  (strmfp ppath de.d_name ++ DIRSEPARATOR_STRING)).2 = some 0)) := by
  refine ⟨updateall_nonneg e (fuel + 1) w p1 p2 w2 n h, ?_⟩
  intro hn
  subst hn
  have hsub : ∀ (w1 : World) (q1 q2 : CStr) (w3 : World) (r : Int),
      (fun w3 q1 q2 => updateall e fuel w3 q1 q2) w1 q1 q2 = (w3, some r) → 0 ≤ r :=
    fun a b c d f hh => updateall_nonneg e fuel a b c d f hh
  unfold updateall at h
  simp only [hsrc, htgt] at h
  cases ho : opendir w.disk path0 with
  | err er =>
    simp [ho] at h
  | ok ents =>
    simp only [ho] at h
    cases hs : scanLoop e fuel path0 ppath pname pattern ents w 0 with
    | mk ws o =>
      rw [hs] at h
      cases o with
      | none => simp at h
      | some n1 =>
        simp only [] at h
        have m1 := scanLoop_mono _ _ _ _ _ _ _ _ _ _ _ hs
        cases hp : erasePhase e fuel path0 p2 pattern
            ⟨true, e.test, e.iRecur, false, e.force⟩ ws n1 with
        | mk we o3 =>
          rw [hp] at h
          cases o3 with
          | none => simp [recurPhase] at h
          | some n2 =>
            have m2 := erasePhase_mono _ _ _ _ _ _ _ _ _ _ hp
            have m3 := recurPhase_mono _ e _ _ _ _ _ hsub _ _ _ _ h
            have e2 : n2 = 0 := by omega
            have e1 : n1 = 0 := by omega
            subst e2
            subst e1
            refine ⟨ents, ws, we, rfl, hs, hp, ?_, ?_, ?_⟩
            · intro pre de rest wm nm hents hpre hty hfn
              have happ := scanLoop_append e fuel path0 ppath pname pattern pre (de :: rest) w 0
              rw [hpre, ← hents, hs] at happ
              have k1 := scanLoop_mono _ _ _ _ _ _ _ _ _ _ _ hpre
              have k2 := scanLoop_mono _ _ _ _ _ _ _ _ _ _ _ happ.symm
              obtain ⟨w1, err, hc, hz⟩ := scanLoop_head e fuel path0 ppath pname pattern de rest
                wm nm ws 0 happ.symm hty hfn
              rw [hc]
              by_cases herr : err = 0
              · rw [herr]
              · have := hz herr
                omega
            · intro hE ents2 path2 ho2 hrp pre de rest wm nm hents hpre hnm hfn hacc
              unfold erasePhase at hp
              rw [if_pos hE] at hp
              simp only [ho2, hrp] at hp
              have happ := eraseLoop_append e fuel path0 path2 pattern
                ⟨true, e.test, e.iRecur, false, e.force⟩ pre (de :: rest) ws 0
              rw [hpre, ← hents, hp] at happ
              have k1 := eraseLoop_mono _ _ _ _ _ _ _ _ _ _ _ hpre
              have k2 := eraseLoop_mono _ _ _ _ _ _ _ _ _ _ _ happ.symm
              have k3 : nm = 0 := by omega
              subst k3
              exact eraseLoop_head e fuel path0 path2 pattern _ de rest wm 0 we happ.symm
                hnm hfn hacc
            · intro hR
              unfold recurPhase at h
              simp only [] at h
              rw [if_pos hR] at h
              cases ho3 : opendir we.disk path0 with
              | err er =>
                simp [ho3] at h
              | ok ents3 =>
                simp only [ho3] at h
                obtain ⟨w4, h4⟩ := updateallEnd_some _ _ _ _ _ _ h
                refine ⟨ents3, rfl, ?_⟩
                intro pre de rest wm nm hents hpre hty hnm
                have happ := recurLoop_append (fun w3 q1 q2 => updateall e fuel w3 q1 q2) e path0
                  ppath pattern ⟨true, e.test, e.iRecur, false, e.force⟩ pre (de :: rest) we 0
                rw [hpre, ← hents, h4] at happ
                have k1 := recurLoop_mono _ e path0 ppath pattern _ hsub _ _ _ _ _ hpre
                have k2 := recurLoop_mono _ e path0 ppath pattern _ hsub _ _ _ _ _ happ.symm
                have k3 : nm = 0 := by omega
                subst k3
                obtain ⟨g1, g2⟩ := recurLoop_head _ e path0 ppath pattern _ hsub de rest wm 0 w4
                  happ.symm hty hnm
                obtain ⟨q1, q2, q3⟩ := recurPrep_go e wm _ _ g1
                exact ⟨q1, q2, q3, g2⟩

theorem update_returns (e : Env) (fuel : Nat) (w : World) (p1 p2 : CStr)
    (hf : PATH_MAX < fuel) : ∃ (w2 : World) (r : Int), update e fuel w p1 p2 = (w2, some r) := by
  unfold update
  split
  · exact ⟨_, _, rfl⟩
  · split
    · exact ⟨_, _, rfl⟩
    · cases hl : lstat w.disk p2 with
      | err er => exact ⟨_, _, rfl⟩
      | ok st =>
        simp only []
        split
        · obtain ⟨wz, rz, hz, _⟩ := zapDirM_returns ⟨true, e.test, true, false, e.force⟩ fuel w p2
            st.st_mode (by omega) (by omega)
          rw [hz]
          simp only []
          split
          · exact ⟨_, _, rfl⟩
          · exact ⟨_, _, rfl⟩
        · split
          · split
            · exact ⟨_, _, rfl⟩
            · exact ⟨_, _, rfl⟩
          · exact ⟨_, _, rfl⟩

theorem update_link_returns (e : Env) (fuel : Nat) (w : World) (p1 p2 : CStr)
    (hf : PATH_MAX < fuel) :
    ∃ (w2 : World) (r : Int), update_link e fuel w p1 p2 = (w2, some r) := by
  unfold update_link
  simp only []
  split
  · exact ⟨_, _, rfl⟩
  · split
    · exact ⟨_, _, rfl⟩
    · split
      · exact ⟨_, _, rfl⟩
      · cases hl : lstat w.disk p2 with
        | err er => exact ⟨_, _, rfl⟩
        | ok st =>
          simp only []
          by_cases hd : S_ISDIR st.st_mode = true
          · rw [if_pos hd]
            obtain ⟨wz, rz, hz, _⟩ := zapDirM_returns ⟨true, e.test, true, false, e.force⟩ fuel
              (if (e.force && !hasWriteBit st.st_mode) = true then
                (chmod w p2 (orWrite st.st_mode)).1 else w) p2
              st.st_mode (by omega) (by omega)
            rw [hz]
            simp only []
            split
            · exact ⟨_, _, rfl⟩
            · exact ⟨_, _, rfl⟩
          · rw [if_neg hd]
            repeat' (first | exact ⟨_, _, rfl⟩ | split)

theorem scanLoop_returns (e : Env) (fuel : Nat) (path0 ppath : CStr) (pname : Option CStr)
    (pattern : CStr) (hf : PATH_MAX < fuel) (ents : List Dirent) :
    ∀ (w : World) (n : Int),
      ∃ (w2 : World) (r : Int),
        scanLoop e fuel path0 ppath pname pattern ents w n = (w2, some r) := by
  induction ents with
  | nil =>
    intro w n
    exact ⟨w, n, rfl⟩
  | cons de rest ih =>
    intro w n
    rw [scanLoop]
    split
    · exact ih _ _
    · split
      · exact ih _ _
      · have hc : ∃ (w1 : World) (err : Int),
            (if de.d_type = .lnk then
                update_link e fuel w (strmfp path0 de.d_name) (targetPath ppath pname de.d_name)
              else update e fuel w (strmfp path0 de.d_name) (targetPath ppath pname de.d_name))
              = (w1, some err) := by
          split
          · exact update_link_returns e fuel w _ _ hf
          · exact update_returns e fuel w _ _ hf
        obtain ⟨w1, err, hc⟩ := hc
        rw [hc]
        exact ih _ _

theorem eraseLoop_returns (e : Env) (fuel : Nat) (path0 path2 pattern : CStr) (zo : zapOpts)
    (hf : PATH_MAX < fuel) (ents : List Dirent) :
    ∀ (w : World) (n : Int),
      ∃ (w2 : World) (r : Int),
        eraseLoop e fuel path0 path2 pattern zo ents w n = (w2, some r) := by
  induction ents with
  | nil =>
    intro w n
    exact ⟨w, n, rfl⟩
  | cons de rest ih =>
    intro w n
    rw [eraseLoop]
    split
    · exact ih _ _
    · split
      · exact ih _ _
      · split
        · cases hl : lstat w.disk (strmfp path2 de.d_name) with
          | err er => exact ih _ _
          | ok sStat =>
            cases hk : de.d_type with
            | dir =>
              obtain ⟨wz, rz, hz, _⟩ := zapDirM_returns zo fuel w (strmfp path2 de.d_name)
                sStat.st_mode (by omega) (by omega)
              simp only [hz]
              exact ih _ _
            | _ => exact ih _ _
        · exact ih _ _

/-- Without the recursive mode `updateall` returns a count for every input
and every world, given enough fuel. -/
theorem updateall_returns (e : Env) (fuel : Nat) (w : World) (p1 p2 : CStr)
    (hr : e.iRecur = false) (hf : PATH_MAX < fuel) :
    ∃ (w2 : World) (n : Int), updateall e (fuel + 1) w p1 p2 = (w2, some n) := by
  unfold updateall
  simp only []
  cases ho : opendir w.disk (sourceSplit w.disk p1).1 with
  | err er => exact ⟨_, _, rfl⟩
  | ok ents =>
    simp only []
    obtain ⟨w1, n1, hs⟩ := scanLoop_returns e fuel (sourceSplit w.disk p1).1
      (targetSplit w.disk p1 p2).1 (targetSplit w.disk p1 p2).2 (sourceSplit w.disk p1).2 hf
      ents w 0
    rw [hs]
    simp only []
    have hp : ∃ (w3 : World) (n3 : Int),
        erasePhase e fuel (sourceSplit w.disk p1).1 p2 (sourceSplit w.disk p1).2
          ⟨true, e.test, e.iRecur, false, e.force⟩ w1 n1 = (w3, some n3) := by
      unfold erasePhase
      split
      · cases ho2 : opendir w1.disk p2 with
        | err er => exact ⟨_, _, rfl⟩
        | ok ents2 => exact eraseLoop_returns e fuel _ _ _ _ hf ents2 w1 n1
      · exact ⟨_, _, rfl⟩
    obtain ⟨w3, n3, hp⟩ := hp
    rw [hp]
    unfold recurPhase
    simp only [hr, Bool.false_eq_true, if_false]
    unfold updateallEnd
    simp only []
    split
    · exact ⟨_, _, rfl⟩
    · exact ⟨_, _, rfl⟩

theorem updateall_failure_count_witness :
    (sourceSplit wSync.disk ['s'] = (['s'], PATTERN_ALL)
        ∧ targetSplit wSync.disk ['s'] ['d'] = (['d'], none)
        ∧ updateall recurEraseEnv (4 + 1) wSync ['s'] ['d']
            = ((updateall recurEraseEnv (4 + 1) wSync ['s'] ['d']).1, some 0)
        ∧ (updateall recurEraseEnv (4 + 1) wSync ['s'] ['d']).1.disk.nodes.map Prod.fst
            = [[], [['s']], [['s'], ['a']], [['s'], ['s', 'u', 'b']],
                [['s'], ['s', 'u', 'b'], ['c']], [['d']], [['d'], ['a']],
                [['d'], ['s', 'u', 'b']], [['d'], ['s', 'u', 'b'], ['c']]])
      ∧ (0 : Int) ≤ 0 :=
  ⟨by decide,
   (updateall_failure_count recurEraseEnv 4 wSync ['s'] ['d'] ['s'] PATTERN_ALL ['d'] none
      (updateall recurEraseEnv (4 + 1) wSync ['s'] ['d']).1 0
      (by decide) (by decide) (by decide)).1⟩

/-! ### The directory test -/

/-- The test `st_mode & S_IFDIR` is true for the modes of directories, block
devices and sockets, and for no other. -/
theorem hasDirBit_st_mode (n : Node) :
    hasDirBit n.st_mode = decide (n.kind = .dir ∨ n.kind = .blk ∨ n.kind = .sock) := by
  unfold hasDirBit Node.st_mode
  rw [Nat.testBit_to_div_mod]
  have h : n.perm % 4096 < 4096 := Nat.mod_lt _ (by decide)
  cases n.kind <;> simp only [Kind.fmt] <;> simp <;> omega

/-- For a name without wildcard, `is_directory` is true exactly when `lstat`
finds an entity that is a directory, a block device or a socket. -/
theorem is_directory_kinds (d : Disk) (name : CStr) (h1 : '?' ∉ name) (h2 : '*' ∉ name) :
    is_directory d name = true
      ↔ ∃ (k : Key) (n : Node), entry d name false = .ok (k, n)
          ∧ (n.kind = .dir ∨ n.kind = .blk ∨ n.kind = .sock) := by
  unfold is_directory lstat
  simp only [strchr, h1, h2, decide_False, Bool.or_self, Bool.false_eq_true, if_false]
  cases he : entry d name false with
  | err er => simp
  | ok kn =>
    obtain ⟨k, n⟩ := kn
    simp only [Node.stat, hasDirBit_st_mode]
    simp only [decide_eq_true_eq]
    constructor
    · intro h
      exact ⟨k, n, ⟨rfl, h⟩⟩
    · rintro ⟨k1, n1, h3, h4⟩
      simp only [Res.ok.injEq, Prod.mk.injEq] at h3
      rw [h3.2]
      exact h4

/-- C21, evaluated at the failing inputs: `b` is a block device and `k` a
socket; `lstat` reports modes for which `S_ISDIR` is false, and `is_directory`
answers true for both. It answers false for the character device `c` and the
FIFO `f`. -/
theorem is_directory_accepts_block_device_and_socket :
    lstat wDevice.disk ['b'] = .ok ⟨0o060660, 100, 0⟩ ∧ S_ISDIR 0o060660 = false
      ∧ is_directory wDevice.disk ['b'] = true
      ∧ lstat wDevice.disk ['k'] = .ok ⟨0o140755, 100, 0⟩ ∧ S_ISDIR 0o140755 = false
      ∧ is_directory wDevice.disk ['k'] = true
      ∧ is_directory wDevice.disk ['c'] = false ∧ is_directory wDevice.disk ['f'] = false := by
  decide

/-! ### Copying a link -/

/-- C22, evaluated at the failing input: the source `s/l` is a symbolic link
with the one-character target `t`, and the buffer `target1` holds four bytes
`#` on entry. `readlink` writes `t` at the start of the buffer without a
terminating NUL, `update_link` returns 0, and the link it creates at `d/l` has
the target `t###`. -/
theorem update_link_appends_buffer_bytes :
    readlink wLink.disk pSrcL = .ok ['t']
      ∧ (update_link junkEnv 3 wLink pSrcL pDstL).2 = some 0
      ∧ (update_link junkEnv 3 wLink pSrcL pDstL).1.calls
          = [.lutimes pDstL 5, .lchmod pDstL 0o120777, .symlink ['t', '#', '#', '#'] pDstL]
      ∧ lookup [['d'], ['l']] (update_link junkEnv 3 wLink pSrcL pDstL).1.disk.nodes
          = some (linkNode 5 ['t', '#', '#', '#']) := by
  decide

/-! ### The position of the file name -/

theorem last_occurrence (c : Char) (s : CStr) (h : c ∈ s) :
    ∃ (dir name : CStr), s = dir ++ c :: name ∧ c ∉ name := by
  induction s with
  | nil => simp at h
  | cons x xs ih =>
    by_cases hx : c ∈ xs
    · obtain ⟨dir, name, h1, h2⟩ := ih hx
      exact ⟨x :: dir, name, by rw [h1]; rfl, h2⟩
    · rcases List.mem_cons.mp h with h1 | h1
      · exact ⟨[], xs, by rw [h1]; rfl, hx⟩
      · exact absurd h1 hx

/-- C24: `strgfn` returns the position just after the last separator when
there is one, otherwise just after the last `:` when there is one, otherwise
0; the position is within the pathname, the text from it on has no separator
and is the name that `strsfp` returns. -/
theorem strgfn_rule :
    (∀ dir name : CStr, DIRSEPARATOR_CHAR ∉ name →
        strgfn (dir ++ DIRSEPARATOR_CHAR :: name) = dir.length + 1)
      ∧ (∀ pre name : CStr, DIRSEPARATOR_CHAR ∉ pre → DIRSEPARATOR_CHAR ∉ name → ':' ∉ name →
          strgfn (pre ++ ':' :: name) = pre.length + 1)
      ∧ (∀ p : CStr, DIRSEPARATOR_CHAR ∉ p → ':' ∉ p → strgfn p = 0)
      ∧ (∀ p : CStr, strgfn p ≤ p.length ∧ DIRSEPARATOR_CHAR ∉ p.drop (strgfn p)
          ∧ p.drop (strgfn p) = (strsfp p).2) := by
  have hA : ∀ dir name : CStr, DIRSEPARATOR_CHAR ∉ name →
      strgfn (dir ++ DIRSEPARATOR_CHAR :: name) = dir.length + 1 := by
    intro dir name hn
    simp [strgfn, strrchr_append dir name DIRSEPARATOR_CHAR hn]
  have hB : ∀ pre name : CStr, DIRSEPARATOR_CHAR ∉ pre → DIRSEPARATOR_CHAR ∉ name →
      ':' ∉ name → strgfn (pre ++ ':' :: name) = pre.length + 1 := by
    intro pre name h1 h2 h3
    have hs : DIRSEPARATOR_CHAR ∉ pre ++ ':' :: name := by
      simp only [List.mem_append, List.mem_cons, not_or]
      exact ⟨h1, by decide, h2⟩
    simp [strgfn, strrchr_none _ DIRSEPARATOR_CHAR hs, strrchr_append pre name ':' h3]
  have hC : ∀ p : CStr, DIRSEPARATOR_CHAR ∉ p → ':' ∉ p → strgfn p = 0 := by
    intro p h1 h2
    simp [strgfn, strrchr_none p DIRSEPARATOR_CHAR h1, strrchr_none p ':' h2]
  have hname : ∀ p : CStr, p.drop (strgfn p) = (strsfp p).2 := by
    intro p
    unfold strgfn strsfp
    cases hs : strrchr p '/' with
    | some i =>
      simp only [DIRSEPARATOR_CHAR, hs]
      repeat' (first | rfl | split)
    | none =>
      cases hc : strrchr p ':' with
      | some i =>
        simp only [DIRSEPARATOR_CHAR, hs, hc]
        repeat' (first | rfl | split)
      | none => simp [DIRSEPARATOR_CHAR, hs, hc]
  refine ⟨hA, hB, hC, ?_⟩
  intro p
  refine ⟨?_, ?_, hname p⟩
  · by_cases h1 : DIRSEPARATOR_CHAR ∈ p
    · obtain ⟨dir, name, hp, hn⟩ := last_occurrence _ p h1
      rw [hp, hA dir name hn]
      simp
    · by_cases h2 : ':' ∈ p
      · obtain ⟨pre, name, hp, hn⟩ := last_occurrence _ p h2
        have h3 : DIRSEPARATOR_CHAR ∉ pre := by
          intro hh
          apply h1
          rw [hp]
          simp [hh]
        have h4 : DIRSEPARATOR_CHAR ∉ name := by
          intro hh
          apply h1
          rw [hp]
          simp [hh]
        rw [hp, hB pre name h3 h4 hn]
        simp
      · rw [hC p h1 h2]
        omega
  · by_cases h1 : DIRSEPARATOR_CHAR ∈ p
    · obtain ⟨dir, name, hp, hn⟩ := last_occurrence _ p h1
      rw [hp, hA dir name hn]
      have : (dir ++ DIRSEPARATOR_CHAR :: name).drop (dir.length + 1) = name := by
        rw [← List.drop_drop]
        simp
      rw [this]
      exact hn
    · intro hh
      exact h1 (List.mem_of_mem_drop hh)

theorem strgfn_rule_witness :
    strgfn ['/', 'a', '/', 'b', ':', 'c'] = 3 ∧ strgfn ['c', ':', 'x', ':', 'y'] = 4
      ∧ strgfn ['n'] = 0 :=
  ⟨strgfn_rule.1 ['/', 'a'] ['b', ':', 'c'] (by decide),
   strgfn_rule.2.1 ['c', ':', 'x'] ['y'] (by decide) (by decide) (by decide),
   strgfn_rule.2.2.1 ['n'] (by decide) (by decide)⟩

/-! ### Forcing the deletion of a read-only entry -/

theorem unlink_calls (w : World) (p : CStr) : (unlink w p).1.calls = .unlink p :: w.calls := by
  unfold unlink
  repeat' (first | rfl | split)

theorem chmod_calls (w : World) (p : CStr) (mode : Nat) :
    (chmod w p mode).1.calls = .chmod p mode :: w.calls := by
  unfold chmod
  repeat' (first | rfl | split)

theorem unlink_keeps_others (w : World) (p : CStr) (k : Key) (n : Node)
    (h : lookup k (unlink w p).1.disk.nodes = some n) : lookup k w.disk.nodes = some n := by
  unfold unlink at h
  cases he : entry w.disk p false with
  | err er =>
    simp only [he] at h
    exact h
  | ok kn =>
    obtain ⟨k1, n1⟩ := kn
    simp only [he] at h
    by_cases hd : n1.kind = .dir
    · rw [if_pos hd] at h
      exact h
    · rw [if_neg hd] at h
      by_cases hf : Fault.unlink k1 ∈ w.disk.faults
      · rw [if_pos hf] at h
        exact h
      · rw [if_neg hf] at h
        simp only [World.del, World.log] at h
        by_cases hk : k = k1
        · rw [hk, lookup_remove_same] at h
          exact absurd h (by simp)
        · rw [lookup_remove_other k1 k _ hk] at h
          exact h

/-- C28: for an entry that is not a directory, outside the no-exec mode.
With the force flag and a mode without the owner write bit, `zapFileM` calls
`chmod` first; when that fails it returns 1 and `unlink` is not called,
otherwise `unlink` follows. In every other case the only call is `unlink`;
without the force flag every entity left on the disk is as it was.
`zapFile` on a path that `lstat` reports missing returns 0 in the same
world. -/
theorem zapFileM_forcing (w : World) (path : CStr) (iMode : Nat) (zo : zapOpts)
    (hnd : S_ISDIR iMode = false) (hexec : zo.noexec = false) :
    (zo.force = true ∧ hasWriteBit iMode = false →
        ((chmod w path (orWrite iMode)).2.rc ≠ 0 →
            zapFileM w path iMode zo = ((chmod w path (orWrite iMode)).1, 1)
              ∧ (zapFileM w path iMode zo).1.calls = .chmod path (orWrite iMode) :: w.calls)
          ∧ ((chmod w path (orWrite iMode)).2.rc = 0 →
              zapFileM w path iMode zo
                  = ((unlink (chmod w path (orWrite iMode)).1 path).1,
                     -(unlink (chmod w path (orWrite iMode)).1 path).2.rc)
                ∧ (zapFileM w path iMode zo).1.calls
                    = .unlink path :: .chmod path (orWrite iMode) :: w.calls))
      ∧ (¬ (zo.force = true ∧ hasWriteBit iMode = false) →
          zapFileM w path iMode zo = ((unlink w path).1, -(unlink w path).2.rc)
            ∧ (zapFileM w path iMode zo).1.calls = .unlink path :: w.calls)
      ∧ (zo.force = false →
          ∀ (k : Key) (n : Node), lookup k (zapFileM w path iMode zo).1.disk.nodes = some n →
            lookup k w.disk.nodes = some n)
      ∧ (lstat w.disk path = .err .ENOENT → zapFile w path zo = (w, 0)) := by
  have hneg : ∀ (h : ¬ (zo.force = true ∧ hasWriteBit iMode = false)),
      zapFileM w path iMode zo = ((unlink w path).1, -(unlink w path).2.rc) := by
    intro h
    unfold zapFileM
    have hc : ¬ ((zo.force && !hasWriteBit iMode) = true) := by
      simpa using h
    simp only [hnd, hexec, Bool.false_eq_true, if_false]
    rw [if_neg hc]
  refine ⟨?_, ?_, ?_, ?_⟩
  · intro hf
    have hc : (zo.force && !hasWriteBit iMode) = true := by simp [hf.1, hf.2]
    refine ⟨?_, ?_⟩
    · intro hr
      have hz : zapFileM w path iMode zo = ((chmod w path (orWrite iMode)).1, 1) := by
        unfold zapFileM
        simp only [hnd, hexec, Bool.false_eq_true, if_false]
        rw [if_pos hc]
        have hr1 : (chmod w path (orWrite iMode)).2.rc = -1 := by
          rcases rc_range (chmod w path (orWrite iMode)).2 with h | h
          · exact absurd h hr
          · exact h
        simp [hr1]
      rw [hz]
      exact ⟨rfl, chmod_calls w path _⟩
    · intro hr
      have hz : zapFileM w path iMode zo
          = ((unlink (chmod w path (orWrite iMode)).1 path).1,
             -(unlink (chmod w path (orWrite iMode)).1 path).2.rc) := by
        unfold zapFileM
        simp only [hnd, hexec, Bool.false_eq_true, if_false]
        rw [if_pos hc]
        simp [hr]
      rw [hz]
      refine ⟨rfl, ?_⟩
      rw [unlink_calls, chmod_calls]
  · intro h
    rw [hneg h]
    exact ⟨rfl, unlink_calls w path⟩
  · intro hf k n hl
    have h : ¬ (zo.force = true ∧ hasWriteBit iMode = false) := by simp [hf]
    rw [hneg h] at hl
    exact unlink_keeps_others w path k n hl
  · intro hl
    simp [zapFile, hl]

theorem zapFileM_forcing_witness :
    (S_ISDIR 0o100444 = false ∧ zoForce.noexec = false
        ∧ lstat wReadOnly.disk pDstR = .ok ⟨0o100444, 5, 1⟩
        ∧ (zapFileM wReadOnly pDstR 0o100444 zoForce).2 = 0
        ∧ (zapFileM wReadOnly pDstR 0o100444 zoForce).1.calls
            = [.unlink pDstR, .chmod pDstR 0o100644]
        ∧ exists_ (zapFileM wReadOnly pDstR 0o100444 zoForce).1.disk pDstR = false)
      ∧ (zoForce.force = true ∧ hasWriteBit 0o100444 = false →
          ((chmod wReadOnly pDstR (orWrite 0o100444)).2.rc ≠ 0 →
              zapFileM wReadOnly pDstR 0o100444 zoForce
                  = ((chmod wReadOnly pDstR (orWrite 0o100444)).1, 1)
                ∧ (zapFileM wReadOnly pDstR 0o100444 zoForce).1.calls
                    = .chmod pDstR (orWrite 0o100444) :: wReadOnly.calls)
            ∧ ((chmod wReadOnly pDstR (orWrite 0o100444)).2.rc = 0 →
                zapFileM wReadOnly pDstR 0o100444 zoForce
                    = ((unlink (chmod wReadOnly pDstR (orWrite 0o100444)).1 pDstR).1,
                       -(unlink (chmod wReadOnly pDstR (orWrite 0o100444)).1 pDstR).2.rc)
                  ∧ (zapFileM wReadOnly pDstR 0o100444 zoForce).1.calls
                      = .unlink pDstR :: .chmod pDstR (orWrite 0o100444) :: wReadOnly.calls)) :=
  ⟨by decide, (zapFileM_forcing wReadOnly pDstR 0o100444 zoForce (by decide) (by decide)).1⟩

/-! ### Deleting in no-exec mode -/

theorem zapDirStep_noexec (zapSub : World → CStr → Nat → World × Option Int) (path : CStr)
    (zo : zapOpts) (h : zo.noexec = true) (hsub : ∀ w p m, (zapSub w p m).1 = w) (w : World)
    (de : Dirent) : (zapDirStep zapSub path zo w de).1 = w := by
  unfold zapDirStep
  cases lstat w.disk (NewPathName path de.d_name) with
  | err er => rfl
  | ok st =>
    cases hk : de.d_type with
    | dir =>
      simp only []
      split
      · rfl
      · exact hsub _ _ _
    | lnk => exact zapFileM_noexec w _ _ zo h
    | reg => exact zapFileM_noexec w _ _ zo h
    | _ => rfl

theorem zapDirLoop_flags (zapSub zapSub2 : World → CStr → Nat → World × Option Int)
    (path : CStr) (zo : zapOpts) (r c : Bool) (hsub : ∀ w p m, zapSub2 w p m = zapSub w p m)
    (ents : List Dirent) :
    ∀ (w : World) (n : Int),
      zapDirLoop zapSub2 path ⟨zo.verbose, zo.noexec, r, c, zo.force⟩ ents w n
        = zapDirLoop zapSub path zo ents w n := by
  induction ents with
  | nil =>
    intro w n
    rfl
  | cons de rest ih =>
    intro w n
    rw [zapDirLoop, zapDirLoop]
    cases lstat w.disk (NewPathName path de.d_name) with
    | err er => exact ih _ _
    | ok st =>
      have hz : zapFileM w (NewPathName path de.d_name) st.st_mode
            ⟨zo.verbose, zo.noexec, r, c, zo.force⟩
          = zapFileM w (NewPathName path de.d_name) st.st_mode zo := rfl
      cases hk : de.d_type with
      | dir =>
        simp only [hsub]
        split
        · exact ih _ _
        · cases zapSub w (NewPathName path de.d_name) st.st_mode with
          | mk w1 o =>
            cases o with
            | none => rfl
            | some iErr => exact ih _ _
      | lnk =>
        simp only [hz]
        exact ih _ _
      | reg =>
        simp only [hz]
        exact ih _ _
      | _ => exact ih _ _

theorem zapDirM_flags (zo : zapOpts) (r c : Bool) (fuel : Nat) :
    ∀ (w : World) (path : CStr) (m : Nat),
      zapDirM fuel w path m ⟨zo.verbose, zo.noexec, r, c, zo.force⟩ = zapDirM fuel w path m zo := by
  induction fuel with
  | zero =>
    intro w path m
    rfl
  | succ fuel ih =>
    intro w path m
    unfold zapDirM
    split
    · rfl
    · cases opendir w.disk path with
      | err er => rfl
      | ok ents =>
        simp only []
        rw [zapDirLoop_flags (fun w1 p m1 => zapDirM fuel w1 p m1 zo)
          (fun w1 p m1 => zapDirM fuel w1 p m1 ⟨zo.verbose, zo.noexec, r, c, zo.force⟩)
          path zo r c (fun w1 p m1 => ih w1 p m1) ents w 0]
        rfl

/-- C29: in no-exec mode `zapFileM` returns 0 for every entry that is not a
directory and leaves the world, call log included, as it was, and so does
`zapDirM`. On a directory that can be opened `zapDirM` still makes one round
for every entry read, and returns the sum of the counts of the rounds; the
round of a subdirectory is the recursive call of `zapDirM` on it. The result
of `zapDirM` is the same for every value of the recurse and case-fold
flags. -/
theorem zap_dry_run (zo : zapOpts) (h : zo.noexec = true) :
    (∀ (w : World) (path : CStr) (m : Nat),
        zapFileM w path m zo = (w, if S_ISDIR m then 1 else 0))
      ∧ (∀ (fuel : Nat) (w : World) (path : CStr) (m : Nat), (zapDirM fuel w path m zo).1 = w)
      ∧ (∀ (fuel : Nat) (w : World) (path : CStr) (m : Nat) (ents : List Dirent),
          S_ISDIR m = true → opendir w.disk path = .ok ents → PATH_MAX ≤ fuel + path.length →
          ∃ (c : Nat → Int),
            (∀ (i : Nat) (hi : i < ents.length),
              zapDirStep (fun w1 p m1 => zapDirM fuel w1 p m1 zo) path zo w (ents.get ⟨i, hi⟩)
                = (w, some (c i)))
            ∧ zapDirM (fuel + 1) w path m zo
                = (w, some (Finset.sum (Finset.range ents.length) c)))
      ∧ (∀ (zapSub : World → CStr → Nat → World × Option Int) (w : World) (path : CStr)
          (de : Dirent) (st : Stat), de.d_type = .dir →
          de.d_name ≠ ['.'] → de.d_name ≠ ['.', '.'] →
          lstat w.disk (NewPathName path de.d_name) = .ok st →
          zapDirStep zapSub path zo w de = zapSub w (NewPathName path de.d_name) st.st_mode)
      ∧ (∀ (fuel : Nat) (w : World) (path : CStr) (m : Nat) (r c : Bool),
          zapDirM fuel w path m ⟨zo.verbose, zo.noexec, r, c, zo.force⟩
            = zapDirM fuel w path m zo) := by
  refine ⟨?_, ?_, ?_, ?_, ?_⟩
  · intro w path m
    unfold zapFileM
    split
    · rfl
    · simp [h]
  · intro fuel w path m
    exact zapDirM_noexec zo h fuel w path m
  · intro fuel w path m ents hdir hopen hfuel
    have hshort := opendir_ok_short w.disk path ents hopen
    have hsub : ∀ (w1 : World) (p : CStr) (m1 : Nat), path.length < p.length →
        ∃ (w2 : World) (r : Int), zapDirM fuel w1 p m1 zo = (w2, some r) ∧ 0 ≤ r := by
      intro w1 p m1 hp
      exact zapDirM_returns zo fuel w1 p m1 (by omega) (by omega)
    obtain ⟨W, c, hW0, hstep, hloop⟩ := zapDirLoop_spec
      (fun w1 p m1 => zapDirM fuel w1 p m1 zo) path zo hsub ents w 0
      (opendir_names w.disk path ents hopen)
    have hW : ∀ i, i ≤ ents.length → W i = w := by
      intro i
      induction i with
      | zero => intro _; exact hW0
      | succ j ih =>
        intro hj
        have h1 := (hstep j (by omega)).1
        have h2 := zapDirStep_noexec (fun w1 p m1 => zapDirM fuel w1 p m1 zo) path zo h
          (fun w1 p m1 => zapDirM_noexec zo h fuel w1 p m1) (W j) (ents.get ⟨j, by omega⟩)
        rw [h1] at h2
        simp only [] at h2
        rw [h2]
        exact ih (by omega)
    refine ⟨c, ?_, ?_⟩
    · intro i hi
      have h1 := (hstep i hi).1
      rw [hW i (by omega), hW (i + 1) (by omega)] at h1
      exact h1
    · unfold zapDirM
      simp only [hdir, Bool.not_true, Bool.false_eq_true, if_false, hopen, hloop, zapDirEnd, h,
        if_true, zero_add, hW ents.length (le_refl _)]
  · intro zapSub w path de st hty h1 h2 hl
    unfold zapDirStep
    simp only [hl, hty]
    rw [if_neg]
    intro hh
    rcases hh with hh | hh
    · exact h1 hh
    · exact h2 hh
  · intro fuel w path m r c
    exact zapDirM_flags zo r c fuel w path m

theorem zap_dry_run_witness :
    (zoDry.noexec = true
        ∧ zapDirM (4096 + 1) wDeep ['t'] 0o040755 zoDry = (wDeep, some 1)
        ∧ zapDirM (4096 + 1) wDeep ['t'] 0o040755 ⟨true, true, true, true, false⟩
            = (wDeep, some 1))
      ∧ ∀ (w : World) (path : CStr) (m : Nat),
          zapFileM w path m zoDry = (w, if S_ISDIR m then 1 else 0) :=
  ⟨by decide, (zap_dry_run zoDry (by decide)).1⟩

/-! ### The scan of the source directory -/

/-- C25: with enough fuel for the calls to return, the scan loop of
`updateall` handles the entries in order, each in the world left by the entry
before: an entry that is a file or a link and whose name matches the pattern
is passed once to `update_link` (a link) or `update` (a file), whatever the
earlier calls returned; any other entry leaves the world as it is. The loop
returns the count it started with plus the number of calls that returned a
value other than 0. -/
theorem scanLoop_counts (e : Env) (fuel : Nat) (path0 ppath : CStr) (pname : Option CStr)
    (pattern : CStr) (hf : PATH_MAX < fuel) (ents : List Dirent) :
    ∀ (w : World) (n0 : Int),
      ∃ (W : Nat → World) (err : Nat → Int), W 0 = w
        ∧ (∀ (i : Nat) (h : i < ents.length),
            ((((ents.get ⟨i, h⟩).d_type = .reg ∨ (ents.get ⟨i, h⟩).d_type = .lnk)
                ∧ e.fnmatch pattern (ents.get ⟨i, h⟩).d_name e.iFnmFlag = true) →
              (if (ents.get ⟨i, h⟩).d_type = .lnk then
                  update_link e fuel (W i) (strmfp path0 (ents.get ⟨i, h⟩).d_name)
                    (targetPath ppath pname (ents.get ⟨i, h⟩).d_name)
                else update e fuel (W i) (strmfp path0 (ents.get ⟨i, h⟩).d_name)
                    (targetPath ppath pname (ents.get ⟨i, h⟩).d_name))
                = (W (i + 1), some (err i)))
            ∧ (¬ (((ents.get ⟨i, h⟩).d_type = .reg ∨ (ents.get ⟨i, h⟩).d_type = .lnk)
                ∧ e.fnmatch pattern (ents.get ⟨i, h⟩).d_name e.iFnmFlag = true) →
              W (i + 1) = W i ∧ err i = 0))
        ∧ scanLoop e fuel path0 ppath pname pattern ents w n0
            = (W ents.length,
               some (n0 + Finset.sum (Finset.range ents.length)
                            (fun i => if err i ≠ 0 then 1 else 0))) := by
  induction ents with
  | nil =>
    intro w n0
    exact ⟨fun _ => w, fun _ => 0, rfl, fun i h => absurd h (by simp), by simp [scanLoop]⟩
  | cons de rest ih =>
    intro w n0
    by_cases hsel : (de.d_type = .reg ∨ de.d_type = .lnk)
        ∧ e.fnmatch pattern de.d_name e.iFnmFlag = true
    · have hc : ∃ (w1 : World) (r : Int),
          (if de.d_type = .lnk then
              update_link e fuel w (strmfp path0 de.d_name) (targetPath ppath pname de.d_name)
            else update e fuel w (strmfp path0 de.d_name) (targetPath ppath pname de.d_name))
            = (w1, some r) := by
        split
        · exact update_link_returns e fuel w _ _ hf
        · exact update_returns e fuel w _ _ hf
      obtain ⟨w1, r, hc⟩ := hc
      obtain ⟨W, err, hW0, hstep, hloop⟩ := ih w1 (if r ≠ 0 then n0 + 1 else n0)
      refine ⟨fun i => Nat.casesOn i w (fun j => W j), fun i => Nat.casesOn i r (fun j => err j),
        rfl, ?_, ?_⟩
      · intro i h
        cases i with
        | zero =>
          refine ⟨fun _ => ?_, fun hn => absurd hsel hn⟩
          show (if de.d_type = .lnk then
                update_link e fuel w (strmfp path0 de.d_name) (targetPath ppath pname de.d_name)
              else update e fuel w (strmfp path0 de.d_name) (targetPath ppath pname de.d_name))
            = (W 0, some r)
          rw [hc, hW0]
        | succ j => exact hstep j (by simpa using h)
      · have h1n : ¬ (de.d_type ≠ .reg ∧ de.d_type ≠ .lnk) := by
          rcases hsel.1 with h1 | h1 <;> simp [h1]
        have h2n : ¬ (e.fnmatch pattern de.d_name e.iFnmFlag = false) := by simp [hsel.2]
        rw [scanLoop, if_neg h1n, if_neg h2n, hc]
        simp only [hloop, List.length_cons]
        rw [Finset.sum_range_succ']
        show (W rest.length, some ((if r ≠ 0 then n0 + 1 else n0)
                + Finset.sum (Finset.range rest.length) (fun i => if err i ≠ 0 then 1 else 0)))
          = (W rest.length, some (n0
                + (Finset.sum (Finset.range rest.length) (fun i => if err i ≠ 0 then 1 else 0)
                    + (if r ≠ 0 then 1 else 0))))
        congr 2
        by_cases hr : r ≠ 0
        · rw [if_pos hr, if_pos hr]
          ring
        · rw [if_neg hr, if_neg hr]
          ring
    · obtain ⟨W, err, hW0, hstep, hloop⟩ := ih w n0
      refine ⟨fun i => Nat.casesOn i w (fun j => W j), fun i => Nat.casesOn i 0 (fun j => err j),
        rfl, ?_, ?_⟩
      · intro i h
        cases i with
        | zero =>
          refine ⟨fun hs => absurd hs hsel, fun _ => ⟨hW0, rfl⟩⟩
        | succ j => exact hstep j (by simpa using h)
      · have hskip : scanLoop e fuel path0 ppath pname pattern (de :: rest) w n0
            = scanLoop e fuel path0 ppath pname pattern rest w n0 := by
          rw [scanLoop]
          by_cases h1 : de.d_type ≠ .reg ∧ de.d_type ≠ .lnk
          · rw [if_pos h1]
          · rw [if_neg h1]
            have h2 : e.fnmatch pattern de.d_name e.iFnmFlag = false := by
              cases hq : e.fnmatch pattern de.d_name e.iFnmFlag with
              | false => rfl
              | true =>
                exfalso
                apply hsel
                refine ⟨?_, hq⟩
                by_contra hh
                simp only [not_or] at hh
                exact h1 hh
            rw [if_pos h2]
        rw [hskip]
        simp only [hloop, List.length_cons]
        rw [Finset.sum_range_succ']
        show (W rest.length, some (n0
                + Finset.sum (Finset.range rest.length) (fun i => if err i ≠ 0 then 1 else 0)))
          = (W rest.length, some (n0
                + (Finset.sum (Finset.range rest.length) (fun i => if err i ≠ 0 then 1 else 0)
                    + (if (0 : Int) ≠ 0 then 1 else 0))))
        simp

theorem scanLoop_counts_witness :
    (PATH_MAX < 4097 ∧ opendir wScan.disk ['s'] = .ok entsScan
        ∧ (update defaultEnv 4097 wScan pSrcA pDstA).2 = some 3
        ∧ (scanLoop defaultEnv 4097 ['s'] ['d'] none PATTERN_ALL entsScan wScan 0).2 = some 1
        ∧ (scanLoop defaultEnv 4097 ['s'] ['d'] none PATTERN_ALL entsScan wScan 0).1.calls
            = [.lutimes ['d', '/', 'b'] 5, .lchmod ['d', '/', 'b'] 0o100644,
                .fwrite [['d'], ['b']] 0 1, .fopen_w ['d', '/', 'b'], .rmdir ['d', '/', 'a'],
                .unlink ['d', '/', 'a', '/', 'y'], .unlink ['d', '/', 'a', '/', 'x']])
      ∧ ∃ (W : Nat → World) (err : Nat → Int), W 0 = wScan
          ∧ (∀ (i : Nat) (h : i < entsScan.length),
              ((((entsScan.get ⟨i, h⟩).d_type = .reg ∨ (entsScan.get ⟨i, h⟩).d_type = .lnk)
                  ∧ defaultEnv.fnmatch PATTERN_ALL (entsScan.get ⟨i, h⟩).d_name
                      defaultEnv.iFnmFlag = true) →
                (if (entsScan.get ⟨i, h⟩).d_type = .lnk then
                    update_link defaultEnv 4097 (W i) (strmfp ['s'] (entsScan.get ⟨i, h⟩).d_name)
                      (targetPath ['d'] none (entsScan.get ⟨i, h⟩).d_name)
                  else update defaultEnv 4097 (W i) (strmfp ['s'] (entsScan.get ⟨i, h⟩).d_name)
                      (targetPath ['d'] none (entsScan.get ⟨i, h⟩).d_name))
                  = (W (i + 1), some (err i)))
              ∧ (¬ (((entsScan.get ⟨i, h⟩).d_type = .reg ∨ (entsScan.get ⟨i, h⟩).d_type = .lnk)
                  ∧ defaultEnv.fnmatch PATTERN_ALL (entsScan.get ⟨i, h⟩).d_name
                      defaultEnv.iFnmFlag = true) →
                W (i + 1) = W i ∧ err i = 0))
          ∧ scanLoop defaultEnv 4097 ['s'] ['d'] none PATTERN_ALL entsScan wScan 0
              = (W entsScan.length,
                 some (0 + Finset.sum (Finset.range entsScan.length)
                              (fun i => if err i ≠ 0 then 1 else 0))) :=
  ⟨by decide,
   scanLoop_counts defaultEnv 4097 ['s'] ['d'] none PATTERN_ALL (by decide) entsScan wScan 0⟩

/-! ### The first failure of `mkdirp` -/

theorem mkdirpLoop_failure (p : CStr) (pszMode : Nat) (fuel : Nat) :
    ∀ (w : World) (pc : Nat) (iSkipTest : Bool) (w2 : World) (r : Int),
      mkdirpLoop fuel w p pszMode pc iSkipTest = (w2, r) → r ≠ 0 →
      ∃ (w0 : World) (n : Nat), mkdir1 w0 (p.take n) pszMode = (w2, r) := by
  induction fuel with
  | zero =>
    intro w pc iSkipTest w2 r h hr
    simp only [mkdirpLoop, Prod.mk.injEq] at h
    exact absurd h.2.symm hr
  | succ fuel ih =>
    intro w pc iSkipTest w2 r h hr
    rw [mkdirpLoop_round fuel w p pszMode pc iSkipTest _ rfl] at h
    split at h
    · split at h
      · exact ⟨w, _, h⟩
      · split at h
        · simp only [Prod.mk.injEq] at h
          exact absurd h.2.symm hr
        · split at h
          · simp only [Prod.mk.injEq] at h
            exact absurd h.2.symm hr
          · exact ih _ _ _ _ _ h hr
    · split at h
      · simp only [Prod.mk.injEq] at h
        exact absurd h.2.symm hr
      · split at h
        · simp only [Prod.mk.injEq] at h
          exact absurd h.2.symm hr
        · exact ih _ _ _ _ _ h hr

/-- C26: a value other than 0 returned by `mkdirp` is the value -1 returned
by a failed `mkdir` on a prefix of the path, and the world is the one that
this call left: nothing is called after it. A round of the loop entered with
`iSkipTest` set, or on a prefix that `isdir` rejects, calls `mkdir` on the
prefix, without a test in the first case; when that fails the loop ends with
its result, otherwise the next round is entered with `iSkipTest` set. A round
on a prefix that `isdir` accepts calls nothing. -/
theorem mkdirp_stops_at_first_failure :
    (∀ (w : World) (p : CStr) (pszMode : Nat) (w2 : World) (r : Int),
        mkdirp w p pszMode = (w2, r) → r ≠ 0 →
        r = -1 ∧ ∃ (w0 : World) (n : Nat), mkdir1 w0 (p.take n) pszMode = (w2, r)
          ∧ (mkdir w0 (p.take n) pszMode).2 ≠ .ok ()
          ∧ w2.calls = .mkdir (p.take n) pszMode :: w0.calls)
      ∧ (∀ (fuel : Nat) (w : World) (p : CStr) (pszMode pc pc2 : Nat) (iSkipTest : Bool),
          pc2 = pc + ((p.drop pc).takeWhile (fun x => decide (x = DIRSEPARATOR_CHAR))).length
              + ((p.drop (pc + ((p.drop pc).takeWhile
                    (fun x => decide (x = DIRSEPARATOR_CHAR))).length)).takeWhile
                  (fun x => decide (x ≠ DIRSEPARATOR_CHAR))).length →
          (iSkipTest = true ∨ isdir w.disk (p.take pc2) = false →
            mkdirpLoop (fuel + 1) w p pszMode pc iSkipTest
              = if (mkdir1 w (p.take pc2) pszMode).2 ≠ 0 then mkdir1 w (p.take pc2) pszMode
                else if p[pc2]? = none then ((mkdir1 w (p.take pc2) pszMode).1, 0)
                else if p[pc2 + 1]? = none then ((mkdir1 w (p.take pc2) pszMode).1, 0)
                else mkdirpLoop fuel (mkdir1 w (p.take pc2) pszMode).1 p pszMode pc2 true)
          ∧ (iSkipTest = false → isdir w.disk (p.take pc2) = true →
              mkdirpLoop (fuel + 1) w p pszMode pc iSkipTest
                = if p[pc2]? = none then (w, 0)
                  else if p[pc2 + 1]? = none then (w, 0)
                  else mkdirpLoop fuel w p pszMode pc2 false)) := by
  refine ⟨?_, ?_⟩
  · intro w p pszMode w2 r h hr
    have hloop : ∃ (w0 : World) (n : Nat), mkdir1 w0 (p.take n) pszMode = (w2, r) := by
      unfold mkdirp at h
      simp only [] at h
      by_cases hcond : p ≠ [] ∧ p[1]? = some ':' ∧ p[2]? = some DIRSEPARATOR_CHAR
      · rw [if_pos hcond] at h
        by_cases hn : p[2]? = none
        · rw [if_pos hn] at h
          simp only [Prod.mk.injEq] at h
          exact absurd h.2.symm hr
        · rw [if_neg hn] at h
          exact mkdirpLoop_failure p pszMode _ _ _ _ _ _ h hr
      · rw [if_neg hcond] at h
        by_cases hn : p[0]? = none
        · rw [if_pos hn] at h
          simp only [Prod.mk.injEq] at h
          exact absurd h.2.symm hr
        · rw [if_neg hn] at h
          exact mkdirpLoop_failure p pszMode _ _ _ _ _ _ h hr
    obtain ⟨w0, n, h1⟩ := hloop
    have h2 : (mkdir w0 (p.take n) pszMode).2.rc = r := by
      have := congrArg Prod.snd h1
      simpa [mkdir1] using this
    have h3 : (mkdir w0 (p.take n) pszMode).1 = w2 := by
      have := congrArg Prod.fst h1
      simpa [mkdir1] using this
    have hcalls : (mkdir w0 (p.take n) pszMode).1.calls
        = .mkdir (p.take n) pszMode :: w0.calls := by
      unfold mkdir
      repeat' (first | rfl | split)
    refine ⟨?_, w0, n, h1, ?_, ?_⟩
    · rcases rc_range (mkdir w0 (p.take n) pszMode).2 with h4 | h4
      · rw [h4] at h2
        exact absurd h2.symm hr
      · rw [← h2, h4]
    · intro hok
      rw [hok] at h2
      exact hr h2.symm
    · rw [← h3]
      exact hcalls
  · intro fuel w p pszMode pc pc2 iSkipTest hpc2
    refine ⟨?_, ?_⟩
    · intro hc
      rw [mkdirpLoop_round fuel w p pszMode pc iSkipTest pc2 hpc2]
      have : (iSkipTest || !isdir w.disk (p.take pc2)) = true := by
        rcases hc with h | h <;> simp [h]
      rw [if_pos this]
    · intro h1 h2
      rw [mkdirpLoop_round fuel w p pszMode pc iSkipTest pc2 hpc2]
      have : ¬ ((iSkipTest || !isdir w.disk (p.take pc2)) = true) := by simp [h1, h2]
      rw [if_neg this]

theorem mkdirp_stops_at_first_failure_witness :
    (mkdirp wMkdirFault pDstXYZ DIRMODE
          = ((mkdirp wMkdirFault pDstXYZ DIRMODE).1, -1)
        ∧ (mkdirp wMkdirFault pDstXYZ DIRMODE).1.calls
            = [.mkdir ['d', '/', 'x', '/', 'y'] DIRMODE, .mkdir ['d', '/', 'x'] DIRMODE]
        ∧ isdir (mkdirp wMkdirFault pDstXYZ DIRMODE).1.disk ['d', '/', 'x'] = true)
      ∧ ((-1 : Int) = -1 ∧ ∃ (w0 : World) (n : Nat),
          mkdir1 w0 (pDstXYZ.take n) DIRMODE = ((mkdirp wMkdirFault pDstXYZ DIRMODE).1, -1)
            ∧ (mkdir w0 (pDstXYZ.take n) DIRMODE).2 ≠ .ok ()
            ∧ (mkdirp wMkdirFault pDstXYZ DIRMODE).1.calls
                = .mkdir (pDstXYZ.take n) DIRMODE :: w0.calls) :=
  ⟨by decide,
   mkdirp_stops_at_first_failure.1 wMkdirFault pDstXYZ DIRMODE
     (mkdirp wMkdirFault pDstXYZ DIRMODE).1 (-1) (by decide) (by decide)⟩

/-! ### A target of another type -/

/-- When `zapDirM` returns 0 outside the no-exec mode, the directory no
longer exists. -/
theorem zapDirM_zero_removes (zo : zapOpts) (hexec : zo.noexec = false) (fuel : Nat) (w : World)
    (path : CStr) (iMode : Nat) (w1 : World)
    (h : zapDirM fuel w path iMode zo = (w1, some 0)) : exists_ w1.disk path = false := by
  cases fuel with
  | zero => simp [zapDirM] at h
  | succ fuel =>
    unfold zapDirM at h
    by_cases hd : S_ISDIR iMode = true
    · simp only [hd, Bool.not_true, Bool.false_eq_true, if_false] at h
      cases ho : opendir w.disk path with
      | err er => simp [ho] at h
      | ok ents =>
        simp only [ho] at h
        cases hl : zapDirLoop (fun w2 p m => zapDirM fuel w2 p m zo) path zo ents w 0 with
        | mk wl o =>
          cases o with
          | none => simp [hl, zapDirEnd] at h
          | some nErr =>
            have hm := zapDirLoop_mono (fun w2 p m => zapDirM fuel w2 p m zo) path zo
              (fun a b c d f hh => zapDirM_nonneg zo fuel a b c d f hh) ents w 0 wl nErr hl
            simp only [hl, zapDirEnd, hexec, Bool.false_eq_true, if_false] at h
            by_cases hr : (rmdir wl path).2.rc ≠ 0
            · rw [if_pos hr] at h
              simp only [Prod.mk.injEq, Option.some.injEq] at h
              omega
            · rw [if_neg hr] at h
              simp only [Prod.mk.injEq, Option.some.injEq] at h
              have hok : (rmdir wl path).2 = .ok () := by
                cases hq : (rmdir wl path).2 with
                | ok u => rfl
                | err er =>
                  rw [hq] at hr
                  simp [Res.rc] at hr
              rw [← h.1]
              exact (rmdir_ok_removes wl path hok).1
    · simp [hd] at h

theorem unlink_other (w : World) (p : CStr) (k : Key) (hk : k ≠ canon w.disk.cwd p) :
    lookup k (unlink w p).1.disk.nodes = lookup k w.disk.nodes := by
  unfold unlink
  cases he : entry w.disk p false with
  | err er => rfl
  | ok kn =>
    obtain ⟨k1, n1⟩ := kn
    simp only []
    by_cases hd : n1.kind = .dir
    · rw [if_pos hd]
      rfl
    · rw [if_neg hd]
      by_cases hf : Fault.unlink k1 ∈ w.disk.faults
      · rw [if_pos hf]
        rfl
      · rw [if_neg hf]
        have hk1 : k1 = canon w.disk.cwd p := (entry_nofollow_elim w.disk p k1 n1 he hd).2.2.2.1
        simp only [World.del, World.log]
        rw [hk1]
        exact lookup_remove_other _ k _ hk

theorem zapFileM_unlink_only (w : World) (path : CStr) (iMode : Nat) (zo : zapOpts)
    (hnd : S_ISDIR iMode = false) (hexec : zo.noexec = false)
    (h : ¬ (zo.force = true ∧ hasWriteBit iMode = false)) :
    zapFileM w path iMode zo = ((unlink w path).1, -(unlink w path).2.rc) := by
  unfold zapFileM
  have hc : ¬ ((zo.force && !hasWriteBit iMode) = true) := by
    simpa using h
  simp only [hnd, hexec, Bool.false_eq_true, if_false]
  rw [if_neg hc]

/-- C27: in an `update` that goes past the freshen and no-empty tests, with
a target that `lstat` finds. A directory target is given to `zapDirM` first:
a count other than 0 is returned as it is, in the world that `zapDirM` left;
after a count of 0, outside the test mode, the directory is gone and the
result is that of `copy`. A link target, outside the test mode and with an
owner write bit or no force flag, is given to `unlink`, which is the only
call and leaves every other entity as it was: when it fails `update` returns
1 with the disk unchanged, otherwise the result is that of `copy`. For any
other target nothing is called before the test of `older` and the copy. -/
theorem update_type_mismatch (e : Env) (fuel : Nat) (w : World) (p1 p2 : CStr) (st : Stat)
    (hfresh : (e.fresh && !exist_file w.disk p2) = false)
    (hempty : ¬ (e.copyempty = false ∧ file_empty w.disk p1 = true))
    (hl : lstat w.disk p2 = .ok st) (hf : PATH_MAX < fuel) :
    (S_ISDIR st.st_mode = true →
        ∃ (w1 : World) (err : Int),
          zapDirM fuel w p2 st.st_mode ⟨true, e.test, true, false, e.force⟩ = (w1, some err)
            ∧ (err ≠ 0 → update e fuel w p1 p2 = (w1, some err))
            ∧ (err = 0 → e.test = false →
                exists_ w1.disk p2 = false
                  ∧ update e fuel w p1 p2 = ((copy e w1 p1 p2).1, some (copy e w1 p1 p2).2)))
      ∧ (S_ISLNK st.st_mode = true → e.test = false →
          e.force = false ∨ hasWriteBit st.st_mode = true →
          zapFileM w p2 st.st_mode ⟨false, e.test, true, false, e.force⟩
              = ((unlink w p2).1, -(unlink w p2).2.rc)
            ∧ (unlink w p2).1.calls = .unlink p2 :: w.calls
            ∧ (∀ k : Key, k ≠ canon w.disk.cwd p2 →
                lookup k (unlink w p2).1.disk.nodes = lookup k w.disk.nodes)
            ∧ ((unlink w p2).2 ≠ .ok () →
                update e fuel w p1 p2 = ((unlink w p2).1, some 1)
                  ∧ (unlink w p2).1.disk = w.disk)
            ∧ ((unlink w p2).2 = .ok () →
                update e fuel w p1 p2
                  = ((copy e (unlink w p2).1 p1 p2).1, some (copy e (unlink w p2).1 p1 p2).2)))
      ∧ (S_ISDIR st.st_mode = false → S_ISLNK st.st_mode = false →
          update e fuel w p1 p2 = ((updateEnd e w p1 p2).1, some (updateEnd e w p1 p2).2)) := by
  have hcopy : ∀ (w1 : World), e.test = false → exists_ w1.disk p2 = false →
      updateEnd e w1 p1 p2 = copy e w1 p1 p2 := by
    intro w1 ht hx
    unfold updateEnd
    rw [older_false_of_missing w1.disk p1 p2 hx]
    simp [ht]
  have hupd : update e fuel w p1 p2
      = if S_ISDIR st.st_mode then
          match zapDirM fuel w p2 st.st_mode ⟨true, e.test, true, false, e.force⟩ with
          | (w1, none) => (w1, none)
          | (w1, some err) =>
            if err ≠ 0 then (w1, some err)
            else
              ((updateEnd e w1 p1 (if e.test then [] else p2)).1,
               some (updateEnd e w1 p1 (if e.test then [] else p2)).2)
        else if S_ISLNK st.st_mode then
          (if (zapFileM w p2 st.st_mode ⟨false, e.test, true, false, e.force⟩).2 ≠ 0 then
             ((zapFileM w p2 st.st_mode ⟨false, e.test, true, false, e.force⟩).1,
              some (zapFileM w p2 st.st_mode ⟨false, e.test, true, false, e.force⟩).2)
           else
             ((updateEnd e (zapFileM w p2 st.st_mode ⟨false, e.test, true, false, e.force⟩).1
                 p1 (if e.test then [] else p2)).1,
              some (updateEnd e (zapFileM w p2 st.st_mode ⟨false, e.test, true, false, e.force⟩).1
                 p1 (if e.test then [] else p2)).2))
        else ((updateEnd e w p1 p2).1, some (updateEnd e w p1 p2).2) := by
    unfold update
    rw [hfresh]
    simp only [Bool.false_eq_true, if_false]
    rw [if_neg hempty]
    simp only [hl]
  refine ⟨?_, ?_, ?_⟩
  · intro hd
    obtain ⟨w1, err, hz, _⟩ := zapDirM_returns ⟨true, e.test, true, false, e.force⟩ fuel w p2
      st.st_mode (by omega) (by omega)
    refine ⟨w1, err, hz, ?_, ?_⟩
    · intro herr
      rw [hupd, if_pos hd, hz]
      simp only []
      rw [if_pos herr]
    · intro herr ht
      subst herr
      have hx : exists_ w1.disk p2 = false := by
        have hz2 := hz
        rw [ht] at hz2
        exact zapDirM_zero_removes ⟨true, false, true, false, e.force⟩ rfl fuel w p2 st.st_mode
          w1 hz2
      refine ⟨hx, ?_⟩
      rw [hupd, if_pos hd, hz]
      simp only [ne_eq, not_true_eq_false, if_false, ht, Bool.false_eq_true]
      rw [hcopy w1 ht hx]
  · intro hlnk ht hw
    have hd : S_ISDIR st.st_mode = false := by
      unfold S_ISLNK at hlnk
      unfold S_ISDIR
      simp only [decide_eq_true_eq] at hlnk
      simp [hlnk]
    have hz : zapFileM w p2 st.st_mode ⟨false, e.test, true, false, e.force⟩
        = ((unlink w p2).1, -(unlink w p2).2.rc) := by
      have hneg : ¬ ((⟨false, e.test, true, false, e.force⟩ : zapOpts).force = true
          ∧ hasWriteBit st.st_mode = false) := by
        rcases hw with h | h <;> simp [h]
      exact zapFileM_unlink_only w p2 st.st_mode ⟨false, e.test, true, false, e.force⟩ hd ht hneg
    refine ⟨hz, unlink_calls w p2, fun k hk => unlink_other w p2 k hk, ?_, ?_⟩
    · intro hfail
      have hrc : (unlink w p2).2.rc = -1 := by
        cases hq : (unlink w p2).2 with
        | ok u => exact absurd hq hfail
        | err er => rfl
      refine ⟨?_, unlink_failed_disk w p2 hfail⟩
      rw [hupd, hd, hlnk, hz]
      simp [hrc]
    · intro hok
      have hx := unlink_ok_removes w p2 hok
      rw [hupd, hd, hlnk, hz]
      simp only [hok, Res.rc, neg_zero, ne_eq, not_true_eq_false, if_false, Bool.false_eq_true,
        if_true, ht]
      rw [hcopy _ ht hx]
  · intro hd hlnk
    rw [hupd, hd, hlnk]
    simp

theorem update_type_mismatch_witness :
    ((defaultEnv.fresh && !exist_file wMismatch.disk pDstA) = false
        ∧ ¬ (defaultEnv.copyempty = false ∧ file_empty wMismatch.disk pSrcA = true)
        ∧ lstat wMismatch.disk pDstA = .ok ⟨0o040755, 100, 0⟩ ∧ PATH_MAX < 4097
        ∧ S_ISDIR 0o040755 = true
        ∧ (update defaultEnv 4097 wMismatch pSrcA pDstA).2 = some 0
        ∧ (update defaultEnv 4097 wMismatch pSrcA pDstA).1.calls
            = [.lutimes pDstA 5, .lchmod pDstA 0o100644, .fwrite [['d'], ['a']] 0 3,
                .fopen_w pDstA, .rmdir pDstA, .unlink ['d', '/', 'a', '/', 'x']]
        ∧ lookup [['d'], ['a']] (update defaultEnv 4097 wMismatch pSrcA pDstA).1.disk.nodes
            = some (fileNode 5 [1, 2, 3]))
      ∧ (S_ISDIR 0o040755 = true →
          ∃ (w1 : World) (err : Int),
            zapDirM 4097 wMismatch pDstA 0o040755
                ⟨true, defaultEnv.test, true, false, defaultEnv.force⟩ = (w1, some err)
              ∧ (err ≠ 0 → update defaultEnv 4097 wMismatch pSrcA pDstA = (w1, some err))
              ∧ (err = 0 → defaultEnv.test = false →
                  exists_ w1.disk pDstA = false
                    ∧ update defaultEnv 4097 wMismatch pSrcA pDstA
                        = ((copy defaultEnv w1 pSrcA pDstA).1,
                           some (copy defaultEnv w1 pSrcA pDstA).2))) :=
  ⟨by decide,
   (update_type_mismatch defaultEnv 4097 wMismatch pSrcA pDstA ⟨0o040755, 100, 0⟩
      (by decide) (by decide) (by decide) (by decide)).1⟩

/-! ### The progress display -/

/-- Without overflow of `offset * 100` in `off_t`, the percentage is the
quotient of the natural numbers, and it lies between 0 and 99. -/
theorem progressPc_exact (offset filelen : Nat) (h1 : offset < filelen)
    (h2 : offset * 100 < 2 ^ 63) :
    progressPc offset filelen = ((offset * 100 / filelen : Nat) : Int)
      ∧ offset * 100 / filelen ≤ 99 := by
  have hq : offset * 100 / filelen ≤ 99 := by
    have hpos : 0 < filelen := by omega
    have : offset * 100 / filelen < 100 := (Nat.div_lt_iff_lt_mul hpos).mpr (by omega)
    omega
  refine ⟨?_, hq⟩
  unfold progressPc
  have hw : wrapOff ((offset : Int) * 100) = ((offset * 100 : Nat) : Int) := by
    unfold wrapOff
    push_cast
    omega
  rw [hw, Int.tdiv_eq_ediv (Int.ofNat_nonneg _) (Int.ofNat_nonneg _), ← Int.natCast_div]
  unfold wrapInt
  generalize offset * 100 / filelen = q at hq
  omega

/-- C23, counterexample: for a file of 10^17 bytes, at the offset reached
after 87960930223 chunks of `BUFFERSIZE` bytes, `offset * 100` exceeds the
range of `off_t` and the percentage computed is -92, where the quotient of
the exact product by the length is 92. -/
theorem progress_percentage_overflows :
    87960930223 * BUFFERSIZE < 100000000000000000
      ∧ progressPc (87960930223 * BUFFERSIZE) 100000000000000000 = -92
      ∧ 87960930223 * BUFFERSIZE * 100 / 100000000000000000 = 92 := by
  decide

/-- C23, amended: with the progress display the unit is MB, with the divisor
1048576, exactly for a length above 100 * 1024 * 1024; KB, with the divisor
1024, exactly for a length above 100 * 1024 and at most 100 * 1024 * 1024;
and bytes, with the divisor 1, exactly for the other lengths. Without the
progress display the unit stays bytes. For an offset below the length whose
product by 100 is below 2^63, the percentage is the quotient of
`offset * 100` by the length, rounded down. -/
theorem progress_rule (filelen : Nat) :
    (progressUnit true filelen = (1048576, ['M', 'B']) ↔ 100 * 1024 * 1024 < filelen)
      ∧ (progressUnit true filelen = (1024, ['K', 'B'])
          ↔ 100 * 1024 < filelen ∧ filelen ≤ 100 * 1024 * 1024)
      ∧ (progressUnit true filelen = (1, ['B']) ↔ filelen ≤ 100 * 1024)
      ∧ progressUnit false filelen = (1, ['B'])
      ∧ (∀ offset : Nat, offset < filelen → offset * 100 < 2 ^ 63 →
          progressPc offset filelen = ((offset * 100 / filelen : Nat) : Int)) := by
  refine ⟨?_, ?_, ?_, rfl, ?_⟩
  · unfold progressUnit
    by_cases h1 : filelen > 100 * 1024 * 1024
    · simp [h1]
    · by_cases h2 : filelen > 100 * 1024
      · simp [h1, h2]
      · simp [h1, h2]
  · unfold progressUnit
    by_cases h1 : filelen > 100 * 1024 * 1024
    · simp [h1]
    · by_cases h2 : filelen > 100 * 1024
      · simp [h1, h2]
        omega
      · simp [h1, h2]
  · unfold progressUnit
    by_cases h1 : filelen > 100 * 1024 * 1024
    · simp [h1]
      omega
    · by_cases h2 : filelen > 100 * 1024
      · simp [h1, h2]
      · simp [h1, h2]
        omega
  · intro offset h1 h2
    exact (progressPc_exact offset filelen h1 h2).1

theorem progress_rule_witness :
    progressUnit true 104857601 = (1048576, ['M', 'B'])
      ∧ progressUnit true 104857600 = (1024, ['K', 'B'])
      ∧ progressUnit true 102400 = (1, ['B'])
      ∧ progressPc (3 * BUFFERSIZE) 104857601 = 2 :=
  ⟨(progress_rule 104857601).1.mpr (by decide),
   (progress_rule 104857600).2.1.mpr (by decide),
   (progress_rule 102400).2.2.1.mpr (by decide),
   (progress_rule 104857601).2.2.2.2 (3 * BUFFERSIZE) (by decide) (by decide)⟩

/-! ### The chunks of the transfer loop -/

/-- When nothing fails, the transfer loop started at `offset` writes the
source in chunks of `BUFFERSIZE` bytes, but for the last one, which is what
remains, and returns 0. -/
theorem copyLoop_chunks (name2 : CStr) (ks kd : Key) (src : Node) (hne : ks ≠ kd)
    (fuel : Nat) :
    ∀ (w : World) (offset : Nat) (dn : Node),
      src.data.length - offset < fuel → offset ≤ src.data.length →
      w.disk.faults = [] → lookup ks w.disk.nodes = some src →
      lookup kd w.disk.nodes = some dn → dn.data = src.data.take offset →
      ∃ (w1 : World) (dn1 : Node),
        copyLoop name2 ks kd src.data.length fuel w offset = (w1, 0)
          ∧ lookup kd w1.disk.nodes = some dn1 ∧ dn1.data = src.data
          ∧ w1.calls
              = ((List.range ((src.data.length - offset + BUFFERSIZE - 1) / BUFFERSIZE)).map
                  (fun i => Call.fwrite kd (offset + i * BUFFERSIZE)
                    (min BUFFERSIZE (src.data.length - (offset + i * BUFFERSIZE))))).reverse
                ++ w.calls := by
  induction fuel with
  | zero => intro w offset dn h; omega
  | succ fuel ih =>
    intro w offset dn hfuel hle hf hs hd hdata
    unfold copyLoop
    by_cases hlt : offset < src.data.length
    · simp only [hlt, if_true]
      have hn1 : 1 ≤ min BUFFERSIZE (src.data.length - offset) := by
        simp only [BUFFERSIZE]; omega
      have hn2 : min BUFFERSIZE (src.data.length - offset) ≤ src.data.length - offset :=
        Nat.min_le_right _ _
      have hcount : (src.data.length - offset + BUFFERSIZE - 1) / BUFFERSIZE
          = (src.data.length - (offset + min BUFFERSIZE (src.data.length - offset))
              + BUFFERSIZE - 1) / BUFFERSIZE + 1 := by
        simp only [BUFFERSIZE]; omega
      have hshift : ∀ i : Nat,
          i < (src.data.length - (offset + min BUFFERSIZE (src.data.length - offset))
              + BUFFERSIZE - 1) / BUFFERSIZE →
          offset + (i + 1) * BUFFERSIZE
            = offset + min BUFFERSIZE (src.data.length - offset) + i * BUFFERSIZE := by
        intro i hi
        simp only [BUFFERSIZE] at hi ⊢
        omega
      rw [hcount, List.range_succ_eq_map, List.map_cons, List.map_map, List.reverse_cons,
        List.append_assoc, List.singleton_append]
      simp only [Nat.zero_mul, Nat.add_zero]
      generalize hn : min BUFFERSIZE (src.data.length - offset) = n at hn1 hn2 hshift ⊢
      have hlen : ((src.data.drop offset).take n).length = n := by
        rw [List.length_take, List.length_drop]; omega
      have hfr : fread w.disk ks offset n = some ((src.data.drop offset).take n) := by
        simp [fread, hf, hs, hlen]
      simp only [hfr]
      generalize hbuf : (src.data.drop offset).take n = buf at hlen ⊢
      have hfw : fwrite w kd offset buf
          = ((w.log (.fwrite kd offset buf.length)).put kd
              { dn with data := dn.data.take offset ++ buf, mtime := w.disk.now }, true) := by
        simp [fwrite, hf, hd]
      rw [hfw]
      simp only [if_true]
      have hdata2 : dn.data.take offset ++ buf = src.data.take (offset + n) := by
        rw [hdata, List.take_take, Nat.min_self, List.take_add, hbuf]
      obtain ⟨w1, dn1, h1, h2, h3, h4⟩ :=
        ih ((w.log (.fwrite kd offset buf.length)).put kd
              { dn with data := dn.data.take offset ++ buf, mtime := w.disk.now })
          (offset + n)
          { dn with data := dn.data.take offset ++ buf, mtime := w.disk.now }
          (by omega) (by omega) hf
          (by simp only [World.put, World.log]
              rw [lookup_store_other _ _ _ _ (Ne.symm hne)]; exact hs)
          (by simp only [World.put, World.log]; exact lookup_store_same _ _ _)
          hdata2
      refine ⟨w1, dn1, h1, h2, h3, ?_⟩
      rw [h4]
      simp only [World.put, World.log, hlen]
      congr 2
      apply List.map_congr_left
      intro i hi
      simp only [Function.comp, Nat.succ_eq_add_one]
      rw [hshift i (List.mem_range.mp hi)]
    · simp only [hlt, if_false]
      have hzero : (src.data.length - offset + BUFFERSIZE - 1) / BUFFERSIZE = 0 := by
        simp only [BUFFERSIZE]; omega
      refine ⟨w, dn, rfl, hd, ?_, ?_⟩
      · rw [hdata]
        exact List.take_of_length_le (by omega)
      · rw [hzero]
        simp

theorem chunk_sum (len : Nat) (k : Nat) :
    Finset.sum (Finset.range k) (fun i => min BUFFERSIZE (len - i * BUFFERSIZE))
      = min (k * BUFFERSIZE) len := by
  induction k with
  | zero => simp
  | succ k ih =>
    rw [Finset.sum_range_succ, ih]
    simp only [BUFFERSIZE]
    omega

/-- C30, counterexample: for a file of 10^17 bytes the loop makes more than
87960930223 rounds, and at the offset of the round after these the percentage
computed is negative: `offset * 100` is beyond the range of `off_t`. -/
theorem progress_percentage_negative_in_loop :
    87960930223 < (100000000000000000 + BUFFERSIZE - 1) / BUFFERSIZE
      ∧ progressPc (87960930223 * BUFFERSIZE) 100000000000000000 < 0 := by
  decide

/-- C30, amended: when no read and no write fails, the transfer loop of a
file of `L` bytes returns 0 after one `fwrite` per round, in
`(L + BUFFERSIZE - 1) / BUFFERSIZE` rounds, which is `L / BUFFERSIZE` rounded
up; round `i` writes `min BUFFERSIZE (L - i * BUFFERSIZE)` bytes at the offset
`i * BUFFERSIZE`; every chunk has between 1 and `BUFFERSIZE` bytes, every
chunk but the last has `BUFFERSIZE` bytes, the chunks add up to `L`, every
offset is below `L` and the end of every chunk is at most `L`; the target
holds the bytes of the source afterwards. For `L * 100` below 2^63 the
percentage of every round lies between 0 and 99. -/
theorem copyLoop_chunk_arithmetic (name2 : CStr) (ks kd : Key) (src dn : Node) (w : World)
    (hne : ks ≠ kd) (hf : w.disk.faults = []) (hs : lookup ks w.disk.nodes = some src)
    (hd : lookup kd w.disk.nodes = some dn) (hdata : dn.data = []) :
    ∃ (w1 : World) (dn1 : Node),
      copyLoop name2 ks kd src.data.length (src.data.length + 1) w 0 = (w1, 0)
        ∧ w1.calls
            = ((List.range ((src.data.length + BUFFERSIZE - 1) / BUFFERSIZE)).map
                (fun i => Call.fwrite kd (i * BUFFERSIZE)
                  (min BUFFERSIZE (src.data.length - i * BUFFERSIZE)))).reverse ++ w.calls
        ∧ lookup kd w1.disk.nodes = some dn1 ∧ dn1.data = src.data
        ∧ src.data.length ≤ (src.data.length + BUFFERSIZE - 1) / BUFFERSIZE * BUFFERSIZE
        ∧ (src.data.length + BUFFERSIZE - 1) / BUFFERSIZE * BUFFERSIZE
            < src.data.length + BUFFERSIZE
        ∧ (∀ i : Nat, i < (src.data.length + BUFFERSIZE - 1) / BUFFERSIZE →
            1 ≤ min BUFFERSIZE (src.data.length - i * BUFFERSIZE)
              ∧ min BUFFERSIZE (src.data.length - i * BUFFERSIZE) ≤ BUFFERSIZE
              ∧ (i + 1 < (src.data.length + BUFFERSIZE - 1) / BUFFERSIZE →
                  min BUFFERSIZE (src.data.length - i * BUFFERSIZE) = BUFFERSIZE)
              ∧ i * BUFFERSIZE < src.data.length
              ∧ i * BUFFERSIZE + min BUFFERSIZE (src.data.length - i * BUFFERSIZE)
                  ≤ src.data.length)
        ∧ Finset.sum (Finset.range ((src.data.length + BUFFERSIZE - 1) / BUFFERSIZE))
            (fun i => min BUFFERSIZE (src.data.length - i * BUFFERSIZE)) = src.data.length
        ∧ (src.data.length * 100 < 2 ^ 63 →
            ∀ i : Nat, i < (src.data.length + BUFFERSIZE - 1) / BUFFERSIZE →
              0 ≤ progressPc (i * BUFFERSIZE) src.data.length
                ∧ progressPc (i * BUFFERSIZE) src.data.length ≤ 99) := by
  obtain ⟨w1, dn1, h1, h2, h3, h4⟩ := copyLoop_chunks name2 ks kd src hne (src.data.length + 1)
    w 0 dn (by omega) (by omega) hf hs hd (by rw [hdata]; simp)
  have harith : ∀ i : Nat, i < (src.data.length + BUFFERSIZE - 1) / BUFFERSIZE →
      i * BUFFERSIZE < src.data.length := by
    intro i hi
    simp only [BUFFERSIZE] at hi ⊢
    omega
  refine ⟨w1, dn1, h1, ?_, h2, h3, ?_, ?_, ?_, ?_, ?_⟩
  · rw [h4]
    simp only [Nat.sub_zero, Nat.zero_add]
  · simp only [BUFFERSIZE]
    omega
  · simp only [BUFFERSIZE]
    omega
  · intro i hi
    have := harith i hi
    simp only [BUFFERSIZE] at hi this ⊢
    refine ⟨by omega, by omega, ?_, this, by omega⟩
    intro hi2
    omega
  · rw [chunk_sum]
    simp only [BUFFERSIZE]
    omega
  · intro hL i hi
    have h5 := harith i hi
    obtain ⟨h6, h7⟩ := progressPc_exact (i * BUFFERSIZE) src.data.length h5 (by omega)
    rw [h6]
    exact ⟨Int.ofNat_nonneg _, by exact_mod_cast h7⟩

theorem copyLoop_chunk_arithmetic_witness :
    ((([['s'], ['a']] : Key) ≠ [['d'], ['a']])
        ∧ (fopen_w wCopy pDstA).1.disk.faults = []
        ∧ lookup [['s'], ['a']] (fopen_w wCopy pDstA).1.disk.nodes = some (fileNode 5 [1, 2, 3])
        ∧ lookup [['d'], ['a']] (fopen_w wCopy pDstA).1.disk.nodes
            = some ⟨.reg, 0o644, 500, [], []⟩
        ∧ (copyLoop pDstA [['s'], ['a']] [['d'], ['a']] 3 (3 + 1) (fopen_w wCopy pDstA).1 0).1.calls
            = [.fwrite [['d'], ['a']] 0 3, .fopen_w pDstA])
      ∧ ∃ (w1 : World) (dn1 : Node),
          copyLoop pDstA [['s'], ['a']] [['d'], ['a']] (fileNode 5 [1, 2, 3]).data.length
              ((fileNode 5 [1, 2, 3]).data.length + 1) (fopen_w wCopy pDstA).1 0 = (w1, 0)
            ∧ w1.calls
                = ((List.range (((fileNode 5 [1, 2, 3]).data.length + BUFFERSIZE - 1)
                      / BUFFERSIZE)).map
                    (fun i => Call.fwrite [['d'], ['a']] (i * BUFFERSIZE)
                      (min BUFFERSIZE ((fileNode 5 [1, 2, 3]).data.length
                        - i * BUFFERSIZE)))).reverse
                  ++ (fopen_w wCopy pDstA).1.calls
            ∧ lookup [['d'], ['a']] w1.disk.nodes = some dn1
            ∧ dn1.data = (fileNode 5 [1, 2, 3]).data :=
  ⟨by decide,
   match copyLoop_chunk_arithmetic pDstA [['s'], ['a']] [['d'], ['a']] (fileNode 5 [1, 2, 3])
      ⟨.reg, 0o644, 500, [], []⟩ (fopen_w wCopy pDstA).1 (by decide) (by decide) (by decide)
      (by decide) rfl with
   | ⟨w1, dn1, h1, h2, h3, h4, _⟩ => ⟨w1, dn1, h1, h2, h3, h4⟩⟩

end Update
